import Mathlib

/-!
# libmigrate: reconciliation and version stepping

A shallow embedding of `internal.go`, `errors.go` and `libmigrate.go`.

* Go `int` is modelled by `Int`; the only place where the machine range matters
  is `strconv.Atoi`, which is modelled for a 64-bit `int`.
* Go `string` is modelled by `String`, all operations working on its character list.
* The two collaborators (`dbWrapper`, `filesystemWrapper`) are records of state
  passing functions over an arbitrary adapter state `σ`; every call made to them is
  appended, together with the error it answered, to a log carried by `World`.
* A run-time panic (index out of range) is an explicit result.
* `printf` output and the `context.Context` argument are not modelled.
-/

namespace Libmigrate

/-! ## Errors (`errors.go`) -/

/-- The `Err` field of a `*strconv.NumError` returned by `strconv.Atoi`. -/
inductive NumError where
  | ErrSyntax
  | ErrRange
deriving DecidableEq, Repr

/-- The error values of `errors.go` that the modelled code builds, plus `adapterError`
for any other error value an adapter may answer. -/
inductive Error where
  | filesystemMissingDbMigrationError (version : Int)
  | filesystemMigrationMismatchError (version : Int) (dbName filesystemName : String)
  | migrationNameMismatchError (version : Int) (upName downName : String)
  | badMigrationFilenameError (filename expected : String) (cause : Option NumError)
  | missingMigrationError (version : Int) (isUp : Bool)
  | badVersionError (version : Int) (problem : String)
  | adapterError (msg : String)
deriving DecidableEq, Repr

/-- A Go result `(value, err)` of a function that may also panic. -/
inductive Res (α : Type) where
  | ok (a : α)
  | err (e : Error)
  | panic
deriving DecidableEq, Repr

/-- How a call of `MigrateTo` / `MigrateLatest` ends. `outOfFuel` is produced only when
the stepping loop is given fewer iterations than it needs. -/
inductive Outcome where
  | returned (err : Option Error)
  | panicked
  | outOfFuel
deriving DecidableEq, Repr

/-! ## Strings (`strings`, `strconv`, `fmt`) -/

/-- Go `strings.HasSuffix`. -/
def HasSuffix (s suffix : String) : Bool := suffix.data.isSuffixOf s.data

/-- Go `strings.HasPrefix`. -/
def HasPrefix (s pre : String) : Bool := pre.data.isPrefixOf s.data

/-- Go `strings.TrimSuffix`. -/
def TrimSuffix (s suffix : String) : String :=
  if HasSuffix s suffix then ⟨s.data.take (s.data.length - suffix.data.length)⟩ else s

/-- Go `strings.SplitN(s, "_", 2)` on the character list: the text before the first
`'_'` and, when there is one, the text after it. -/
def splitUnderscore : List Char → List (List Char)
  | [] => [[]]
  | c :: cs =>
    if c = '_' then [[], cs]
    else
      match splitUnderscore cs with
      | [] => [[c]]
      | p :: ps => (c :: p) :: ps

/-- Go `strings.SplitN(s, "_", 2)`. -/
def SplitN (s : String) : List String := (splitUnderscore s.data).map String.mk

/-- Whether a byte is an ASCII decimal digit. -/
def isDigit (c : Char) : Bool := decide (48 ≤ c.toNat ∧ c.toNat ≤ 57)

/-- The value of an ASCII decimal digit. -/
def digitVal (c : Char) : Nat := c.toNat - 48

/-- The largest `uint64`. -/
def maxUint64 : Nat := 18446744073709551615

/-- The digit loop of `strconv.ParseUint(s, 10, 64)`: a non-digit is a syntax error,
an overflow of `uint64` is a range error, whichever comes first from the left. -/
def parseUintLoop : List Char → Nat → Except NumError Nat
  | [], n => .ok n
  | c :: cs, n =>
    if !isDigit c then .error .ErrSyntax
    else if n ≥ maxUint64 / 10 + 1 then .error .ErrRange
    else if n * 10 + digitVal c > maxUint64 then .error .ErrRange
    else parseUintLoop cs (n * 10 + digitVal c)

/-- Go `strconv.Atoi` for a 64-bit `int`: an optional sign followed by at least one
decimal digit, the value lying in `[-2^63, 2^63-1]`. -/
def Atoi (s : String) : Except NumError Int :=
  match s.data with
  | [] => .error .ErrSyntax
  | c :: cs =>
    let neg := c = '-'
    let body := if c = '+' ∨ c = '-' then cs else c :: cs
    match body with
    | [] => .error .ErrSyntax
    | _ :: _ =>
      match parseUintLoop body 0 with
      | .error e => .error e
      | .ok un =>
        if ¬ neg ∧ un ≥ 2 ^ 63 then .error .ErrRange
        else if neg ∧ un > 2 ^ 63 then .error .ErrRange
        else .ok (if neg then -(un : Int) else (un : Int))

/-- The ASCII digit of `d < 10`. -/
def digitChar (d : Nat) : Char := Char.ofNat (48 + d)

/-- Decimal digits of `n`, most significant first, prepended to `acc`. -/
def decimalAux : Nat → Nat → List Char → List Char
  | 0, _, acc => acc
  | fuel + 1, n, acc =>
    if n < 10 then digitChar n :: acc
    else decimalAux fuel (n / 10) (digitChar (n % 10) :: acc)

/-- Decimal digits of a natural number (`"0"` for zero). -/
def decimal (n : Nat) : List Char := decimalAux (n + 1) n []

/-- Go `fmt.Sprintf("%d", i)`. -/
def formatInt (i : Int) : String :=
  if i < 0 then ⟨'-' :: decimal i.natAbs⟩ else ⟨decimal i.natAbs⟩

/-- Go `fmt.Sprintf("%04d", i)`: zero padding to width 4, the sign counting for one. -/
def formatInt04 (i : Int) : String :=
  if i < 0 then
    ⟨'-' :: (List.replicate (3 - (decimal i.natAbs).length) '0' ++ decimal i.natAbs)⟩
  else
    ⟨List.replicate (4 - (decimal i.natAbs).length) '0' ++ decimal i.natAbs⟩

/-! ## Data (`internal.go`) -/

/-- Go `type migration struct`. -/
structure migration where
  Version : Int
  Name : String
  HasUp : Bool
  HasDown : Bool
deriving DecidableEq, Repr

/-- Go `type dbMigration struct`. -/
structure dbMigration where
  Version : Int
  Name : String
deriving DecidableEq, Repr

/-- The zero value of `migration`, which `make([]migration, n)` fills the slice with. -/
def migration.zero : migration := ⟨0, "", false, false⟩

/-- Go `migration.Filename`: `fmt.Sprintf("%04d_%s.%s.sql", m.Version, m.Name, direction)`. -/
def migration.Filename (m : migration) (isUp : Bool) : String :=
  let direction := if !isUp then "down" else "up"
  formatInt04 m.Version ++ "_" ++ m.Name ++ "." ++ direction ++ ".sql"

/-- Go `const NoTransactionPrefix`. -/
def NoTransactionPrefix : String := "-- migrate: no-transaction\n"

/-- A Go `map[int]migration` as an association list with pairwise distinct keys. -/
abbrev MigrationMap := List (Int × migration)

/-- Go `m, ok := migrations[version]`. -/
def MigrationMap.index : MigrationMap → Int → Option migration
  | [], _ => none
  | (k, v) :: rest, version => if k = version then some v else MigrationMap.index rest version

/-- Go `migrations[version] = m`. -/
def MigrationMap.assign : MigrationMap → Int → migration → MigrationMap
  | [], version, m => [(version, m)]
  | (k, v) :: rest, version, m =>
    if k = version then (version, m) :: rest else (k, v) :: MigrationMap.assign rest version m

/-- Go slice indexing `s[i]` with an `int` index: `none` is the index-out-of-range panic. -/
def sliceAt {α : Type} (s : List α) (i : Int) : Option α :=
  if i < 0 then none else s.get? i.toNat

/-! ## Collaborators and the call log -/

/-- A call made to one of the two collaborators. -/
inductive Call where
  | RequireSchema
  | ListMigrations
  | GetVersion
  | ApplyMigration (useTx isUp : Bool) (version : Int) (name query : String)
  | ListMigrationDir
  | ReadMigration (filename : String)
deriving DecidableEq, Repr

/-- A logged call together with the error it answered (`none` is Go `nil`). -/
structure Event where
  call : Call
  err : Option Error
deriving DecidableEq, Repr

/-- Go `type dbWrapper interface` (the methods the modelled code calls). -/
structure dbWrapper (σ : Type) where
  ApplyMigration : Bool → Bool → Int → String → String → σ → Option Error × σ
  RequireSchema : σ → Option Error × σ
  ListMigrations : σ → (List dbMigration × Option Error) × σ
  GetVersion : σ → (Int × Option Error) × σ

/-- Go `type filesystemWrapper interface` (the methods the modelled code calls). -/
structure filesystemWrapper (σ : Type) where
  ListMigrationDir : σ → (List String × Option Error) × σ
  ReadMigration : String → σ → (String × Option Error) × σ

/-- Go `type migrator struct`. -/
structure migrator (σ : Type) where
  db : dbWrapper σ
  filesystem : filesystemWrapper σ
  disableTransactions : Bool

/-- The state of the collaborators and the log of the calls made so far. -/
structure World (σ : Type) where
  state : σ
  log : List Event
deriving DecidableEq, Repr

variable {σ : Type}

/-- Calls `m.db.RequireSchema(ctx)`. -/
def callRequireSchema (m : migrator σ) (w : World σ) : Option Error × World σ :=
  let r := m.db.RequireSchema w.state
  (r.1, ⟨r.2, w.log ++ [⟨Call.RequireSchema, r.1⟩]⟩)

/-- Calls `m.db.ListMigrations(ctx)`. -/
def callListMigrations (m : migrator σ) (w : World σ) :
    (List dbMigration × Option Error) × World σ :=
  let r := m.db.ListMigrations w.state
  (r.1, ⟨r.2, w.log ++ [⟨Call.ListMigrations, r.1.2⟩]⟩)

/-- Calls `m.db.GetVersion(ctx)`. -/
def callGetVersion (m : migrator σ) (w : World σ) : (Int × Option Error) × World σ :=
  let r := m.db.GetVersion w.state
  (r.1, ⟨r.2, w.log ++ [⟨Call.GetVersion, r.1.2⟩]⟩)

/-- Calls `m.db.ApplyMigration(ctx, useTx, isUp, version, name, query)`. -/
def callApplyMigration (m : migrator σ) (useTx isUp : Bool) (version : Int)
    (name query : String) (w : World σ) : Option Error × World σ :=
  let r := m.db.ApplyMigration useTx isUp version name query w.state
  (r.1, ⟨r.2, w.log ++ [⟨Call.ApplyMigration useTx isUp version name query, r.1⟩]⟩)

/-- Calls `m.filesystem.ListMigrationDir()`. -/
def callListMigrationDir (m : migrator σ) (w : World σ) :
    (List String × Option Error) × World σ :=
  let r := m.filesystem.ListMigrationDir w.state
  (r.1, ⟨r.2, w.log ++ [⟨Call.ListMigrationDir, r.1.2⟩]⟩)

/-- Calls `m.filesystem.ReadMigration(filename)`. -/
def callReadMigration (m : migrator σ) (filename : String) (w : World σ) :
    (String × Option Error) × World σ :=
  let r := m.filesystem.ReadMigration filename w.state
  (r.1, ⟨r.2, w.log ++ [⟨Call.ReadMigration filename, r.1.2⟩]⟩)

/-! ## Parsing, validation, reconciliation (`internal.go`) -/

/-- What one recognized filename contributes: the locals `version`, `name`, `up`, `down`
of the loop body of `filenamesToMigrations`. -/
structure parsedName where
  version : Int
  name : String
  up : Bool
  down : Bool
deriving DecidableEq, Repr

/-- The first half of the loop body of `filenamesToMigrations` (lines 79-101):
`ok none` is `continue`, `err` is the early return, `panic` an index out of range
in `parts[0]` or `parts[1]`. -/
def parseFilename (s : String) : Res (Option parsedName) :=
  let up := HasSuffix s ".up.sql"
  let down := HasSuffix s ".down.sql"
  if (!up && !down) || up == down then .ok none
  else
    match SplitN s with
    | [] => .panic
    | p0 :: rest =>
      match Atoi p0 with
      | .error cause => .err (.badMigrationFilenameError s "" (some cause))
      | .ok version =>
        match rest with
        | [] => .panic
        | p1 :: _ =>
          let name := if up then TrimSuffix p1 ".up.sql" else TrimSuffix p1 ".down.sql"
          .ok (some ⟨version, name, up, down⟩)

/-- The second half of the loop body of `filenamesToMigrations` (lines 103-133). -/
def recordMigration (migrationsByVersion : MigrationMap) (p : parsedName) :
    Res MigrationMap :=
  match migrationsByVersion.index p.version with
  | none => .ok (migrationsByVersion.assign p.version ⟨p.version, p.name, p.up, p.down⟩)
  | some m =>
    if m.Name ≠ p.name then
      if p.up then .err (.migrationNameMismatchError p.version p.name m.Name)
      else .err (.migrationNameMismatchError p.version m.Name p.name)
    else
      if p.up then .ok (migrationsByVersion.assign p.version { m with HasUp := true })
      else .ok (migrationsByVersion.assign p.version { m with HasDown := true })

/-- The loop `for _, s := range names` of `filenamesToMigrations`. -/
def parseNames : List String → MigrationMap → Res MigrationMap
  | [], migrationsByVersion => .ok migrationsByVersion
  | s :: names, migrationsByVersion =>
    match parseFilename s with
    | .panic => .panic
    | .err e => .err e
    | .ok none => parseNames names migrationsByVersion
    | .ok (some p) =>
      match recordMigration migrationsByVersion p with
      | .panic => .panic
      | .err e => .err e
      | .ok byVersion => parseNames names byVersion

/-- The loop of `validateMigrations` over the remaining values of `i`. -/
def validateFrom (migrations : MigrationMap) : List Nat → Option Error
  | [] => none
  | i :: rest =>
    let version : Int := (i : Int) + 1
    match migrations.index version with
    | none => some (.missingMigrationError version true)
    | some migration =>
      if !migration.HasUp then some (.missingMigrationError version true)
      else validateFrom migrations rest

/-- Go `validateMigrations`: `for i := 0; i < len(migrations); i++`. -/
def validateMigrations (_isUp : Bool) (migrations : MigrationMap) : Option Error :=
  validateFrom migrations (List.range migrations.length)

/-- The loop `for _, dbMigration := range dbMigrations` of `testForUnknownMigrations`. -/
def checkDbMigrations (migrations : MigrationMap) : List dbMigration → Option Error
  | [] => none
  | dbMigration :: rest =>
    match migrations.index dbMigration.Version with
    | none => some (.filesystemMissingDbMigrationError dbMigration.Version)
    | some fsMigration =>
      if fsMigration.Name ≠ dbMigration.Name then
        some (.filesystemMigrationMismatchError dbMigration.Version dbMigration.Name
          fsMigration.Name)
      else checkDbMigrations migrations rest

/-- Go `migrator.testForUnknownMigrations`. The error answered by `ListMigrations` is
assigned to `err` and never looked at. -/
def testForUnknownMigrations (m : migrator σ) (migrations : MigrationMap) (w : World σ) :
    Option Error × World σ :=
  let r := callListMigrations m w
  (checkDbMigrations migrations r.1.1, r.2)

/-- The loop `for version, m := range migrationsByVersion { result[version-1] = m }`;
`none` is the index-out-of-range panic. -/
def fillResult : List (Int × migration) → List migration → Option (List migration)
  | [], result => some result
  | (version, m) :: rest, result =>
    if 0 ≤ version - 1 ∧ version - 1 < result.length then
      fillResult rest (result.set (version - 1).toNat m)
    else none

/-- Go `migrator.filenamesToMigrations`. -/
def filenamesToMigrations (m : migrator σ) (names : List String) (w : World σ) :
    Res (List migration) × World σ :=
  match parseNames names [] with
  | .panic => (.panic, w)
  | .err e => (.err e, w)
  | .ok migrationsByVersion =>
    match validateMigrations true migrationsByVersion with
    | some e => (.err e, w)
    | none =>
      match testForUnknownMigrations m migrationsByVersion w with
      | (some e, w1) => (.err e, w1)
      | (none, w1) =>
        match fillResult migrationsByVersion
            (List.replicate migrationsByVersion.length migration.zero) with
        | none => (.panic, w1)
        | some result => (.ok result, w1)

/-- Go `migrator.listMigrations`. The error answered by `ListMigrationDir` is assigned
to `err` and never looked at. -/
def listMigrations (m : migrator σ) (w : World σ) : Res (List migration) × World σ :=
  match callRequireSchema m w with
  | (some e, w1) => (.err e, w1)
  | (none, w1) =>
    let r := callListMigrationDir m w1
    filenamesToMigrations m r.1.1 r.2

/-! ## Stepping (`internal.go`, `libmigrate.go`) -/

/-- Go `migrator.useTx`. -/
def migrator.useTx (m : migrator σ) (sql : String) : Bool :=
  if m.disableTransactions then false
  else if HasPrefix sql NoTransactionPrefix then false
  else true

/-- Go `migrator.internalMigrate`. -/
def internalMigrate (m : migrator σ) (migration : migration) (isUp : Bool) (w : World σ) :
    Option Error × World σ :=
  if (isUp && !migration.HasUp) || (!isUp && !migration.HasDown) then
    (some (.missingMigrationError migration.Version isUp), w)
  else
    match callReadMigration m (migration.Filename isUp) w with
    | ((_, some e), w1) => (some e, w1)
    | ((sqlString, none), w1) =>
      callApplyMigration m (m.useTx sqlString) isUp migration.Version migration.Name
        sqlString w1

/-- Go `migrator.GetVersion`. -/
def GetVersion (m : migrator σ) (w : World σ) : (Int × Option Error) × World σ :=
  match callRequireSchema m w with
  | (some e, w1) => ((0, some e), w1)
  | (none, w1) => callGetVersion m w1

/-- The loop `for currVersion != version` of `MigrateTo`. Every iteration moves
`currVersion` by `step`; `fuel` bounds the number of iterations. -/
def migrateLoop (m : migrator σ) (availableMigrations : List migration) (version : Int)
    (isUp : Bool) (step : Int) : Nat → Int → World σ → Outcome × World σ
  | fuel, currVersion, w =>
    if currVersion = version then (.returned none, w)
    else
      match fuel with
      | 0 => (.outOfFuel, w)
      | fuel + 1 =>
        match sliceAt availableMigrations (if isUp then currVersion else currVersion - 1) with
        | none => (.panicked, w)
        | some migration =>
          match internalMigrate m migration isUp w with
          | (some e, w1) => (.returned (some e), w1)
          | (none, w1) =>
            migrateLoop m availableMigrations version isUp step fuel (currVersion + step) w1

/-- Go `migrator.MigrateTo`. The loop needs `|version - currVersion|` iterations, which
is the fuel it is given. -/
def MigrateTo (m : migrator σ) (version : Int) (w : World σ) : Outcome × World σ :=
  match listMigrations m w with
  | (.panic, w1) => (.panicked, w1)
  | (.err e, w1) => (.returned (some e), w1)
  | (.ok availableMigrations, w1) =>
    match GetVersion m w1 with
    | ((_, some e), w2) => (.returned (some e), w2)
    | ((currVersion, none), w2) =>
      if version = currVersion then (.returned none, w2)
      else if version < 0 then
        (.returned (some (.badVersionError version "version must be 0 or higher")), w2)
      else if version > (availableMigrations.length : Int) then
        (.returned (some (.badVersionError version
          ("max version is " ++ formatInt availableMigrations.length))), w2)
      else
        let isUp := decide (currVersion < version)
        let step : Int := if !isUp then -1 else 1
        migrateLoop m availableMigrations version isUp step
          (version - currVersion).natAbs currVersion w2

/-- Go `migrator.MigrateLatest`. -/
def MigrateLatest (m : migrator σ) (w : World σ) : Outcome × World σ :=
  match listMigrations m w with
  | (.panic, w1) => (.panicked, w1)
  | (.err e, w1) => (.returned (some e), w1)
  | (.ok migrations, w1) =>
    let toVersion : Int :=
      match migrations.getLast? with
      | none => 0
      | some last => last.Version
    MigrateTo m toVersion w1

/-- Go `migrator.HasPending`. -/
def HasPending (m : migrator σ) (w : World σ) : Res Bool × World σ :=
  match GetVersion m w with
  | ((_, some e), w1) => (.err e, w1)
  | ((version, none), w1) =>
    match listMigrations m w1 with
    | (.panic, w2) => (.panic, w2)
    | (.err e, w2) => (.err e, w2)
    | (.ok availableMigrations, w2) =>
      (.ok (decide (version ≠ (availableMigrations.length : Int))), w2)

/-- The events appended to the log between two worlds. -/
def newEvents (w w1 : World σ) : List Event := w1.log.drop w.log.length

/-- The `ApplyMigration` calls among some events, as `(isUp, version, name)`. -/
def applyCalls : List Event → List (Bool × Int × String)
  | [] => []
  | ⟨.ApplyMigration _ isUp version name _, _⟩ :: rest =>
    (isUp, version, name) :: applyCalls rest
  | _ :: rest => applyCalls rest

/-- The `ReadMigration` calls among some events. -/
def readCalls : List Event → List String
  | [] => []
  | ⟨.ReadMigration filename, _⟩ :: rest => filename :: readCalls rest
  | _ :: rest => readCalls rest

/-! ## Sample collaborators -/

/-- A ledger held in memory: a successful up step appends the row of that version and
name, a successful down step removes it, the version is the greatest version among the
rows (0 when there is none). No call fails. -/
def ledgerDb : dbWrapper (List dbMigration) where
  ApplyMigration := fun _ isUp version name _ rows =>
    if isUp then (none, rows ++ [⟨version, name⟩])
    else (none, rows.filter (fun r => !(r.Version = version && r.Name = name)))
  RequireSchema := fun rows => (none, rows)
  ListMigrations := fun rows => ((rows, none), rows)
  GetVersion := fun rows =>
    match rows.map (·.Version) with
    | [] => ((0, none), rows)
    | v :: vs => ((vs.foldl max v, none), rows)

/-- A directory listing with every script body empty. -/
def listingFs (names : List String) : filesystemWrapper (List dbMigration) where
  ListMigrationDir := fun rows => ((names, none), rows)
  ReadMigration := fun _ rows => (("", none), rows)

/-- A migrator over `ledgerDb` and `listingFs`. -/
def sampleMigrator (names : List String) : migrator (List dbMigration) :=
  ⟨ledgerDb, listingFs names, false⟩

/-! ## Predicates and fixtures used in the statements -/

/-- Well-formedness of the version map: distinct keys, and every descriptor stored under
its own version. -/
def MapOk (m : MigrationMap) : Prop :=
  (m.map Prod.fst).Nodup ∧ ∀ k mg, m.index k = some mg → mg.Version = k

/-- Version `i` is present in the map with its up-script. -/
def hasUpAt (migrations : MigrationMap) (i : Int) : Prop :=
  ∃ mg, migrations.index i = some mg ∧ mg.HasUp = true

/-- The ledger `testForUnknownMigrations` gets from `ListMigrations` in world `w`. -/
def ledgerOf (m : migrator σ) (w : World σ) : List dbMigration :=
  (m.db.ListMigrations w.state).1.1

/-- A validated, ordered migration list: index `i` holds version `i + 1` with its
up-script. -/
def ValidSet (avail : List migration) : Prop :=
  ∀ i : Nat, i < avail.length →
    ∃ mg, avail.get? i = some mg ∧ mg.Version = (i : Int) + 1 ∧ mg.HasUp = true

/-- An entry the loop of `filenamesToMigrations` does not skip: it ends with exactly one
of the two direction suffixes. -/
def recognized (s : String) : Bool :=
  HasSuffix s ".up.sql" != HasSuffix s ".down.sql"

/-- Every descriptor of the map lies in `1..N`, under its own version, with the name
`nameOf` gives that version. -/
def Canon (N : Nat) (nameOf : Int → String) (m : MigrationMap) : Prop :=
  (m.map Prod.fst).Nodup ∧
    ∀ k mg, m.index k = some mg → 1 ≤ k ∧ k ≤ (N : Int) ∧ mg.Version = k ∧ mg.Name = nameOf k

/-- A call made by one step of the loop: reading a script body or applying it. -/
def isStepCall : Call → Bool
  | .ReadMigration _ => true
  | .ApplyMigration _ _ _ _ _ => true
  | _ => false

/-- The name of version `v` in the ordered list (`""` when `v` is not in `1..len`). -/
def versionName (avail : List migration) (v : Int) : String :=
  match sliceAt avail (v - 1) with
  | some mg => mg.Name
  | none => ""

/-- The apply calls of `n` upward steps from version `c`: versions `c+1`, `c+2`, ... -/
def upSteps (avail : List migration) : Int → Nat → List (Bool × Int × String)
  | _, 0 => []
  | c, n + 1 => (true, c + 1, versionName avail (c + 1)) :: upSteps avail (c + 1) n

/-- The apply calls of `n` downward steps from version `c`: versions `c`, `c-1`, ... -/
def downSteps (avail : List migration) : Int → Nat → List (Bool × Int × String)
  | _, 0 => []
  | c, n + 1 => (false, c, versionName avail c) :: downSteps avail (c - 1) n

/-- Whether `internalMigrate` refuses the step for want of a script. -/
def scriptMissing (mg : migration) (isUp : Bool) : Bool :=
  (isUp && !mg.HasUp) || (!isUp && !mg.HasDown)

/-- The apply calls of `k` steps in the direction of `isUp`. -/
def stepCalls (avail : List migration) (isUp : Bool) (c : Int) (k : Nat) :
    List (Bool × Int × String) :=
  if isUp then upSteps avail c k else downSteps avail c k

/-- A filesystem whose directory lists `names` and whose every read fails. -/
def unreadableFs (names : List String) : filesystemWrapper (List dbMigration) where
  ListMigrationDir := fun rows => ((names, none), rows)
  ReadMigration := fun _ rows => (("", some (.adapterError "read failed")), rows)

/-- The in-memory ledger, except that applying version `failAt` fails. -/
def failingDb (failAt : Int) : dbWrapper (List dbMigration) where
  ApplyMigration := fun useTx isUp version name query rows =>
    if version = failAt then (some (.adapterError "apply failed"), rows)
    else ledgerDb.ApplyMigration useTx isUp version name query rows
  RequireSchema := ledgerDb.RequireSchema
  ListMigrations := ledgerDb.ListMigrations
  GetVersion := ledgerDb.GetVersion

/-- The in-memory ledger, except that `GetVersion` answers `version` whatever the rows. -/
def staleDb (version : Int) : dbWrapper (List dbMigration) where
  ApplyMigration := ledgerDb.ApplyMigration
  RequireSchema := ledgerDb.RequireSchema
  ListMigrations := ledgerDb.ListMigrations
  GetVersion := fun rows => ((version, none), rows)

/-- The file names of the three-version fixture; version 1 has no down-script. -/
def threeVersions : List String :=
  ["0001_v1.up.sql", "0002_v2.up.sql", "0002_v2.down.sql", "0003_v3.up.sql",
    "0003_v3.down.sql"]

/-- The migration list `threeVersions` parses to. -/
def threeMigrations : List migration :=
  [⟨1, "v1", true, false⟩, ⟨2, "v2", true, true⟩, ⟨3, "v3", true, true⟩]

/-- The calls every run of `MigrateTo` makes before stepping, all answering no error. -/
def preludeEvents : List Event :=
  [⟨.RequireSchema, none⟩, ⟨.ListMigrationDir, none⟩, ⟨.ListMigrations, none⟩,
    ⟨.RequireSchema, none⟩, ⟨.GetVersion, none⟩]

/-- The file names of `TestFilenamesToMigrations`. -/
def mixedNames : List String :=
  ["0002_second.up.sql", "ignored", "0001_first.down.sql", "0001_ignored.sql",
    "0002_second.down.sql", "9999_asfjkgsdhsl.up.txt", "0001_first.up.sql"]

/-- Some entry of `names` is a recognized up-script of version `v`. -/
def upSeen (names : List String) (v : Int) : Prop :=
  ∃ s ∈ names, ∃ p, parseFilename s = .ok (some p) ∧ p.version = v ∧ p.up = true

/-- Some entry of `names` is a recognized down-script of version `v`. -/
def downSeen (names : List String) (v : Int) : Prop :=
  ∃ s ∈ names, ∃ p, parseFilename s = .ok (some p) ∧ p.version = v ∧ p.down = true

/-- The strings `strconv.Atoi` does not reject for their syntax: an optional sign
followed by at least one decimal digit. -/
def isSignedDecimal (tok : String) : Bool :=
  match tok.data with
  | [] => false
  | c :: cs =>
    if c = '+' ∨ c = '-' then !cs.isEmpty && cs.all isDigit
    else (c :: cs).all isDigit

/-- Version `i` is present in the map with its down-script. -/
def hasDownAt (migrations : MigrationMap) (i : Int) : Prop :=
  ∃ mg, migrations.index i = some mg ∧ mg.HasDown = true

/-- Some entry of `names` is a recognized script of version `v`. -/
def versionSeen (names : List String) (v : Int) : Prop :=
  ∃ s ∈ names, ∃ p, parseFilename s = .ok (some p) ∧ p.version = v

/-- The version token of a filename: `parts[0]` of `strings.SplitN(s, "_", 2)`. -/
def versionToken (s : String) : String :=
  match SplitN s with
  | [] => ""
  | tok :: _ => tok

/-- The world `w` with the events `l` put in front of its log. -/
def prefixLog (l : List Event) (w : World σ) : World σ :=
  ⟨w.state, l ++ w.log⟩

/-- An `ApplyMigration` event whose `useTx` flag is what `useTx` computes from the query
it carries; any other event. -/
def txFaithful (m : migrator σ) (ev : Event) : Prop :=
  match ev.call with
  | .ApplyMigration useTx _ _ _ query => useTx = m.useTx query
  | _ => True

/-- A filesystem whose directory listing fails. -/
def unlistableFs : filesystemWrapper (List dbMigration) where
  ListMigrationDir := fun rows => (([], some (.adapterError "listing failed")), rows)
  ReadMigration := fun _ rows => (("", none), rows)

/-- The in-memory ledger, except that `ListMigrations` fails. -/
def unlistableDb : dbWrapper (List dbMigration) where
  ApplyMigration := ledgerDb.ApplyMigration
  RequireSchema := ledgerDb.RequireSchema
  ListMigrations := fun rows => (([], some (.adapterError "query failed")), rows)
  GetVersion := ledgerDb.GetVersion

/-- The value of `SELECT coalesce(max(version), 0)` (`GetVersion` of `internal_db.go`)
over the rows of a ledger: the greatest version, 0 when there is no row. -/
def maxVersion : List dbMigration → Int
  | [] => 0
  | x :: rest => rest.foldl (fun a r => max a r.Version) x.Version

/-- Modelled from the spec: the ledger row mutation of a successful step. An up step
inserts the row of that version and name, a down step deletes the row of that version
and name. -/
def stepRows (isUp : Bool) (version : Int) (name : String) (rows : List dbMigration) :
    List dbMigration :=
  if isUp then rows ++ [⟨version, name⟩]
  else rows.filter (fun r => !(r.Version = version && r.Name = name))

/-- Modelled from the spec: the ledger accessor over the rows of the ledger table.
Ensuring the ledger exists changes nothing; listing answers the rows ordered ascending
by version; the current version is the greatest version of the rows (0 when there is
none); a step that succeeds mutates the rows as `stepRows` says and a step that fails
leaves them as they were. Which steps fail is left open: `fails` answers the error of a
failing step from the arguments of the call and the rows. The SQL statements of
`internal_db.go` (`INSERT` on up, `DELETE ... WHERE version = ? AND name = ?` on down,
`coalesce(max(version), 0)`, `ORDER BY version ASC`) read the same way; what the
database does with them is not part of the source. -/
def specLedger
    (fails : Bool → Bool → Int → String → String → List dbMigration → Option Error) :
    dbWrapper (List dbMigration) where
  ApplyMigration := fun useTx isUp version name query rows =>
    match fails useTx isUp version name query rows with
    | some e => (some e, rows)
    | none => (none, stepRows isUp version name rows)
  RequireSchema := fun rows => (none, rows)
  ListMigrations := fun rows =>
    ((rows.insertionSort (fun a b => a.Version ≤ b.Version), none), rows)
  GetVersion := fun rows => ((maxVersion rows, none), rows)

/-- The rows of versions `1..c`, each under the name the migration list gives it. -/
def ledgerUpTo (avail : List migration) (c : Int) : List dbMigration :=
  (List.range c.toNat).map
    (fun (i : Nat) => ⟨(i : Int) + 1, versionName avail ((i : Int) + 1)⟩)

/-- The ledger holds exactly the versions `1..c` with the filesystem names: its rows are
those of `ledgerUpTo`, in any order. -/
def LedgerIs (avail : List migration) (c : Int) (rows : List dbMigration) : Prop :=
  rows.Perm (ledgerUpTo avail c)

/-- The number of `ApplyMigration` calls among some events that answered no error. -/
def okApplies : List Event → Nat
  | [] => 0
  | ⟨.ApplyMigration _ _ _ _ _, none⟩ :: rest => okApplies rest + 1
  | _ :: rest => okApplies rest

/-- The in-memory current version of `MigrateTo` after `k` successful steps from `C`
towards `T`. -/
def stoppedAt (C T : Int) (k : Nat) : Int :=
  if C < T then C + k else C - k



/-! ## Theorems -/

/-! ### Decimal rendering and `strconv.Atoi` -/

theorem digitChar_facts : ∀ d : Nat, d < 10 →
    isDigit (digitChar d) = true ∧ digitVal (digitChar d) = d ∧ digitChar d ≠ '_' ∧
      digitChar d ≠ '-' ∧ digitChar d ≠ '+' := by
  decide

theorem decimalAux_acc (fuel : Nat) : ∀ (n : Nat) (acc : List Char),
    decimalAux fuel n acc = decimalAux fuel n [] ++ acc := by
  induction fuel with
  | zero => intro n acc; simp [decimalAux]
  | succ f ih =>
    intro n acc
    by_cases h : n < 10
    · simp [decimalAux, h]
    · simp only [decimalAux, h, if_false]
      rw [ih (n / 10) (digitChar (n % 10) :: acc), ih (n / 10) [digitChar (n % 10)]]
      simp

theorem decimalAux_fuel (f1 : Nat) : ∀ (n f2 : Nat) (acc : List Char), n < f1 → n < f2 →
    decimalAux f1 n acc = decimalAux f2 n acc := by
  induction f1 with
  | zero => intro n f2 acc h; omega
  | succ f ih =>
    intro n f2 acc h1 h2
    cases f2 with
    | zero => omega
    | succ g =>
      by_cases h10 : n < 10
      · simp [decimalAux, h10]
      · simp only [decimalAux, h10, if_false]
        exact ih (n / 10) g _ (by omega) (by omega)

theorem decimal_small (n : Nat) (h : n < 10) : decimal n = [digitChar n] := by
  simp [decimal, decimalAux, h]

theorem decimal_step (n : Nat) (h : ¬ n < 10) :
    decimal n = decimal (n / 10) ++ [digitChar (n % 10)] := by
  have e : decimalAux (n + 1) n [] = decimalAux n (n / 10) [digitChar (n % 10)] := by
    simp [decimalAux, h]
  unfold decimal
  rw [e, decimalAux_acc, decimalAux_fuel n (n / 10) (n / 10 + 1) [] (by omega) (by omega)]

/-- Every character of `decimal n` is a digit. -/
theorem decimal_digits (n : Nat) : ∀ c ∈ decimal n, isDigit c = true := by
  induction n using Nat.strong_induction_on with
  | _ n ih =>
    by_cases h : n < 10
    · rw [decimal_small n h]
      intro c hc
      simp at hc
      subst hc
      exact (digitChar_facts n h).1
    · rw [decimal_step n h]
      intro c hc
      rcases List.mem_append.1 hc with hc | hc
      · exact ih (n / 10) (by omega) c hc
      · simp at hc
        subst hc
        exact (digitChar_facts (n % 10) (by omega)).1

theorem decimal_ne_nil (n : Nat) : decimal n ≠ [] := by
  by_cases h : n < 10
  · rw [decimal_small n h]; simp
  · rw [decimal_step n h]; simp

theorem parseUintLoop_append (l1 : List Char) : ∀ (l2 : List Char) (a : Nat),
    parseUintLoop (l1 ++ l2) a =
      match parseUintLoop l1 a with
      | .ok b => parseUintLoop l2 b
      | .error e => .error e := by
  induction l1 with
  | nil => intro l2 a; simp [parseUintLoop]
  | cons c cs ih =>
    intro l2 a
    simp only [List.cons_append, parseUintLoop]
    split
    · rfl
    · split
      · rfl
      · split
        · rfl
        · exact ih l2 _

theorem parseUintLoop_decimal (n : Nat) : n ≤ maxUint64 →
    parseUintLoop (decimal n) 0 = .ok n := by
  induction n using Nat.strong_induction_on with
  | _ n ih =>
    intro hn
    by_cases h : n < 10
    · rw [decimal_small n h]
      have := digitChar_facts n h
      simp [parseUintLoop, this.1, this.2.1, maxUint64]
      unfold maxUint64 at hn
      omega
    · rw [decimal_step n h, parseUintLoop_append, ih (n / 10) (by omega) (by omega)]
      have := digitChar_facts (n % 10) (by omega)
      unfold maxUint64 at hn
      have e : n / 10 * 10 + digitVal (digitChar (n % 10)) = n := by rw [this.2.1]; omega
      simp only [parseUintLoop, this.1, e, maxUint64]
      clear e this
      rw [if_neg (by simp), if_neg (by omega), if_neg (by omega)]

theorem parseUintLoop_zeros (k : Nat) (l : List Char) :
    parseUintLoop (List.replicate k '0' ++ l) 0 = parseUintLoop l 0 := by
  induction k with
  | zero => simp
  | succ k ih =>
    rw [List.replicate_succ, List.cons_append]
    have h0 : isDigit '0' = true := by decide
    have h1 : digitVal '0' = 0 := by decide
    simp only [parseUintLoop, h0, h1, maxUint64]
    simpa using ih

/-! ### `Filename` and its parsing -/

theorem isDigit_ne (c : Char) (h : isDigit c = true) : c ≠ '_' ∧ c ≠ '-' ∧ c ≠ '+' := by
  refine ⟨?_, ?_, ?_⟩ <;> · rintro rfl; revert h; decide

theorem Atoi_digits (l : List Char) (hne : l ≠ []) (hd : ∀ c ∈ l, isDigit c = true) :
    Atoi ⟨l⟩ =
      match parseUintLoop l 0 with
      | .error e => .error e
      | .ok un => if un ≥ 2 ^ 63 then .error .ErrRange else .ok (un : Int) := by
  cases l with
  | nil => exact absurd rfl hne
  | cons c cs =>
    have hc := isDigit_ne c (hd c (List.mem_cons_self _ _))
    simp only [Atoi, hc.2.1, hc.2.2, or_self, if_false]
    cases parseUintLoop (c :: cs) 0 with
    | error e => rfl
    | ok un => simp

theorem formatInt04_data (v : Int) (hv : 0 ≤ v) :
    (formatInt04 v).data =
      List.replicate (4 - (decimal v.natAbs).length) '0' ++ decimal v.natAbs := by
  simp [formatInt04, not_lt.2 hv]

/-- `Atoi` reads back what `%04d` writes, for a non-negative 64-bit `int`. -/
theorem Atoi_formatInt04 (v : Int) (h0 : 0 ≤ v) (h1 : v < 2 ^ 63) :
    Atoi (formatInt04 v) = .ok v := by
  have hs : formatInt04 v =
      ⟨List.replicate (4 - (decimal v.natAbs).length) '0' ++ decimal v.natAbs⟩ := by
    simp [formatInt04, not_lt.2 h0]
  rw [hs, Atoi_digits]
  · rw [parseUintLoop_zeros, parseUintLoop_decimal _ (by unfold maxUint64; omega)]
    have : ¬ (v.natAbs ≥ 2 ^ 63) := by omega
    simp only [this, if_false]
    congr 1
    omega
  · simp [decimal_ne_nil]
  · intro c hc
    rcases List.mem_append.1 hc with hc | hc
    · rw [(List.mem_replicate.1 hc).2]
      decide
    · exact decimal_digits _ c hc

theorem formatInt04_no_underscore (v : Int) (hv : 0 ≤ v) : '_' ∉ (formatInt04 v).data := by
  rw [formatInt04_data v hv]
  intro hc
  rcases List.mem_append.1 hc with hc | hc
  · have := (List.mem_replicate.1 hc).2
    revert this
    decide
  · exact (isDigit_ne _ (decimal_digits _ _ hc)).1 rfl

theorem splitUnderscore_append (l rest : List Char) (h : '_' ∉ l) :
    splitUnderscore (l ++ '_' :: rest) = [l, rest] := by
  induction l with
  | nil => simp [splitUnderscore]
  | cons c cs ih =>
    have hc : c ≠ '_' := fun e => h (e ▸ List.mem_cons_self _ _)
    have hcs : '_' ∉ cs := fun e => h (List.mem_cons_of_mem _ e)
    simp [splitUnderscore, hc, ih hcs]

theorem HasSuffix_append (a b : String) : HasSuffix (a ++ b) b = true := by
  simp [HasSuffix]

theorem HasSuffix_append_ne (a b c : String) (h1 : ¬ c.data <:+ b.data)
    (h2 : ¬ b.data <:+ c.data) : HasSuffix (a ++ b) c = false := by
  cases hh : HasSuffix (a ++ b) c with
  | false => rfl
  | true =>
    exfalso
    have h : c.data <:+ a.data ++ b.data := by simpa [HasSuffix] using hh
    rcases List.suffix_or_suffix_of_suffix h (List.suffix_append _ _) with h | h
    · exact h1 h
    · exact h2 h

theorem TrimSuffix_append (a b : String) : TrimSuffix (a ++ b) b = a := by
  have h : HasSuffix (a ++ b) b = true := HasSuffix_append a b
  simp [TrimSuffix, h]

theorem Filename_up (m : migration) :
    m.Filename true = (formatInt04 m.Version ++ "_") ++ (m.Name ++ ".up.sql") := by
  apply String.ext
  simp [migration.Filename]

theorem Filename_down (m : migration) :
    m.Filename false = (formatInt04 m.Version ++ "_") ++ (m.Name ++ ".down.sql") := by
  apply String.ext
  simp [migration.Filename]

theorem SplitN_Filename (v : Int) (hv : 0 ≤ v) (rest : String) :
    SplitN ((formatInt04 v ++ "_") ++ rest) = [formatInt04 v, rest] := by
  have e : ((formatInt04 v ++ "_") ++ rest).data = (formatInt04 v).data ++ '_' :: rest.data := by
    simp
  simp [SplitN, e, splitUnderscore_append _ _ (formatInt04_no_underscore v hv)]

/-- Parsing undoes `Filename` for a non-negative 64-bit version, whatever the name. -/
theorem parseFilename_Filename (m : migration) (isUp : Bool) (h0 : 0 ≤ m.Version)
    (h1 : m.Version < 2 ^ 63) :
    parseFilename (m.Filename isUp) = .ok (some ⟨m.Version, m.Name, isUp, !isUp⟩) := by
  cases isUp with
  | true =>
    have hu : HasSuffix (m.Filename true) ".up.sql" = true := by
      rw [Filename_up, ← String.append_assoc]; exact HasSuffix_append _ _
    have hd : HasSuffix (m.Filename true) ".down.sql" = false := by
      rw [Filename_up, ← String.append_assoc]
      exact HasSuffix_append_ne _ ".up.sql" ".down.sql" (by decide) (by decide)
    simp only [parseFilename, hu, hd]
    rw [Filename_up, SplitN_Filename _ h0, ← Filename_up]
    simp [Atoi_formatInt04 _ h0 h1, TrimSuffix_append]
  | false =>
    have hu : HasSuffix (m.Filename false) ".up.sql" = false := by
      rw [Filename_down, ← String.append_assoc]
      exact HasSuffix_append_ne _ ".down.sql" ".up.sql" (by decide) (by decide)
    have hd : HasSuffix (m.Filename false) ".down.sql" = true := by
      rw [Filename_down, ← String.append_assoc]; exact HasSuffix_append _ _
    simp only [parseFilename, hu, hd]
    rw [Filename_down, SplitN_Filename _ h0, ← Filename_down]
    simp [Atoi_formatInt04 _ h0 h1, TrimSuffix_append]

/-! ### The version map -/

theorem index_assign_self (m : MigrationMap) (k : Int) (v : migration) :
    (m.assign k v).index k = some v := by
  induction m with
  | nil => simp [MigrationMap.assign, MigrationMap.index]
  | cons a rest ih =>
    obtain ⟨k1, v1⟩ := a
    by_cases h : k1 = k
    · simp [MigrationMap.assign, MigrationMap.index, h]
    · simp [MigrationMap.assign, MigrationMap.index, h, ih]

theorem index_assign_ne (m : MigrationMap) (k k1 : Int) (v : migration) (h : k ≠ k1) :
    (m.assign k v).index k1 = m.index k1 := by
  induction m with
  | nil => simp [MigrationMap.assign, MigrationMap.index, h]
  | cons a rest ih =>
    obtain ⟨k2, v2⟩ := a
    by_cases h2 : k2 = k
    · subst h2
      simp [MigrationMap.assign, MigrationMap.index, h]
    · simp [MigrationMap.assign, MigrationMap.index, h2, ih]

theorem index_eq_none_iff (m : MigrationMap) (k : Int) :
    m.index k = none ↔ k ∉ m.map Prod.fst := by
  induction m with
  | nil => simp [MigrationMap.index]
  | cons a rest ih =>
    obtain ⟨k1, v1⟩ := a
    by_cases h : k1 = k
    · simp [MigrationMap.index, h]
    · have h1 : ¬ k = k1 := fun e => h e.symm
      simp [MigrationMap.index, h, h1, ih]

theorem index_isSome_of_mem (m : MigrationMap) (k : Int) (h : k ∈ m.map Prod.fst) :
    ∃ v, m.index k = some v := by
  cases hi : m.index k with
  | none => exact absurd h ((index_eq_none_iff m k).1 hi)
  | some v => exact ⟨v, rfl⟩

theorem mem_keys_of_index (m : MigrationMap) (k : Int) (v : migration)
    (h : m.index k = some v) : k ∈ m.map Prod.fst := by
  by_contra hc
  rw [(index_eq_none_iff m k).2 hc] at h
  cases h

theorem assign_keys_of_mem (m : MigrationMap) (k : Int) (v : migration)
    (h : k ∈ m.map Prod.fst) : (m.assign k v).map Prod.fst = m.map Prod.fst := by
  induction m with
  | nil => simp at h
  | cons a rest ih =>
    obtain ⟨k1, v1⟩ := a
    by_cases h1 : k1 = k
    · simp [MigrationMap.assign, h1]
    · have h2 : k ∈ rest.map Prod.fst := by
        simp only [List.map_cons, List.mem_cons] at h
        rcases h with h | h
        · exact absurd h.symm h1
        · exact h
      simp only [MigrationMap.assign, h1, if_false, List.map_cons, ih h2]

theorem assign_of_not_mem (m : MigrationMap) (k : Int) (v : migration)
    (h : k ∉ m.map Prod.fst) : m.assign k v = m ++ [(k, v)] := by
  induction m with
  | nil => simp [MigrationMap.assign]
  | cons a rest ih =>
    obtain ⟨k1, v1⟩ := a
    simp only [List.map_cons, List.mem_cons, not_or] at h
    have h1 : ¬ k1 = k := fun e => h.1 e.symm
    simp only [MigrationMap.assign, h1, if_false, ih h.2, List.cons_append]

theorem assign_keys_nodup (m : MigrationMap) (k : Int) (v : migration)
    (h : (m.map Prod.fst).Nodup) : ((m.assign k v).map Prod.fst).Nodup := by
  by_cases hk : k ∈ m.map Prod.fst
  · rw [assign_keys_of_mem m k v hk]
    exact h
  · rw [assign_of_not_mem m k v hk, List.map_append]
    simp [List.nodup_append, h, hk]

theorem MapOk_nil : MapOk [] := by
  refine ⟨by simp, ?_⟩
  intro k mg h
  simp [MigrationMap.index] at h

/-- What a successful `recordMigration` does to the map. -/
theorem recordMigration_ok (m m1 : MigrationMap) (p : parsedName)
    (h : recordMigration m p = .ok m1) :
    (∃ mg, m1 = m.assign p.version mg ∧ mg.Version = (match m.index p.version with
        | none => p.version
        | some old => old.Version) ∧ mg.Name = p.name ∧
      (mg.HasUp = (match m.index p.version with
        | none => p.up
        | some old => (old.HasUp || p.up))) ∧
      (mg.HasDown = (match m.index p.version with
        | none => p.down
        | some old => (old.HasDown || !p.up))) ∧
      (∀ old, m.index p.version = some old → old.Name = p.name)) := by
  unfold recordMigration at h
  cases hi : m.index p.version with
  | none =>
    rw [hi] at h
    simp only at h
    cases h
    exact ⟨_, rfl, by simp, by simp, by simp, by simp, by simp⟩
  | some old =>
    rw [hi] at h
    simp only at h
    by_cases hn : old.Name ≠ p.name
    · rw [if_pos hn] at h
      cases hu : p.up <;> rw [hu] at h <;> simp at h
    · rw [if_neg hn] at h
      have hn1 : old.Name = p.name := not_not.1 hn
      cases hu : p.up with
      | true =>
        rw [hu] at h
        simp only [if_true] at h
        cases h
        exact ⟨_, rfl, by simp, by simp [hn1], by simp, by simp, by simp [hn1]⟩
      | false =>
        rw [hu] at h
        simp only [Bool.false_eq_true, if_false] at h
        cases h
        exact ⟨_, rfl, by simp, by simp [hn1], by simp, by simp, by simp [hn1]⟩

theorem validateFrom_range_from (migrations : MigrationMap) (k : Nat) :
    ∀ s : Nat,
      (validateFrom migrations (List.range' s k) = none ∧
          ∀ j : Nat, s ≤ j → j < s + k → hasUpAt migrations ((j : Int) + 1)) ∨
      (∃ i : Nat, s ≤ i ∧ i < s + k ∧
          validateFrom migrations (List.range' s k)
            = some (.missingMigrationError ((i : Int) + 1) true) ∧
          ¬ hasUpAt migrations ((i : Int) + 1) ∧
          ∀ j : Nat, s ≤ j → j < i → hasUpAt migrations ((j : Int) + 1)) := by
  induction k with
  | zero =>
    intro s
    left
    refine ⟨by simp [validateFrom], ?_⟩
    intro j h1 h2
    omega
  | succ k ih =>
    intro s
    rw [List.range'_succ]
    cases hget : migrations.index ((s : Int) + 1) with
    | none =>
      right
      refine ⟨s, le_refl _, by omega, by simp [validateFrom, hget], ?_, ?_⟩
      · rintro ⟨mg, h, _⟩
        rw [hget] at h
        cases h
      · intro j h1 h2
        omega
    | some mg =>
      cases hup : mg.HasUp with
      | false =>
        right
        refine ⟨s, le_refl _, by omega, by simp [validateFrom, hget, hup], ?_, ?_⟩
        · rintro ⟨mg1, h, h1⟩
          rw [hget] at h
          cases h
          rw [hup] at h1
          cases h1
        · intro j h1 h2
          omega
      | true =>
        have hs : hasUpAt migrations ((s : Int) + 1) := ⟨mg, hget, hup⟩
        have hstep : validateFrom migrations (s :: List.range' (s + 1) k)
            = validateFrom migrations (List.range' (s + 1) k) := by
          simp [validateFrom, hget, hup]
        rw [hstep]
        rcases ih (s + 1) with ⟨h1, h2⟩ | ⟨i, h1, h2, h3, h4, h5⟩
        · left
          refine ⟨h1, ?_⟩
          intro j hj1 hj2
          rcases Nat.eq_or_lt_of_le hj1 with h | h
          · subst h
            exact hs
          · exact h2 j h (by omega)
        · right
          refine ⟨i, by omega, by omega, h3, h4, ?_⟩
          intro j hj1 hj2
          rcases Nat.eq_or_lt_of_le hj1 with h | h
          · subst h
            exact hs
          · exact h5 j h hj2

theorem recordMigration_MapOk (m m1 : MigrationMap) (p : parsedName) (hm : MapOk m)
    (h : recordMigration m p = .ok m1) : MapOk m1 := by
  obtain ⟨mg, rfl, hv, -, -, -, -⟩ := recordMigration_ok m m1 p h
  refine ⟨assign_keys_nodup m _ _ hm.1, ?_⟩
  intro k mg1 hk
  by_cases e : p.version = k
  · subst e
    rw [index_assign_self] at hk
    cases hk
    cases hi : m.index p.version with
    | none => rw [hi] at hv; exact hv
    | some old => rw [hi] at hv; rw [hv]; exact hm.2 _ _ hi
  · rw [index_assign_ne _ _ _ _ e] at hk
    exact hm.2 _ _ hk

theorem parseNames_MapOk (names : List String) : ∀ (m m1 : MigrationMap), MapOk m →
    parseNames names m = .ok m1 → MapOk m1 := by
  induction names with
  | nil =>
    intro m m1 hm h
    simp only [parseNames] at h
    cases h
    exact hm
  | cons s rest ih =>
    intro m m1 hm h
    simp only [parseNames] at h
    cases hp : parseFilename s with
    | panic => rw [hp] at h; cases h
    | err e => rw [hp] at h; cases h
    | ok o =>
      rw [hp] at h
      cases o with
      | none => exact ih m m1 hm h
      | some p =>
        simp only at h
        cases hr : recordMigration m p with
        | panic => rw [hr] at h; cases h
        | err e => rw [hr] at h; cases h
        | ok m2 =>
          rw [hr] at h
          exact ih m2 m1 (recordMigration_MapOk m m2 p hm hr) h

theorem fillResult_spec (m : MigrationMap) : ∀ (result : List migration),
    (m.map Prod.fst).Nodup →
    (∀ k ∈ m.map Prod.fst, 1 ≤ k ∧ k ≤ (result.length : Int)) →
    ∃ r, fillResult m result = some r ∧ r.length = result.length ∧
      (∀ (i : Nat) (mg : migration), m.index ((i : Int) + 1) = some mg → r.get? i = some mg) ∧
      (∀ i : Nat, m.index ((i : Int) + 1) = none → r.get? i = result.get? i) := by
  induction m with
  | nil =>
    intro result _ _
    exact ⟨result, rfl, rfl, by simp [MigrationMap.index], by simp⟩
  | cons a rest ih =>
    obtain ⟨k, mg0⟩ := a
    intro result hnd hk
    simp only [List.map_cons, List.nodup_cons] at hnd
    have hk0 := hk k (by simp)
    have hcond : 0 ≤ k - 1 ∧ k - 1 < (result.length : Int) := by omega
    obtain ⟨r, hr, hlen, hsome, hnone⟩ := ih (result.set (k - 1).toNat mg0) hnd.2 (by
      intro k1 hk1
      have := hk k1 (by simp [hk1])
      simpa using this)
    refine ⟨r, ?_, by simpa using hlen, ?_, ?_⟩
    · simp only [fillResult, hcond, and_self, if_true]
      exact hr
    · intro i mg hi
      by_cases e : k = (i : Int) + 1
      · simp only [MigrationMap.index, e, if_true] at hi
        cases hi
        have hn : MigrationMap.index rest ((i : Int) + 1) = none :=
          (index_eq_none_iff rest _).2 (e ▸ hnd.1)
        rw [hnone i hn]
        have e1 : (k - 1).toNat = i := by omega
        have e2 : i < result.length := by omega
        simp [e1, e2]
      · simp only [MigrationMap.index, e, if_false] at hi
        exact hsome i mg hi
    · intro i hi
      by_cases e : k = (i : Int) + 1
      · simp [MigrationMap.index, e] at hi
      · simp only [MigrationMap.index, e, if_false] at hi
        rw [hnone i hi]
        have e1 : (k - 1).toNat ≠ i := by omega
        simp only [List.get?_eq_getElem?, List.getElem?_set]
        rw [if_neg e1]

/-- After validation the keys of a well-formed map are exactly `1..len`. -/
theorem keys_range_of_validate (m : MigrationMap) (hnd : (m.map Prod.fst).Nodup)
    (hall : ∀ i : Int, 1 ≤ i → i ≤ m.length → hasUpAt m i) :
    ∀ k ∈ m.map Prod.fst, 1 ≤ k ∧ k ≤ (m.length : Int) := by
  have hsub : Finset.Icc (1 : Int) m.length ⊆ (m.map Prod.fst).toFinset := by
    intro i hi
    rw [Finset.mem_Icc] at hi
    obtain ⟨mg, hmg, -⟩ := hall i hi.1 hi.2
    exact List.mem_toFinset.2 (mem_keys_of_index m i mg hmg)
  have hcard : (m.map Prod.fst).toFinset.card ≤ (Finset.Icc (1 : Int) m.length).card := by
    rw [List.toFinset_card_of_nodup hnd, Int.card_Icc]
    simp
  have heq := Finset.eq_of_subset_of_card_le hsub hcard
  intro k hk
  have : k ∈ Finset.Icc (1 : Int) m.length := by
    rw [heq]
    exact List.mem_toFinset.2 hk
  exact Finset.mem_Icc.1 this

theorem validateMigrations_eq_none (isUp : Bool) (m : MigrationMap) :
    validateMigrations isUp m = none ↔
      ∀ i : Int, 1 ≤ i → i ≤ m.length → hasUpAt m i := by
  unfold validateMigrations
  rw [List.range_eq_range']
  rcases validateFrom_range_from m m.length 0 with ⟨h1, h2⟩ | ⟨i, h1, h2, h3, h4, h5⟩
  · refine ⟨fun _ i hi1 hi2 => ?_, fun _ => h1⟩
    have := h2 (i - 1).toNat (Nat.zero_le _) (by omega)
    have e : (((i - 1).toNat : Nat) : Int) + 1 = i := by omega
    rwa [e] at this
  · refine ⟨fun h => ?_, fun h => ?_⟩
    · rw [h3] at h
      cases h
    · exact absurd (h ((i : Int) + 1) (by omega) (by omega)) h4

/-! ### `filenamesToMigrations` -/

/-- The result of `filenamesToMigrations` once parsing and validation have passed. -/
theorem filenamesToMigrations_of_parse (m : migrator σ) (names : List String) (w : World σ)
    (byVersion : MigrationMap) (hp : parseNames names [] = .ok byVersion)
    (hv : validateMigrations true byVersion = none) :
    filenamesToMigrations m names w =
      (match checkDbMigrations byVersion (ledgerOf m w) with
        | some e => .err e
        | none =>
          match fillResult byVersion (List.replicate byVersion.length migration.zero) with
          | none => .panic
          | some result => .ok result,
       (callListMigrations m w).2) := by
  simp only [filenamesToMigrations, hp, hv, testForUnknownMigrations, ledgerOf,
    callListMigrations]
  cases checkDbMigrations byVersion (m.db.ListMigrations w.state).1.1 <;> simp only []
  · cases fillResult byVersion (List.replicate byVersion.length migration.zero) <;> rfl

/-- A successful `filenamesToMigrations` went through every stage. -/
theorem filenamesToMigrations_ok (m : migrator σ) (names : List String) (w : World σ)
    (result : List migration) (h : (filenamesToMigrations m names w).1 = .ok result) :
    ∃ byVersion, parseNames names [] = .ok byVersion ∧
      validateMigrations true byVersion = none ∧
      checkDbMigrations byVersion (ledgerOf m w) = none ∧
      fillResult byVersion (List.replicate byVersion.length migration.zero) = some result := by
  cases hp : parseNames names [] with
  | panic => simp [filenamesToMigrations, hp] at h
  | err e => simp [filenamesToMigrations, hp] at h
  | ok byVersion =>
    cases hv : validateMigrations true byVersion with
    | some e => simp [filenamesToMigrations, hp, hv] at h
    | none =>
      rw [filenamesToMigrations_of_parse m names w byVersion hp hv] at h
      refine ⟨byVersion, rfl, hv, ?_⟩
      cases hc : checkDbMigrations byVersion (ledgerOf m w) with
      | some e => rw [hc] at h; simp at h
      | none =>
        rw [hc] at h
        refine ⟨rfl, ?_⟩
        cases hf : fillResult byVersion (List.replicate byVersion.length migration.zero) with
        | none => rw [hf] at h; simp at h
        | some r => rw [hf] at h; simp at h; rw [h]

/-- The slice built from a validated well-formed map. -/
theorem fillResult_valid (byVersion : MigrationMap) (hok : MapOk byVersion)
    (hv : validateMigrations true byVersion = none) :
    ∃ result, fillResult byVersion (List.replicate byVersion.length migration.zero)
        = some result ∧ result.length = byVersion.length ∧
      ∀ i : Nat, i < byVersion.length →
        ∃ mg, result.get? i = some mg ∧ byVersion.index ((i : Int) + 1) = some mg ∧
          mg.Version = (i : Int) + 1 ∧ mg.HasUp = true := by
  have hall := (validateMigrations_eq_none true byVersion).1 hv
  have hkeys := keys_range_of_validate byVersion hok.1 hall
  obtain ⟨r, hr, hlen, hsome, -⟩ := fillResult_spec byVersion
    (List.replicate byVersion.length migration.zero) hok.1 (by simpa using hkeys)
  refine ⟨r, hr, by simpa using hlen, ?_⟩
  intro i hi
  obtain ⟨mg, hmg, hup⟩ := hall ((i : Int) + 1) (by omega) (by omega)
  exact ⟨mg, hsome i mg hmg, hmg, hok.2 _ _ hmg, hup⟩

theorem filenamesToMigrations_valid (m : migrator σ) (names : List String) (w : World σ)
    (result : List migration) (h : (filenamesToMigrations m names w).1 = .ok result) :
    ValidSet result := by
  obtain ⟨byVersion, hp, hv, -, hf⟩ := filenamesToMigrations_ok m names w result h
  have hok := parseNames_MapOk names [] byVersion MapOk_nil hp
  obtain ⟨r, hr, hlen, hall⟩ := fillResult_valid byVersion hok hv
  rw [hf] at hr
  cases hr
  intro i hi
  obtain ⟨mg, h1, -, h2, h3⟩ := hall i (by omega)
  exact ⟨mg, h1, h2, h3⟩

theorem listMigrations_valid (m : migrator σ) (w : World σ) (avail : List migration)
    (h : (listMigrations m w).1 = .ok avail) : ValidSet avail := by
  unfold listMigrations at h
  cases hr : callRequireSchema m w with
  | mk e w1 =>
    rw [hr] at h
    cases e with
    | some e => simp at h
    | none => exact filenamesToMigrations_valid m _ _ avail h

theorem parseFilename_not_recognized (s : String) (h : recognized s = false) :
    parseFilename s = .ok none := by
  unfold recognized at h
  unfold parseFilename
  cases hu : HasSuffix s ".up.sql" <;> cases hd : HasSuffix s ".down.sql" <;>
    simp [hu, hd] at h ⊢

theorem recordMigration_canon (N : Nat) (nameOf : Int → String) (m : MigrationMap)
    (v : Int) (up dn : Bool) (hm : Canon N nameOf m) (h1 : 1 ≤ v) (h2 : v ≤ N) :
    ∃ m1, recordMigration m ⟨v, nameOf v, up, dn⟩ = .ok m1 ∧ Canon N nameOf m1 ∧
      (∀ k mg, m.index k = some mg → mg.HasUp = true →
        ∃ mg1, m1.index k = some mg1 ∧ mg1.HasUp = true) ∧
      (up = true → ∃ mg1, m1.index v = some mg1 ∧ mg1.HasUp = true) := by
  have hex : ∃ m1, recordMigration m ⟨v, nameOf v, up, dn⟩ = .ok m1 := by
    unfold recordMigration
    cases hi : m.index v with
    | none => exact ⟨_, rfl⟩
    | some old =>
      have hn : old.Name = nameOf v := (hm.2 v old hi).2.2.2
      simp only [hn, ne_eq, not_true_eq_false, if_false]
      cases up <;> exact ⟨_, rfl⟩
  obtain ⟨m1, hr⟩ := hex
  obtain ⟨mg, rfl, hv, hname, hup, -, -⟩ := recordMigration_ok m m1 _ hr
  simp only at hv hname hup
  have hver : mg.Version = v := by
    cases hi : m.index v with
    | none => rw [hi] at hv; exact hv
    | some old => rw [hi] at hv; rw [hv]; exact (hm.2 v old hi).2.2.1
  refine ⟨_, hr, ⟨assign_keys_nodup m _ _ hm.1, ?_⟩, ?_, ?_⟩
  · intro k mg1 hk
    by_cases e : v = k
    · subst e
      rw [index_assign_self] at hk
      cases hk
      exact ⟨h1, h2, hver, hname⟩
    · rw [index_assign_ne _ _ _ _ e] at hk
      exact hm.2 k mg1 hk
  · intro k mg0 hk hu
    by_cases e : v = k
    · subst e
      refine ⟨mg, index_assign_self _ _ _, ?_⟩
      rw [hup, hk]
      simp [hu]
    · exact ⟨mg0, by rw [index_assign_ne _ _ _ _ e]; exact hk, hu⟩
  · intro hupt
    refine ⟨mg, index_assign_self _ _ _, ?_⟩
    rw [hup]
    cases m.index v <;> simp [hupt]

/-- The loop over a list whose recognized entries all carry a version in `1..N` and the
name `nameOf` gives it: it succeeds, and every up-script met leaves its flag set. -/
theorem parseNames_canon (N : Nat) (nameOf : Int → String) (names : List String) :
    ∀ m : MigrationMap, Canon N nameOf m →
    (∀ s ∈ names, parseFilename s = .ok none ∨
      ∃ v up dn, 1 ≤ v ∧ v ≤ (N : Int) ∧ parseFilename s = .ok (some ⟨v, nameOf v, up, dn⟩)) →
    ∃ m1, parseNames names m = .ok m1 ∧ Canon N nameOf m1 ∧
      (∀ k mg, m.index k = some mg → mg.HasUp = true →
        ∃ mg1, m1.index k = some mg1 ∧ mg1.HasUp = true) ∧
      (∀ s ∈ names, ∀ v dn, parseFilename s = .ok (some ⟨v, nameOf v, true, dn⟩) →
        ∃ mg1, m1.index v = some mg1 ∧ mg1.HasUp = true) := by
  induction names with
  | nil =>
    intro m hm _
    exact ⟨m, rfl, hm, fun k mg hk hu => ⟨mg, hk, hu⟩, by simp⟩
  | cons s rest ih =>
    intro m hm hall
    have hrest : ∀ s ∈ rest, parseFilename s = .ok none ∨
        ∃ v up dn, 1 ≤ v ∧ v ≤ (N : Int) ∧
          parseFilename s = .ok (some ⟨v, nameOf v, up, dn⟩) :=
      fun s hs => hall s (List.mem_cons_of_mem _ hs)
    rcases hall s (List.mem_cons_self _ _) with hs | ⟨v, up, dn, h1, h2, hs⟩
    · obtain ⟨m1, hp, hc, hkeep, hups⟩ := ih m hm hrest
      refine ⟨m1, by simp only [parseNames, hs]; exact hp, hc, hkeep, ?_⟩
      intro s1 hs1 v dn hv
      rcases List.mem_cons.1 hs1 with e | e
      · subst e
        rw [hs] at hv
        cases hv
      · exact hups s1 e v dn hv
    · obtain ⟨m2, hr, hc2, hkeep2, hup2⟩ := recordMigration_canon N nameOf m v up dn hm h1 h2
      obtain ⟨m1, hp, hc, hkeep, hups⟩ := ih m2 hc2 hrest
      refine ⟨m1, by simp only [parseNames, hs, hr]; exact hp, hc, ?_, ?_⟩
      · intro k mg hk hu
        obtain ⟨mg2, hk2, hu2⟩ := hkeep2 k mg hk hu
        exact hkeep k mg2 hk2 hu2
      · intro s1 hs1 v1 dn1 hv
        rcases List.mem_cons.1 hs1 with e | e
        · subst e
          rw [hs] at hv
          simp only [Res.ok.injEq, Option.some.injEq, parsedName.mk.injEq] at hv
          obtain ⟨rfl, -, rfl, -⟩ := hv
          obtain ⟨mg2, hk2, hu2⟩ := hup2 rfl
          exact hkeep _ mg2 hk2 hu2
        · exact hups s1 e v1 dn1 hv

theorem checkDbMigrations_eq_none (byVersion : MigrationMap) (ledger : List dbMigration)
    (h : ∀ x ∈ ledger, ∃ mg, byVersion.index x.Version = some mg ∧ mg.Name = x.Name) :
    checkDbMigrations byVersion ledger = none := by
  induction ledger with
  | nil => rfl
  | cons x rest ih =>
    obtain ⟨mg, h1, h2⟩ := h x (List.mem_cons_self _ _)
    simp only [checkDbMigrations, h1, h2, ne_eq, not_true_eq_false, if_false]
    exact ih (fun y hy => h y (List.mem_cons_of_mem _ hy))

/-- The first ledger entry that does not match decides the answer of the ledger loop. -/
theorem checkDbMigrations_first (byVersion : MigrationMap) (pre post : List dbMigration)
    (x : dbMigration)
    (h : ∀ y ∈ pre, ∃ mg, byVersion.index y.Version = some mg ∧ mg.Name = y.Name) :
    checkDbMigrations byVersion (pre ++ x :: post) =
      match byVersion.index x.Version with
      | none => some (.filesystemMissingDbMigrationError x.Version)
      | some fsMigration =>
        if fsMigration.Name ≠ x.Name then
          some (.filesystemMigrationMismatchError x.Version x.Name fsMigration.Name)
        else checkDbMigrations byVersion post := by
  induction pre with
  | nil => simp [checkDbMigrations]
  | cons y rest ih =>
    obtain ⟨mg, h1, h2⟩ := h y (List.mem_cons_self _ _)
    simp only [List.cons_append, checkDbMigrations, h1, h2, ne_eq, not_true_eq_false, if_false]
    exact ih (fun z hz => h z (List.mem_cons_of_mem _ hz))

theorem length_of_keys (m : MigrationMap) (N : Nat) (hnd : (m.map Prod.fst).Nodup)
    (h1 : ∀ k ∈ m.map Prod.fst, 1 ≤ k ∧ k ≤ (N : Int))
    (h2 : ∀ v : Int, 1 ≤ v → v ≤ N → v ∈ m.map Prod.fst) : m.length = N := by
  have heq : (m.map Prod.fst).toFinset = Finset.Icc (1 : Int) N := by
    ext k
    rw [List.mem_toFinset, Finset.mem_Icc]
    exact ⟨fun h => h1 k h, fun h => h2 k h.1 h.2⟩
  have hc := List.toFinset_card_of_nodup hnd
  rw [heq, Int.card_Icc] at hc
  simp at hc
  exact hc.symm

/-- A list of canonical names covering versions `1..N`, against a ledger that agrees with
it, yields the `N` descriptors in version order. -/
theorem filenamesToMigrations_canon (m : migrator σ) (w : World σ) (names : List String)
    (N : Nat) (nameOf : Int → String) (hN : (N : Int) < 2 ^ 63)
    (hrec : ∀ s ∈ names, recognized s = true →
      ∃ (mg : migration) (isUp : Bool), 1 ≤ mg.Version ∧ mg.Version ≤ (N : Int) ∧
        mg.Name = nameOf mg.Version ∧ s = mg.Filename isUp)
    (hup : ∀ v : Int, 1 ≤ v → v ≤ (N : Int) →
      ∃ mg : migration, mg.Version = v ∧ mg.Name = nameOf v ∧ mg.Filename true ∈ names)
    (hledger : ∀ x ∈ ledgerOf m w,
      1 ≤ x.Version ∧ x.Version ≤ (N : Int) ∧ x.Name = nameOf x.Version) :
    ∃ result, filenamesToMigrations m names w = (.ok result, (callListMigrations m w).2) ∧
      result.length = N ∧
      ∀ k : Nat, k < N → ∃ mg, result.get? k = some mg ∧ mg.Version = (k : Int) + 1 ∧
        mg.Name = nameOf ((k : Int) + 1) ∧ mg.HasUp = true := by
  have hparse : ∀ s ∈ names, parseFilename s = .ok none ∨
      ∃ v up dn, 1 ≤ v ∧ v ≤ (N : Int) ∧
        parseFilename s = .ok (some ⟨v, nameOf v, up, dn⟩) := by
    intro s hs
    cases hr : recognized s with
    | false => exact Or.inl (parseFilename_not_recognized s hr)
    | true =>
      obtain ⟨mg, isUp, h1, h2, h3, rfl⟩ := hrec s hs hr
      refine Or.inr ⟨mg.Version, isUp, !isUp, h1, h2, ?_⟩
      rw [parseFilename_Filename mg isUp (by omega) (by omega), h3]
  obtain ⟨byVersion, hp, hc, -, hups⟩ :=
    parseNames_canon N nameOf names [] ⟨by simp, by simp [MigrationMap.index]⟩ hparse
  have hpres : ∀ v : Int, 1 ≤ v → v ≤ (N : Int) → hasUpAt byVersion v := by
    intro v h1 h2
    obtain ⟨mg, rfl, hn, hmem⟩ := hup v h1 h2
    refine hups _ hmem mg.Version false ?_
    rw [parseFilename_Filename mg true (by omega) (by omega), hn]
    rfl
  have hlen : byVersion.length = N :=
    length_of_keys byVersion N hc.1
      (fun k hk => by
        obtain ⟨mg, hmg⟩ := index_isSome_of_mem byVersion k hk
        exact ⟨(hc.2 k mg hmg).1, (hc.2 k mg hmg).2.1⟩)
      (fun v h1 h2 => by
        obtain ⟨mg, hmg, -⟩ := hpres v h1 h2
        exact mem_keys_of_index byVersion v mg hmg)
  have hv : validateMigrations true byVersion = none :=
    (validateMigrations_eq_none true byVersion).2 (fun i h1 h2 => hpres i h1 (by omega))
  have hcheck : checkDbMigrations byVersion (ledgerOf m w) = none := by
    apply checkDbMigrations_eq_none
    intro x hx
    obtain ⟨h1, h2, h3⟩ := hledger x hx
    obtain ⟨mg, hmg, -⟩ := hpres x.Version h1 h2
    exact ⟨mg, hmg, by rw [(hc.2 _ mg hmg).2.2.2, h3]⟩
  have hok : MapOk byVersion := ⟨hc.1, fun k mg h => (hc.2 k mg h).2.2.1⟩
  obtain ⟨result, hf, hrl, hall⟩ := fillResult_valid byVersion hok hv
  refine ⟨result, ?_, by omega, ?_⟩
  · rw [filenamesToMigrations_of_parse m names w byVersion hp hv, hcheck, hf]
  · intro k hk
    obtain ⟨mg, h1, h2, h3, h4⟩ := hall k (by omega)
    exact ⟨mg, h1, h3, (hc.2 _ mg h2).2.2.2, h4⟩

/-- The answer of `filenamesToMigrations` when the first ledger entry that does not match
the validated map is `x`. -/
theorem filenamesToMigrations_first_offender (m : migrator σ) (w : World σ)
    (names : List String) (byVersion : MigrationMap) (pre post : List dbMigration)
    (x : dbMigration) (hp : parseNames names [] = .ok byVersion)
    (hv : validateMigrations true byVersion = none)
    (hl : ledgerOf m w = pre ++ x :: post)
    (hpre : ∀ y ∈ pre, ∃ mg, byVersion.index y.Version = some mg ∧ mg.Name = y.Name) :
    (byVersion.index x.Version = none →
      (filenamesToMigrations m names w).1
        = .err (.filesystemMissingDbMigrationError x.Version)) ∧
    (∀ fsMigration, byVersion.index x.Version = some fsMigration →
      fsMigration.Name ≠ x.Name →
      (filenamesToMigrations m names w).1
        = .err (.filesystemMigrationMismatchError x.Version x.Name fsMigration.Name)) := by
  rw [filenamesToMigrations_of_parse m names w byVersion hp hv, hl,
    checkDbMigrations_first byVersion pre post x hpre]
  constructor
  · intro hx
    rw [hx]
  · intro fsMigration hx hne
    rw [hx]
    simp only [hne, ne_eq, not_false_eq_true, if_true]

/-- An up-script and a down-script of one version with different names, in either order. -/
theorem parseNames_mismatch (upFile downFile : String) (v : Int) (upName downName : String)
    (hu : parseFilename upFile = .ok (some ⟨v, upName, true, false⟩))
    (hd : parseFilename downFile = .ok (some ⟨v, downName, false, true⟩))
    (hne : upName ≠ downName) :
    parseNames [upFile, downFile] [] = .err (.migrationNameMismatchError v upName downName) ∧
    parseNames [downFile, upFile] [] = .err (.migrationNameMismatchError v upName downName) := by
  have hne1 : ¬ downName = upName := fun e => hne e.symm
  constructor
  · simp [parseNames, hu, hd, recordMigration, MigrationMap.index, MigrationMap.assign, hne]
  · simp [parseNames, hu, hd, recordMigration, MigrationMap.index, MigrationMap.assign, hne1]

/-! ### The call log -/

theorem applyCalls_append (a b : List Event) :
    applyCalls (a ++ b) = applyCalls a ++ applyCalls b := by
  induction a with
  | nil => rfl
  | cons ev rest ih =>
    obtain ⟨c, e⟩ := ev
    cases c <;> simp [applyCalls, ih]

theorem readCalls_append (a b : List Event) :
    readCalls (a ++ b) = readCalls a ++ readCalls b := by
  induction a with
  | nil => rfl
  | cons ev rest ih =>
    obtain ⟨c, e⟩ := ev
    cases c <;> simp [readCalls, ih]

theorem applyCalls_of_no_step (a : List Event) (h : ∀ ev ∈ a, isStepCall ev.call = false) :
    applyCalls a = [] := by
  induction a with
  | nil => rfl
  | cons ev rest ih =>
    have h1 := h ev (List.mem_cons_self _ _)
    have h2 := ih (fun x hx => h x (List.mem_cons_of_mem _ hx))
    obtain ⟨c, e⟩ := ev
    cases c <;> simp [applyCalls, isStepCall, h2] at h1 ⊢

theorem readCalls_of_no_step (a : List Event) (h : ∀ ev ∈ a, isStepCall ev.call = false) :
    readCalls a = [] := by
  induction a with
  | nil => rfl
  | cons ev rest ih =>
    have h1 := h ev (List.mem_cons_self _ _)
    have h2 := ih (fun x hx => h x (List.mem_cons_of_mem _ hx))
    obtain ⟨c, e⟩ := ev
    cases c <;> simp [readCalls, isStepCall, h2] at h1 ⊢

theorem newEvents_of_log (w w1 : World σ) (evs : List Event) (h : w1.log = w.log ++ evs) :
    newEvents w w1 = evs := by
  simp [newEvents, h]

theorem filenamesToMigrations_log (m : migrator σ) (names : List String) (w : World σ) :
    ∃ evs, (filenamesToMigrations m names w).2.log = w.log ++ evs ∧
      ∀ ev ∈ evs, isStepCall ev.call = false := by
  cases hp : parseNames names [] with
  | panic => exact ⟨[], by simp [filenamesToMigrations, hp], by simp⟩
  | err e => exact ⟨[], by simp [filenamesToMigrations, hp], by simp⟩
  | ok byVersion =>
    cases hv : validateMigrations true byVersion with
    | some e => exact ⟨[], by simp [filenamesToMigrations, hp, hv], by simp⟩
    | none =>
      refine ⟨[⟨Call.ListMigrations, (m.db.ListMigrations w.state).1.2⟩], ?_,
        by simp [isStepCall]⟩
      rw [filenamesToMigrations_of_parse m names w byVersion hp hv]
      rfl

theorem listMigrations_log (m : migrator σ) (w : World σ) :
    ∃ evs, (listMigrations m w).2.log = w.log ++ evs ∧
      ∀ ev ∈ evs, isStepCall ev.call = false := by
  unfold listMigrations
  cases hr : (m.db.RequireSchema w.state).1 with
  | some e =>
    refine ⟨[⟨Call.RequireSchema, some e⟩], ?_, by simp [isStepCall]⟩
    simp [callRequireSchema, hr]
  | none =>
    simp only [callRequireSchema, hr]
    obtain ⟨evs, h1, h2⟩ := filenamesToMigrations_log m
      (callListMigrationDir m ⟨(m.db.RequireSchema w.state).2,
        w.log ++ [⟨Call.RequireSchema, none⟩]⟩).1.1
      (callListMigrationDir m ⟨(m.db.RequireSchema w.state).2,
        w.log ++ [⟨Call.RequireSchema, none⟩]⟩).2
    refine ⟨[⟨Call.RequireSchema, none⟩,
      ⟨Call.ListMigrationDir, (m.filesystem.ListMigrationDir (m.db.RequireSchema w.state).2).1.2⟩]
      ++ evs, ?_, ?_⟩
    · rw [h1]
      simp [callListMigrationDir]
    · intro ev hev
      rcases List.mem_append.1 hev with h | h
      · simp at h
        rcases h with rfl | rfl <;> rfl
      · exact h2 ev h

theorem GetVersion_log (m : migrator σ) (w : World σ) :
    ∃ evs, (GetVersion m w).2.log = w.log ++ evs ∧
      ∀ ev ∈ evs, isStepCall ev.call = false := by
  unfold GetVersion
  cases hr : (m.db.RequireSchema w.state).1 with
  | some e =>
    refine ⟨[⟨Call.RequireSchema, some e⟩], ?_, by simp [isStepCall]⟩
    simp [callRequireSchema, hr]
  | none =>
    refine ⟨[⟨Call.RequireSchema, none⟩,
      ⟨Call.GetVersion, (m.db.GetVersion (m.db.RequireSchema w.state).2).1.2⟩], ?_, ?_⟩
    · simp [callRequireSchema, hr, callGetVersion]
    · intro ev hev
      simp at hev
      rcases hev with rfl | rfl <;> rfl

/-- The calls made before the loop of `MigrateTo` are neither reads nor applies. -/
theorem prelude_log (m : migrator σ) (w w1 w2 : World σ) (r : Res (List migration))
    (c : Int × Option Error) (hl : listMigrations m w = (r, w1))
    (hg : GetVersion m w1 = (c, w2)) :
    ∃ pre, w2.log = w.log ++ pre ∧ ∀ ev ∈ pre, isStepCall ev.call = false := by
  obtain ⟨e1, h1, h2⟩ := listMigrations_log m w
  obtain ⟨e2, h3, h4⟩ := GetVersion_log m w1
  rw [hl] at h1
  rw [hg] at h3
  simp only at h1 h3
  refine ⟨e1 ++ e2, by rw [h3, h1, List.append_assoc], ?_⟩
  intro ev hev
  rcases List.mem_append.1 hev with h | h
  · exact h2 ev h
  · exact h4 ev h

/-! ### The stepping loop -/

theorem callReadMigration_eq (m : migrator σ) (f : String) (w : World σ) (o : Option Error)
    (hr : (m.filesystem.ReadMigration f w.state).1.2 = o) :
    callReadMigration m f w =
      (((m.filesystem.ReadMigration f w.state).1.1, o),
        ⟨(m.filesystem.ReadMigration f w.state).2, w.log ++ [⟨.ReadMigration f, o⟩]⟩) := by
  subst hr
  rfl

theorem internalMigrate_cases (m : migrator σ) (mg : migration) (isUp : Bool) (w : World σ) :
    (scriptMissing mg isUp = true ∧
      internalMigrate m mg isUp w = (some (.missingMigrationError mg.Version isUp), w)) ∨
    (scriptMissing mg isUp = false ∧ ∃ e w1,
      internalMigrate m mg isUp w = (some e, w1) ∧
      w1.log = w.log ++ [⟨.ReadMigration (mg.Filename isUp), some e⟩]) ∨
    (scriptMissing mg isUp = false ∧ ∃ useTx q r w1,
      internalMigrate m mg isUp w = (r, w1) ∧
      w1.log = w.log ++ [⟨.ReadMigration (mg.Filename isUp), none⟩,
        ⟨.ApplyMigration useTx isUp mg.Version mg.Name q, r⟩]) := by
  cases hs : scriptMissing mg isUp with
  | true =>
    left
    refine ⟨rfl, ?_⟩
    unfold scriptMissing at hs
    simp only [internalMigrate, hs, if_true]
  | false =>
    right
    unfold scriptMissing at hs
    cases hr : (m.filesystem.ReadMigration (mg.Filename isUp) w.state).1.2 with
    | some e =>
      left
      refine ⟨rfl, e, ⟨(m.filesystem.ReadMigration (mg.Filename isUp) w.state).2,
        w.log ++ [⟨.ReadMigration (mg.Filename isUp), some e⟩]⟩, ?_, rfl⟩
      simp only [internalMigrate, hs, callReadMigration_eq m _ w _ hr]
      simp only [Bool.false_eq_true, if_false]
    | none =>
      right
      refine ⟨rfl, m.useTx (m.filesystem.ReadMigration (mg.Filename isUp) w.state).1.1,
        (m.filesystem.ReadMigration (mg.Filename isUp) w.state).1.1,
        (callApplyMigration m
          (m.useTx (m.filesystem.ReadMigration (mg.Filename isUp) w.state).1.1) isUp
          mg.Version mg.Name (m.filesystem.ReadMigration (mg.Filename isUp) w.state).1.1
          ⟨(m.filesystem.ReadMigration (mg.Filename isUp) w.state).2,
            w.log ++ [⟨.ReadMigration (mg.Filename isUp), none⟩]⟩).1,
        (callApplyMigration m
          (m.useTx (m.filesystem.ReadMigration (mg.Filename isUp) w.state).1.1) isUp
          mg.Version mg.Name (m.filesystem.ReadMigration (mg.Filename isUp) w.state).1.1
          ⟨(m.filesystem.ReadMigration (mg.Filename isUp) w.state).2,
            w.log ++ [⟨.ReadMigration (mg.Filename isUp), none⟩]⟩).2, ?_, ?_⟩
      · simp only [internalMigrate, hs, callReadMigration_eq m _ w _ hr]
        simp only [Bool.false_eq_true, if_false]
      · simp [callApplyMigration]

theorem migrateLoop_done (m : migrator σ) (avail : List migration) (version : Int)
    (isUp : Bool) (step : Int) (fuel : Nat) (w : World σ) :
    migrateLoop m avail version isUp step fuel version w = (.returned none, w) := by
  cases fuel <;> simp [migrateLoop]

theorem migrateLoop_step (m : migrator σ) (avail : List migration) (version : Int)
    (isUp : Bool) (step : Int) (fuel : Nat) (curr : Int) (w : World σ) (mg : migration)
    (hne : curr ≠ version)
    (hs : sliceAt avail (if isUp then curr else curr - 1) = some mg) :
    migrateLoop m avail version isUp step (fuel + 1) curr w =
      match internalMigrate m mg isUp w with
      | (some e, w1) => (.returned (some e), w1)
      | (none, w1) => migrateLoop m avail version isUp step fuel (curr + step) w1 := by
  rw [migrateLoop]
  simp only [hne, if_false, hs]

theorem migrateLoop_panic (m : migrator σ) (avail : List migration) (version : Int)
    (isUp : Bool) (step : Int) (fuel : Nat) (curr : Int) (w : World σ)
    (hne : curr ≠ version)
    (hs : sliceAt avail (if isUp then curr else curr - 1) = none) :
    migrateLoop m avail version isUp step (fuel + 1) curr w = (.panicked, w) := by
  rw [migrateLoop]
  simp only [hne, if_false, hs]

theorem migrateLoop_zero (m : migrator σ) (avail : List migration) (version : Int)
    (isUp : Bool) (step : Int) (curr : Int) (w : World σ) (hne : curr ≠ version) :
    migrateLoop m avail version isUp step 0 curr w = (.outOfFuel, w) := by
  rw [migrateLoop]
  simp only [hne, if_false]

theorem sliceAt_valid (avail : List migration) (hv : ValidSet avail) (i : Int)
    (h0 : 0 ≤ i) (h1 : i < avail.length) :
    ∃ mg, sliceAt avail i = some mg ∧ mg.Version = i + 1 ∧ mg.HasUp = true := by
  obtain ⟨mg, h2, h3, h4⟩ := hv i.toNat (by omega)
  refine ⟨mg, ?_, ?_, h4⟩
  · simp only [sliceAt, not_lt.2 h0, if_false]
    exact h2
  · rw [h3]
    omega

theorem sliceAt_some_valid (avail : List migration) (hv : ValidSet avail) (i : Int)
    (mg : migration) (h : sliceAt avail i = some mg) :
    mg.Version = i + 1 ∧ mg.HasUp = true ∧ 0 ≤ i ∧ i < avail.length := by
  unfold sliceAt at h
  by_cases h0 : i < 0
  · simp [h0] at h
  · simp only [h0, if_false] at h
    have hlt : i.toNat < avail.length := by
      by_contra hc
      rw [List.get?_eq_none.2 (by omega)] at h
      cases h
    obtain ⟨mg1, h2, h3, h4⟩ := hv i.toNat hlt
    rw [h] at h2
    cases h2
    exact ⟨by rw [h3]; omega, h4, by omega, by omega⟩

theorem versionName_of_sliceAt (avail : List migration) (v i : Int) (mg : migration)
    (hi : i = v - 1) (h : sliceAt avail i = some mg) : versionName avail v = mg.Name := by
  subst hi
  simp [versionName, h]

theorem stepCalls_succ (avail : List migration) (hv : ValidSet avail) (isUp : Bool) (c : Int)
    (k : Nat) (mg : migration)
    (hs : sliceAt avail (if isUp then c else c - 1) = some mg) :
    stepCalls avail isUp c (k + 1) =
      (isUp, mg.Version, mg.Name) ::
        stepCalls avail isUp (c + (if !isUp then -1 else 1)) k := by
  have h := sliceAt_some_valid avail hv _ mg hs
  cases isUp with
  | true =>
    simp only [if_true] at hs h
    simp only [stepCalls, upSteps, if_true, Bool.not_true, Bool.false_eq_true, if_false]
    rw [versionName_of_sliceAt avail (c + 1) c mg (by omega) hs, h.1]
  | false =>
    simp only [Bool.false_eq_true, if_false] at hs h
    simp only [stepCalls, downSteps, Bool.false_eq_true, if_false, Bool.not_false, if_true]
    rw [versionName_of_sliceAt avail c (c - 1) mg rfl hs, h.1]
    have e1 : c - 1 + 1 = c := by omega
    have e2 : c + -1 = c - 1 := by omega
    rw [e1, e2]

/-- The events of the loop, for any current version, target and fuel: only reads and
applies; the apply calls walk consecutive versions in one direction; a call that
answers an error is the last one and its error is what the loop returns. -/
theorem migrateLoop_trace (m : migrator σ) (avail : List migration) (T : Int) (isUp : Bool)
    (hv : ValidSet avail) :
    ∀ (fuel : Nat) (C : Int) (w : World σ), ∃ (evs : List Event) (k : Nat),
      (migrateLoop m avail T isUp (if !isUp then -1 else 1) fuel C w).2.log = w.log ++ evs ∧
      (∀ ev ∈ evs, isStepCall ev.call = true) ∧
      k ≤ fuel ∧
      applyCalls evs = stepCalls avail isUp C k ∧
      (∀ ev ∈ evs, ev.err ≠ none →
        (migrateLoop m avail T isUp (if !isUp then -1 else 1) fuel C w).1 = .returned ev.err ∧
        ∃ init, evs = init ++ [ev] ∧ ∀ x ∈ init, x.err = none) := by
  have hnil : ∀ (C : Int), applyCalls [] = stepCalls avail isUp C 0 := by
    intro C
    cases isUp <;> rfl
  intro fuel
  induction fuel with
  | zero =>
    intro C w
    by_cases hC : C = T
    · subst hC
      rw [migrateLoop_done]
      exact ⟨[], 0, by simp, by simp, le_refl _, hnil _, by simp⟩
    · rw [migrateLoop_zero _ _ _ _ _ _ _ hC]
      exact ⟨[], 0, by simp, by simp, le_refl _, hnil _, by simp⟩
  | succ f ih =>
    intro C w
    by_cases hC : C = T
    · subst hC
      rw [migrateLoop_done]
      exact ⟨[], 0, by simp, by simp, Nat.zero_le _, hnil _, by simp⟩
    · cases hs : sliceAt avail (if isUp then C else C - 1) with
      | none =>
        rw [migrateLoop_panic _ _ _ _ _ _ _ _ hC hs]
        exact ⟨[], 0, by simp, by simp, Nat.zero_le _, hnil _, by simp⟩
      | some mg =>
        rw [migrateLoop_step _ _ _ _ _ _ _ _ mg hC hs]
        rcases internalMigrate_cases m mg isUp w with
          ⟨-, hr⟩ | ⟨-, e, w1, hr, hlog⟩ | ⟨-, useTx, q, r, w1, hr, hlog⟩
        · rw [hr]
          exact ⟨[], 0, by simp, by simp, Nat.zero_le _, hnil _, by simp⟩
        · rw [hr]
          refine ⟨[⟨.ReadMigration (mg.Filename isUp), some e⟩], 0, hlog, ?_,
            Nat.zero_le _, ?_, ?_⟩
          · intro ev hev
            rw [List.mem_singleton.1 hev]
            rfl
          · rw [← hnil C]
            rfl
          · intro ev hev _
            rw [List.mem_singleton.1 hev]
            exact ⟨rfl, [], rfl, by simp⟩
        · rw [hr]
          cases r with
          | some e =>
            refine ⟨_, 1, hlog, ?_, by omega, ?_, ?_⟩
            · intro ev hev
              simp only [List.mem_cons, List.mem_singleton, List.not_mem_nil, or_false] at hev
              rcases hev with rfl | rfl <;> rfl
            · rw [stepCalls_succ avail hv isUp C 0 mg hs, ← hnil]
              rfl
            · intro ev hev hne
              simp only [List.mem_cons, List.mem_singleton, List.not_mem_nil, or_false] at hev
              rcases hev with rfl | rfl
              · exact absurd rfl hne
              · exact ⟨rfl, [⟨.ReadMigration (mg.Filename isUp), none⟩], rfl, by simp⟩
          | none =>
            obtain ⟨evs, k, h1, h2, h3, h4, h5⟩ := ih (C + (if !isUp then -1 else 1)) w1
            refine ⟨[⟨.ReadMigration (mg.Filename isUp), none⟩,
              ⟨.ApplyMigration useTx isUp mg.Version mg.Name q, none⟩] ++ evs, k + 1,
              ?_, ?_, by omega, ?_, ?_⟩
            · simp only []
              rw [h1, hlog, List.append_assoc]
            · intro ev hev
              rcases List.mem_append.1 hev with h | h
              · simp only [List.mem_cons, List.mem_singleton, List.not_mem_nil,
                  or_false] at h
                rcases h with rfl | rfl <;> rfl
              · exact h2 ev h
            · rw [applyCalls_append, h4, stepCalls_succ avail hv isUp C k mg hs]
              rfl
            · intro ev hev hne
              rcases List.mem_append.1 hev with h | h
              · simp only [List.mem_cons, List.mem_singleton, List.not_mem_nil,
                  or_false] at h
                rcases h with rfl | rfl <;> exact absurd rfl hne
              · obtain ⟨h6, init, h7, h8⟩ := h5 ev h hne
                refine ⟨h6, [⟨.ReadMigration (mg.Filename isUp), none⟩,
                  ⟨.ApplyMigration useTx isUp mg.Version mg.Name q, none⟩] ++ init, ?_, ?_⟩
                · rw [h7, List.append_assoc]
                · intro x hx
                  rcases List.mem_append.1 hx with h | h
                  · simp only [List.mem_cons, List.mem_singleton, List.not_mem_nil,
                      or_false] at h
                    rcases h with rfl | rfl <;> rfl
                  · exact h8 x h

/-- Upward stepping in which every call answers no error applies every version up to the
target. -/
theorem migrateLoop_up_ok (m : migrator σ) (avail : List migration) (T : Int)
    (hv : ValidSet avail) (hT : T ≤ avail.length) :
    ∀ (fuel : Nat) (C : Int) (w : World σ), 0 ≤ C → C ≤ T → (T - C).toNat ≤ fuel →
      ∃ evs, (migrateLoop m avail T true 1 fuel C w).2.log = w.log ++ evs ∧
        ((∀ ev ∈ evs, ev.err = none) →
          (migrateLoop m avail T true 1 fuel C w).1 = .returned none ∧
          applyCalls evs = upSteps avail C (T - C).toNat) := by
  intro fuel
  induction fuel with
  | zero =>
    intro C w h0 h1 h2
    have hC : C = T := by omega
    subst hC
    rw [migrateLoop_done]
    exact ⟨[], by simp, fun _ => ⟨rfl, by simp [upSteps, applyCalls]⟩⟩
  | succ f ih =>
    intro C w h0 h1 h2
    by_cases hC : C = T
    · subst hC
      rw [migrateLoop_done]
      exact ⟨[], by simp, fun _ => ⟨rfl, by simp [upSteps, applyCalls]⟩⟩
    · obtain ⟨mg, hs, hver, hup⟩ := sliceAt_valid avail hv C h0 (by omega)
      have hs1 : sliceAt avail (if true = true then C else C - 1) = some mg := by
        simpa using hs
      rw [migrateLoop_step _ _ _ _ _ _ _ _ mg hC hs1]
      have hn : (T - C).toNat = (T - (C + 1)).toNat + 1 := by omega
      rcases internalMigrate_cases m mg true w with
        ⟨hm, -⟩ | ⟨-, e, w1, hr, hlog⟩ | ⟨-, useTx, q, r, w1, hr, hlog⟩
      · simp [scriptMissing, hup] at hm
      · rw [hr]
        refine ⟨_, hlog, ?_⟩
        intro hall
        have := hall _ (List.mem_singleton.2 rfl)
        cases this
      · rw [hr]
        cases r with
        | some e =>
          refine ⟨_, hlog, ?_⟩
          intro hall
          have := hall ⟨.ApplyMigration useTx true mg.Version mg.Name q, some e⟩ (by simp)
          cases this
        | none =>
          obtain ⟨evs, h3, h4⟩ := ih (C + 1) w1 (by omega) (by omega) (by omega)
          refine ⟨[⟨.ReadMigration (mg.Filename true), none⟩,
            ⟨.ApplyMigration useTx true mg.Version mg.Name q, none⟩] ++ evs, ?_, ?_⟩
          · simp only []
            rw [h3, hlog, List.append_assoc]
          · intro hall
            obtain ⟨h5, h6⟩ := h4 (fun ev hev => hall ev (List.mem_append_right _ hev))
            refine ⟨h5, ?_⟩
            rw [applyCalls_append, h6, hn]
            simp only [upSteps, applyCalls, List.cons_append, List.nil_append]
            rw [versionName_of_sliceAt avail (C + 1) C mg (by omega) hs, hver]

/-- Downward stepping in which every call answers no error reverts every version down to
`S`, the target or the first version met that has no down-script. -/
theorem migrateLoop_down_ok (m : migrator σ) (avail : List migration) (T S : Int)
    (hv : ValidSet avail) (h0 : 0 ≤ T) (hTS : T ≤ S)
    (hstop : S = T ∨ ∃ mg, sliceAt avail (S - 1) = some mg ∧ mg.HasDown = false) :
    ∀ (fuel : Nat) (C : Int) (w : World σ), S ≤ C → C ≤ avail.length →
      (C - T).toNat ≤ fuel →
      (∀ v mg, S < v → v ≤ C → sliceAt avail (v - 1) = some mg → mg.HasDown = true) →
      ∃ evs, (migrateLoop m avail T false (-1) fuel C w).2.log = w.log ++ evs ∧
        ((∀ ev ∈ evs, ev.err = none) →
          (migrateLoop m avail T false (-1) fuel C w).1 =
            (if S = T then .returned none
              else .returned (some (.missingMigrationError S false))) ∧
          applyCalls evs = downSteps avail C (C - S).toNat) := by
  intro fuel
  induction fuel with
  | zero =>
    intro C w h1 h2 h3 _
    have hC : C = T := by omega
    have hS : S = T := by omega
    subst hC
    rw [migrateLoop_done]
    exact ⟨[], by simp, fun _ => ⟨by simp [hS], by simp [hS, downSteps, applyCalls]⟩⟩
  | succ f ih =>
    intro C w h1 h2 h3 hdown
    by_cases hC : C = T
    · have hS : S = T := by omega
      subst hC
      rw [migrateLoop_done]
      exact ⟨[], by simp, fun _ => ⟨by simp [hS], by simp [hS, downSteps, applyCalls]⟩⟩
    · obtain ⟨mg, hs, hver, -⟩ := sliceAt_valid avail hv (C - 1) (by omega) (by omega)
      have hs1 : sliceAt avail (if false = true then C else C - 1) = some mg := by
        simpa using hs
      rw [migrateLoop_step _ _ _ _ _ _ _ _ mg hC hs1]
      have hver1 : mg.Version = C := by omega
      by_cases hSC : S = C
      · have hST : S ≠ T := by omega
        rcases hstop with h | ⟨mg1, h4, h5⟩
        · exact absurd h hST
        · rw [hSC, hs] at h4
          cases h4
          rcases internalMigrate_cases m mg false w with
            ⟨-, hr⟩ | ⟨hm, -⟩ | ⟨hm, -⟩
          · rw [hr]
            refine ⟨[], by simp, fun _ => ?_⟩
            subst hSC
            simp [hC, hver1, downSteps, applyCalls]
          · simp [scriptMissing, h5] at hm
          · simp [scriptMissing, h5] at hm
      · have hd : mg.HasDown = true := hdown C mg (by omega) (le_refl _) hs
        have hn : (C - S).toNat = (C - 1 - S).toNat + 1 := by omega
        rcases internalMigrate_cases m mg false w with
          ⟨hm, -⟩ | ⟨-, e, w1, hr, hlog⟩ | ⟨-, useTx, q, r, w1, hr, hlog⟩
        · simp [scriptMissing, hd] at hm
        · rw [hr]
          refine ⟨_, hlog, ?_⟩
          intro hall
          have := hall _ (List.mem_singleton.2 rfl)
          cases this
        · rw [hr]
          cases r with
          | some e =>
            refine ⟨_, hlog, ?_⟩
            intro hall
            have := hall ⟨.ApplyMigration useTx false mg.Version mg.Name q, some e⟩ (by simp)
            cases this
          | none =>
            obtain ⟨evs, h5, h6⟩ := ih (C + -1) w1 (by omega) (by omega) (by omega)
              (fun v mg2 hv1 hv2 hv3 => hdown v mg2 hv1 (by omega) hv3)
            refine ⟨[⟨.ReadMigration (mg.Filename false), none⟩,
              ⟨.ApplyMigration useTx false mg.Version mg.Name q, none⟩] ++ evs, ?_, ?_⟩
            · simp only []
              rw [h5, hlog, List.append_assoc]
            · intro hall
              obtain ⟨h7, h8⟩ := h6 (fun ev hev => hall ev (List.mem_append_right _ hev))
              refine ⟨h7, ?_⟩
              have e2 : C + -1 = C - 1 := by omega
              rw [applyCalls_append, h8, hn, e2]
              simp only [downSteps, applyCalls, List.cons_append, List.nil_append]
              rw [versionName_of_sliceAt avail C (C - 1) mg rfl hs, hver1]

/-- The fuel `MigrateTo` gives the loop is enough: moving one version at a time towards
the target, the loop never stops for want of fuel. -/
theorem migrateLoop_fuel (m : migrator σ) (avail : List migration) (T : Int) (isUp : Bool) :
    ∀ (fuel : Nat) (C : Int) (w : World σ), (isUp = true → C ≤ T) → (isUp = false → T ≤ C) →
      (T - C).natAbs ≤ fuel →
      (migrateLoop m avail T isUp (if !isUp then -1 else 1) fuel C w).1 ≠ .outOfFuel := by
  intro fuel
  induction fuel with
  | zero =>
    intro C w _ _ h
    have hC : C = T := by omega
    subst hC
    rw [migrateLoop_done]
    simp
  | succ f ih =>
    intro C w hu hd h
    by_cases hC : C = T
    · subst hC
      rw [migrateLoop_done]
      simp
    · cases hs : sliceAt avail (if isUp then C else C - 1) with
      | none =>
        rw [migrateLoop_panic _ _ _ _ _ _ _ _ hC hs]
        simp
      | some mg =>
        rw [migrateLoop_step _ _ _ _ _ _ _ _ mg hC hs]
        cases hr : internalMigrate m mg isUp w with
        | mk r w1 =>
          cases r with
          | some e => simp
          | none =>
            simp only []
            cases isUp with
            | true =>
              have := hu rfl
              exact ih (C + 1) w1 (fun _ => by omega) (fun h => by cases h) (by omega)
            | false =>
              have := hd rfl
              exact ih (C + -1) w1 (fun h => by cases h) (fun _ => by omega) (by omega)

/-- `MigrateTo` always returns or panics: its loop terminates within the
`|version - currVersion|` iterations it is given. -/
theorem MigrateTo_terminates (m : migrator σ) (T : Int) (w : World σ) :
    (MigrateTo m T w).1 ≠ .outOfFuel := by
  unfold MigrateTo
  cases hl : listMigrations m w with
  | mk r w1 =>
    cases r with
    | panic => simp
    | err e => simp
    | ok avail =>
      simp only []
      cases hg : GetVersion m w1 with
      | mk c w2 =>
        obtain ⟨C, e⟩ := c
        cases e with
        | some e => simp
        | none =>
          simp only []
          by_cases h1 : T = C
          · simp [h1]
          · rw [if_neg h1]
            by_cases h2 : T < 0
            · simp [h2]
            · rw [if_neg h2]
              by_cases h3 : T > (avail.length : Int)
              · simp [h3]
              · rw [if_neg h3]
                apply migrateLoop_fuel
                · intro h
                  have := of_decide_eq_true h
                  omega
                · intro h
                  have := of_decide_eq_false h
                  omega
                · exact le_refl _

theorem MigrateTo_eq (m : migrator σ) (w w1 w2 : World σ) (avail : List migration)
    (C T : Int) (hl : listMigrations m w = (.ok avail, w1))
    (hg : GetVersion m w1 = ((C, none), w2)) :
    MigrateTo m T w =
      if T = C then (.returned none, w2)
      else if T < 0 then
        (.returned (some (.badVersionError T "version must be 0 or higher")), w2)
      else if T > (avail.length : Int) then
        (.returned (some (.badVersionError T
          ("max version is " ++ formatInt avail.length))), w2)
      else
        migrateLoop m avail T (decide (C < T)) (if !decide (C < T) then -1 else 1)
          (T - C).natAbs C w2 := by
  simp only [MigrateTo, hl, hg]

theorem upSteps_eq_map (avail : List migration) (n : Nat) : ∀ C : Int,
    upSteps avail C n =
      (List.range n).map (fun (i : Nat) => (true, C + 1 + (i : Int), versionName avail (C + 1 + (i : Int)))) := by
  induction n with
  | zero => intro C; rfl
  | succ n ih =>
    intro C
    rw [upSteps, ih (C + 1), List.range_succ_eq_map, List.map_cons, List.map_map]
    simp only [Nat.cast_zero, add_zero, List.cons.injEq, true_and]
    apply List.map_congr_left
    intro i _
    simp only [Function.comp, Nat.succ_eq_add_one, Nat.cast_add, Nat.cast_one]
    have e : C + 1 + 1 + (i : Int) = C + 1 + ((i : Int) + 1) := by omega
    rw [e]

theorem downSteps_eq_map (avail : List migration) (n : Nat) : ∀ C : Int,
    downSteps avail C n =
      (List.range n).map (fun (i : Nat) => (false, C - (i : Int), versionName avail (C - (i : Int)))) := by
  induction n with
  | zero => intro C; rfl
  | succ n ih =>
    intro C
    rw [downSteps, ih (C - 1), List.range_succ_eq_map, List.map_cons, List.map_map]
    simp only [Nat.cast_zero, sub_zero, List.cons.injEq, true_and]
    apply List.map_congr_left
    intro i _
    simp only [Function.comp, Nat.succ_eq_add_one, Nat.cast_add, Nat.cast_one]
    have e : C - 1 - (i : Int) = C - ((i : Int) + 1) := by omega
    rw [e]

/-- The events of a run of `MigrateTo` that got past listing and reading the version:
calls that are neither reads nor applies, then the events of the loop. -/
theorem MigrateTo_run (m : migrator σ) (w w1 w2 : World σ) (avail : List migration)
    (C T : Int) (hl : listMigrations m w = (.ok avail, w1))
    (hg : GetVersion m w1 = ((C, none), w2)) :
    ∃ (pre evs : List Event) (k : Nat),
      newEvents w (MigrateTo m T w).2 = pre ++ evs ∧
      (∀ ev ∈ pre, isStepCall ev.call = false) ∧
      (∀ ev ∈ evs, isStepCall ev.call = true) ∧
      k ≤ (T - C).natAbs ∧
      applyCalls evs = stepCalls avail (decide (C < T)) C k ∧
      (∀ ev ∈ evs, ev.err ≠ none →
        (MigrateTo m T w).1 = .returned ev.err ∧
        ∃ init, evs = init ++ [ev] ∧ ∀ x ∈ init, x.err = none) := by
  obtain ⟨pre, hpre, hns⟩ := prelude_log m w w1 w2 _ _ hl hg
  have hv : ValidSet avail := listMigrations_valid m w avail (by rw [hl])
  have hnil : applyCalls [] = stepCalls avail (decide (C < T)) C 0 := by
    cases decide (C < T) <;> rfl
  have hstay : ∀ o : Outcome, MigrateTo m T w = (o, w2) →
      ∃ (pre evs : List Event) (k : Nat),
        newEvents w (MigrateTo m T w).2 = pre ++ evs ∧
        (∀ ev ∈ pre, isStepCall ev.call = false) ∧
        (∀ ev ∈ evs, isStepCall ev.call = true) ∧
        k ≤ (T - C).natAbs ∧
        applyCalls evs = stepCalls avail (decide (C < T)) C k ∧
        (∀ ev ∈ evs, ev.err ≠ none →
          (MigrateTo m T w).1 = .returned ev.err ∧
          ∃ init, evs = init ++ [ev] ∧ ∀ x ∈ init, x.err = none) := by
    intro o ho
    refine ⟨pre, [], 0, ?_, hns, by simp, Nat.zero_le _, hnil, by simp⟩
    rw [ho]
    simp [newEvents_of_log w w2 pre hpre]
  have heq := MigrateTo_eq m w w1 w2 avail C T hl hg
  by_cases h1 : T = C
  · rw [if_pos h1] at heq
    exact hstay _ heq
  · rw [if_neg h1] at heq
    by_cases h2 : T < 0
    · rw [if_pos h2] at heq
      exact hstay _ heq
    · rw [if_neg h2] at heq
      by_cases h3 : T > (avail.length : Int)
      · rw [if_pos h3] at heq
        exact hstay _ heq
      · rw [if_neg h3] at heq
        obtain ⟨evs, k, h4, h5, h6, h7, h8⟩ :=
          migrateLoop_trace m avail T (decide (C < T)) hv (T - C).natAbs C w2
        rw [← heq] at h4 h8
        refine ⟨pre, evs, k, ?_, hns, h5, h6, h7, h8⟩
        apply newEvents_of_log
        rw [h4, hpre, List.append_assoc]

/-! ### Claims on `MigrateTo` -/

/-- C1 (amended): from a validated set of size `N`, a current version `0 ≤ C` and a
target `C < T ≤ N`, when every script read and every apply call of the run answers no
error, `MigrateTo(T)` returns no error and its apply calls are exactly those of versions
`C+1, C+2, ..., T` in that order, each with `isUp = true` and the name the migration list
holds for that version. -/
theorem MigrateTo_up (m : migrator σ) (w w1 w2 : World σ) (avail : List migration)
    (C T : Int) (hl : listMigrations m w = (.ok avail, w1))
    (hg : GetVersion m w1 = ((C, none), w2)) (h0 : 0 ≤ C) (hCT : C < T)
    (hTN : T ≤ avail.length)
    (hok : ∀ ev ∈ newEvents w (MigrateTo m T w).2, isStepCall ev.call = true → ev.err = none) :
    (MigrateTo m T w).1 = .returned none ∧
    applyCalls (newEvents w (MigrateTo m T w).2) =
      (List.range (T - C).toNat).map
        (fun (i : Nat) => (true, C + 1 + (i : Int), versionName avail (C + 1 + (i : Int)))) := by
  obtain ⟨pre, hpre, hns⟩ := prelude_log m w w1 w2 _ _ hl hg
  have hv : ValidSet avail := listMigrations_valid m w avail (by rw [hl])
  have heq := MigrateTo_eq m w w1 w2 avail C T hl hg
  rw [if_neg (by omega), if_neg (by omega), if_neg (by omega)] at heq
  have hd : decide (C < T) = true := by simpa using hCT
  rw [hd] at heq
  obtain ⟨evs, h1, h2⟩ := migrateLoop_up_ok m avail T hv hTN (T - C).natAbs C w2 h0
    (le_of_lt hCT) (by omega)
  obtain ⟨evs1, k, h3, h4, -, -, -⟩ := migrateLoop_trace m avail T true hv (T - C).natAbs C w2
  have hsame : evs1 = evs := by
    have : w2.log ++ evs1 = w2.log ++ evs := by rw [← h3, ← h1]; rfl
    exact List.append_cancel_left this
  subst hsame
  have hloop : migrateLoop m avail T true (if !true then -1 else 1) (T - C).natAbs C w2
      = migrateLoop m avail T true 1 (T - C).natAbs C w2 := rfl
  rw [hloop] at heq
  rw [← heq] at h1 h2
  have hnew : newEvents w (MigrateTo m T w).2 = pre ++ evs1 := by
    apply newEvents_of_log
    rw [h1, hpre, List.append_assoc]
  rw [hnew] at hok ⊢
  obtain ⟨h5, h6⟩ := h2 (fun ev hev => hok ev (List.mem_append_right _ hev) (h4 ev hev))
  refine ⟨h5, ?_⟩
  rw [applyCalls_append, applyCalls_of_no_step pre hns, List.nil_append, h6, upSteps_eq_map]

/-- C1, at the three-version fixture: from version 1 to 3 the apply calls are those of
versions 2 and 3. -/
theorem MigrateTo_up_witness :
    (MigrateTo (sampleMigrator threeVersions) 3 ⟨[⟨1, "v1"⟩], []⟩).1 = .returned none ∧
    applyCalls (newEvents ⟨[⟨1, "v1"⟩], []⟩
        (MigrateTo (sampleMigrator threeVersions) 3 ⟨[⟨1, "v1"⟩], []⟩).2) =
      [(true, 2, "v2"), (true, 3, "v3")] :=
  MigrateTo_up (sampleMigrator threeVersions) ⟨[⟨1, "v1"⟩], []⟩
    ⟨[⟨1, "v1"⟩], preludeEvents.take 3⟩ ⟨[⟨1, "v1"⟩], preludeEvents⟩ threeMigrations 1 3
    (by decide) (by decide) (by decide) (by decide) (by decide) (by decide)

/-- C1 as stated fails. With one version on disk and an empty ledger, a failing script
read makes `MigrateTo(1)` return the read error although no apply call failed (none was
made); and with a current version of `-1` the first step indexes the list at `-1`. -/
theorem MigrateTo_up_counterexample :
    (MigrateTo ⟨ledgerDb, unreadableFs ["0001_v1.up.sql"], false⟩ 1 ⟨[], []⟩).1
      = .returned (some (.adapterError "read failed")) ∧
    newEvents ⟨[], []⟩
        (MigrateTo ⟨ledgerDb, unreadableFs ["0001_v1.up.sql"], false⟩ 1 ⟨[], []⟩).2
      = preludeEvents ++
        [⟨.ReadMigration "0001_v1.up.sql", some (.adapterError "read failed")⟩] ∧
    (listMigrations ⟨staleDb (-1), listingFs ["0001_v1.up.sql"], false⟩ ⟨[], []⟩).1
      = .ok [⟨1, "v1", true, false⟩] ∧
    (MigrateTo ⟨staleDb (-1), listingFs ["0001_v1.up.sql"], false⟩ 1 ⟨[], []⟩).1
      = .panicked := by
  decide

/-- C2 (amended): from a validated set of size `N`, a current version `C ≤ N` and a
target `0 ≤ T < C`, let `S` be the highest version in `T+1..C` without a down-script, or
`T` when there is none. When every script read and every apply call of the run answers
no error, the apply calls of `MigrateTo(T)` are exactly those of versions
`C, C-1, ..., S+1` in that order, each with `isUp = false` and the name the list holds
for that version; it returns no error when `S = T` and
`missingMigrationError{version: S, isUp: false}` otherwise, having made no apply call
for `S` or any lower version. -/
theorem MigrateTo_down (m : migrator σ) (w w1 w2 : World σ) (avail : List migration)
    (C T S : Int) (hl : listMigrations m w = (.ok avail, w1))
    (hg : GetVersion m w1 = ((C, none), w2)) (h0 : 0 ≤ T) (hTC : T < C)
    (hCN : C ≤ avail.length) (hTS : T ≤ S) (hSC : S ≤ C)
    (hdown : ∀ v mg, S < v → v ≤ C → sliceAt avail (v - 1) = some mg → mg.HasDown = true)
    (hstop : S = T ∨ ∃ mg, sliceAt avail (S - 1) = some mg ∧ mg.HasDown = false)
    (hok : ∀ ev ∈ newEvents w (MigrateTo m T w).2, isStepCall ev.call = true → ev.err = none) :
    (MigrateTo m T w).1 =
      (if S = T then .returned none
        else .returned (some (.missingMigrationError S false))) ∧
    applyCalls (newEvents w (MigrateTo m T w).2) =
      (List.range (C - S).toNat).map
        (fun (i : Nat) => (false, C - (i : Int), versionName avail (C - (i : Int)))) := by
  obtain ⟨pre, hpre, hns⟩ := prelude_log m w w1 w2 _ _ hl hg
  have hv : ValidSet avail := listMigrations_valid m w avail (by rw [hl])
  have heq := MigrateTo_eq m w w1 w2 avail C T hl hg
  rw [if_neg (by omega), if_neg (by omega), if_neg (by omega)] at heq
  have hd : decide (C < T) = false := by simpa using le_of_lt hTC
  rw [hd] at heq
  obtain ⟨evs, h1, h2⟩ := migrateLoop_down_ok m avail T S hv h0 hTS hstop (T - C).natAbs C w2
    hSC hCN (by omega) hdown
  obtain ⟨evs1, k, h3, h4, -, -, -⟩ := migrateLoop_trace m avail T false hv (T - C).natAbs C w2
  have hsame : evs1 = evs := by
    have : w2.log ++ evs1 = w2.log ++ evs := by rw [← h3, ← h1]; rfl
    exact List.append_cancel_left this
  subst hsame
  have hloop : migrateLoop m avail T false (if !false then -1 else 1) (T - C).natAbs C w2
      = migrateLoop m avail T false (-1) (T - C).natAbs C w2 := rfl
  rw [hloop] at heq
  rw [← heq] at h1 h2
  have hnew : newEvents w (MigrateTo m T w).2 = pre ++ evs1 := by
    apply newEvents_of_log
    rw [h1, hpre, List.append_assoc]
  rw [hnew] at hok ⊢
  obtain ⟨h5, h6⟩ := h2 (fun ev hev => hok ev (List.mem_append_right _ hev) (h4 ev hev))
  refine ⟨h5, ?_⟩
  rw [applyCalls_append, applyCalls_of_no_step pre hns, List.nil_append, h6, downSteps_eq_map]

/-- C2, at the three-version fixture: from version 3 to 0 versions 3 and 2 are reverted
and version 1, which has no down-script, stops the run. -/
theorem MigrateTo_down_witness :
    (MigrateTo (sampleMigrator threeVersions) 0
        ⟨[⟨1, "v1"⟩, ⟨2, "v2"⟩, ⟨3, "v3"⟩], []⟩).1 =
      .returned (some (.missingMigrationError 1 false)) ∧
    applyCalls (newEvents ⟨[⟨1, "v1"⟩, ⟨2, "v2"⟩, ⟨3, "v3"⟩], []⟩
        (MigrateTo (sampleMigrator threeVersions) 0
          ⟨[⟨1, "v1"⟩, ⟨2, "v2"⟩, ⟨3, "v3"⟩], []⟩).2) =
      [(false, 3, "v3"), (false, 2, "v2")] :=
  MigrateTo_down (sampleMigrator threeVersions) ⟨[⟨1, "v1"⟩, ⟨2, "v2"⟩, ⟨3, "v3"⟩], []⟩
    ⟨[⟨1, "v1"⟩, ⟨2, "v2"⟩, ⟨3, "v3"⟩], preludeEvents.take 3⟩
    ⟨[⟨1, "v1"⟩, ⟨2, "v2"⟩, ⟨3, "v3"⟩], preludeEvents⟩ threeMigrations 3 0 1
    (by decide) (by decide) (by decide) (by decide) (by decide) (by decide) (by decide)
    (by
      intro v mg h1 h2 h
      have hv : v = 2 ∨ v = 3 := by omega
      rcases hv with rfl | rfl
      · have e : sliceAt threeMigrations (2 - 1) = some ⟨2, "v2", true, true⟩ := by decide
        rw [e] at h
        cases h
        rfl
      · have e : sliceAt threeMigrations (3 - 1) = some ⟨3, "v3", true, true⟩ := by decide
        rw [e] at h
        cases h
        rfl)
    (Or.inr ⟨⟨1, "v1", true, false⟩, by decide, rfl⟩)
    (by decide)

/-- C2 as stated fails. (1) With down-scripts for versions 1 and 2 and the apply of
version 2 failing, `MigrateTo(0)` from version 2 returns that error after the one call
and version 1 is never reverted. (2) With one version on disk and a current version of 2
the first step indexes the list out of range. (3) With versions 1 and 3 both lacking a
down-script, `MigrateTo(0)` from version 3 stops at version 3 with no apply call, not at
version 1 after reverting 3 and 2. -/
theorem MigrateTo_down_counterexample :
    (MigrateTo ⟨failingDb 2,
        listingFs ["0001_v1.up.sql", "0001_v1.down.sql", "0002_v2.up.sql", "0002_v2.down.sql"],
        false⟩ 0 ⟨[⟨1, "v1"⟩, ⟨2, "v2"⟩], []⟩).1
      = .returned (some (.adapterError "apply failed")) ∧
    applyCalls (newEvents ⟨[⟨1, "v1"⟩, ⟨2, "v2"⟩], []⟩
      (MigrateTo ⟨failingDb 2,
        listingFs ["0001_v1.up.sql", "0001_v1.down.sql", "0002_v2.up.sql", "0002_v2.down.sql"],
        false⟩ 0 ⟨[⟨1, "v1"⟩, ⟨2, "v2"⟩], []⟩).2)
      = [(false, 2, "v2")] ∧
    (listMigrations ⟨staleDb 2, listingFs ["0001_v1.up.sql", "0001_v1.down.sql"], false⟩
        ⟨[], []⟩).1 = .ok [⟨1, "v1", true, true⟩] ∧
    (MigrateTo ⟨staleDb 2, listingFs ["0001_v1.up.sql", "0001_v1.down.sql"], false⟩ 0
        ⟨[], []⟩).1 = .panicked ∧
    (MigrateTo (sampleMigrator ["0001_v1.up.sql", "0002_v2.up.sql", "0002_v2.down.sql",
        "0003_v3.up.sql"]) 0 ⟨[⟨1, "v1"⟩, ⟨2, "v2"⟩, ⟨3, "v3"⟩], []⟩).1
      = .returned (some (.missingMigrationError 3 false)) ∧
    applyCalls (newEvents ⟨[⟨1, "v1"⟩, ⟨2, "v2"⟩, ⟨3, "v3"⟩], []⟩
      (MigrateTo (sampleMigrator ["0001_v1.up.sql", "0002_v2.up.sql", "0002_v2.down.sql",
        "0003_v3.up.sql"]) 0 ⟨[⟨1, "v1"⟩, ⟨2, "v2"⟩, ⟨3, "v3"⟩], []⟩).2) = [] := by
  decide

/-- C8: from a validated set of size `N` and a current version `C`, a target `T ≠ C`
that is negative makes `MigrateTo(T)` return `badVersionError{version: T}` with problem
"version must be 0 or higher", and a target above `N` makes it return
`badVersionError{version: T}` with problem "max version is N" (`N` in decimal); in both
cases no script is read and no apply call is made. -/
theorem MigrateTo_bad_version (m : migrator σ) (w w1 w2 : World σ) (avail : List migration)
    (C T : Int) (hl : listMigrations m w = (.ok avail, w1))
    (hg : GetVersion m w1 = ((C, none), w2)) (hne : T ≠ C) :
    (T < 0 → (MigrateTo m T w).1
      = .returned (some (.badVersionError T "version must be 0 or higher"))) ∧
    ((avail.length : Int) < T → (MigrateTo m T w).1
      = .returned (some (.badVersionError T
          ("max version is " ++ formatInt avail.length)))) ∧
    (T < 0 ∨ (avail.length : Int) < T →
      applyCalls (newEvents w (MigrateTo m T w).2) = [] ∧
      readCalls (newEvents w (MigrateTo m T w).2) = []) := by
  obtain ⟨pre, hpre, hns⟩ := prelude_log m w w1 w2 _ _ hl hg
  have heq := MigrateTo_eq m w w1 w2 avail C T hl hg
  rw [if_neg hne] at heq
  have hnew : newEvents w w2 = pre := newEvents_of_log w w2 pre hpre
  refine ⟨?_, ?_, ?_⟩
  · intro h
    rw [if_pos h] at heq
    rw [heq]
  · intro h
    rw [if_neg (by omega), if_pos (by omega)] at heq
    rw [heq]
  · intro h
    have h2 : (MigrateTo m T w).2 = w2 := by
      by_cases h1 : T < 0
      · rw [if_pos h1] at heq
        rw [heq]
      · rw [if_neg h1, if_pos (by omega)] at heq
        rw [heq]
    rw [h2, hnew]
    exact ⟨applyCalls_of_no_step pre hns, readCalls_of_no_step pre hns⟩

/-- C8, at the three-version fixture: `MigrateTo(5)` from version 1 answers
"max version is 3". -/
theorem MigrateTo_bad_version_witness :
    (MigrateTo (sampleMigrator threeVersions) 5 ⟨[⟨1, "v1"⟩], []⟩).1
      = .returned (some (.badVersionError 5 "max version is 3")) ∧
    applyCalls (newEvents ⟨[⟨1, "v1"⟩], []⟩
      (MigrateTo (sampleMigrator threeVersions) 5 ⟨[⟨1, "v1"⟩], []⟩).2) = [] ∧
    (MigrateTo (sampleMigrator threeVersions) (-1) ⟨[⟨1, "v1"⟩], []⟩).1
      = .returned (some (.badVersionError (-1) "version must be 0 or higher")) :=
  ⟨(MigrateTo_bad_version (sampleMigrator threeVersions) ⟨[⟨1, "v1"⟩], []⟩
      ⟨[⟨1, "v1"⟩], preludeEvents.take 3⟩ ⟨[⟨1, "v1"⟩], preludeEvents⟩ threeMigrations 1 5
      (by decide) (by decide) (by decide)).2.1 (by decide),
    ((MigrateTo_bad_version (sampleMigrator threeVersions) ⟨[⟨1, "v1"⟩], []⟩
      ⟨[⟨1, "v1"⟩], preludeEvents.take 3⟩ ⟨[⟨1, "v1"⟩], preludeEvents⟩ threeMigrations 1 5
      (by decide) (by decide) (by decide)).2.2 (Or.inr (by decide))).1,
    (MigrateTo_bad_version (sampleMigrator threeVersions) ⟨[⟨1, "v1"⟩], []⟩
      ⟨[⟨1, "v1"⟩], preludeEvents.take 3⟩ ⟨[⟨1, "v1"⟩], preludeEvents⟩ threeMigrations 1 (-1)
      (by decide) (by decide) (by decide)).1 (by decide)⟩

/-- C9: when the filesystem set and the ledger reconcile and the current version is `C`,
`MigrateTo(C)` returns no error, makes no apply call and reads no script body. -/
theorem MigrateTo_same_version (m : migrator σ) (w w1 w2 : World σ)
    (avail : List migration) (C : Int) (hl : listMigrations m w = (.ok avail, w1))
    (hg : GetVersion m w1 = ((C, none), w2)) :
    (MigrateTo m C w).1 = .returned none ∧
    applyCalls (newEvents w (MigrateTo m C w).2) = [] ∧
    readCalls (newEvents w (MigrateTo m C w).2) = [] := by
  obtain ⟨pre, hpre, hns⟩ := prelude_log m w w1 w2 _ _ hl hg
  have heq := MigrateTo_eq m w w1 w2 avail C C hl hg
  rw [if_pos rfl] at heq
  rw [heq]
  simp only [newEvents_of_log w w2 pre hpre]
  exact ⟨trivial, applyCalls_of_no_step pre hns, readCalls_of_no_step pre hns⟩

/-- C9, at the three-version fixture with current version 1. -/
theorem MigrateTo_same_version_witness :
    (MigrateTo (sampleMigrator threeVersions) 1 ⟨[⟨1, "v1"⟩], []⟩).1 = .returned none ∧
    applyCalls (newEvents ⟨[⟨1, "v1"⟩], []⟩
      (MigrateTo (sampleMigrator threeVersions) 1 ⟨[⟨1, "v1"⟩], []⟩).2) = [] ∧
    readCalls (newEvents ⟨[⟨1, "v1"⟩], []⟩
      (MigrateTo (sampleMigrator threeVersions) 1 ⟨[⟨1, "v1"⟩], []⟩).2) = [] :=
  MigrateTo_same_version (sampleMigrator threeVersions) ⟨[⟨1, "v1"⟩], []⟩
    ⟨[⟨1, "v1"⟩], preludeEvents.take 3⟩ ⟨[⟨1, "v1"⟩], preludeEvents⟩ threeMigrations 1
    (by decide) (by decide)

/-- C10: in a run of `MigrateTo` that reached stepping, a script read or an apply call
that answers an error is the last call of the run (so it is not retried and no later
step is attempted), `MigrateTo` returns exactly that error, every read and apply made
before it answered no error, and the apply calls of the whole run are those of `k`
consecutive versions in the one direction of the run (so none is undone). -/
theorem MigrateTo_step_failure (m : migrator σ) (w w1 w2 : World σ)
    (avail : List migration) (C T : Int) (hl : listMigrations m w = (.ok avail, w1))
    (hg : GetVersion m w1 = ((C, none), w2)) (ev : Event)
    (hev : ev ∈ newEvents w (MigrateTo m T w).2) (hstep : isStepCall ev.call = true)
    (herr : ev.err ≠ none) :
    (MigrateTo m T w).1 = .returned ev.err ∧
    (∃ init, newEvents w (MigrateTo m T w).2 = init ++ [ev] ∧
      ∀ x ∈ init, isStepCall x.call = true → x.err = none) ∧
    (∃ k : Nat, k ≤ (T - C).natAbs ∧
      applyCalls (newEvents w (MigrateTo m T w).2) =
        (List.range k).map (fun (i : Nat) =>
          if C < T then (true, C + 1 + (i : Int), versionName avail (C + 1 + (i : Int)))
          else (false, C - (i : Int), versionName avail (C - (i : Int))))) := by
  obtain ⟨pre, evs, k, h1, h2, h3, h4, h5, h6⟩ := MigrateTo_run m w w1 w2 avail C T hl hg
  rw [h1] at hev ⊢
  have hin : ev ∈ evs := by
    rcases List.mem_append.1 hev with h | h
    · rw [h2 ev h] at hstep
      cases hstep
    · exact h
  obtain ⟨h7, init, h8, h9⟩ := h6 ev hin herr
  refine ⟨h7, ⟨pre ++ init, by rw [h8, List.append_assoc], ?_⟩, k, h4, ?_⟩
  · intro x hx hxs
    rcases List.mem_append.1 hx with h | h
    · rw [h2 x h] at hxs
      cases hxs
    · exact h9 x h
  · rw [applyCalls_append, applyCalls_of_no_step pre h2, List.nil_append, h5]
    by_cases hlt : C < T
    · simp only [stepCalls, hlt, decide_True, if_true, upSteps_eq_map]
    · simp only [stepCalls, hlt, decide_False, Bool.false_eq_true, if_false, downSteps_eq_map]

/-- C10, at the three-version fixture: going from version 1 to 3 with the apply of
version 3 failing. -/
theorem MigrateTo_step_failure_witness :
    (MigrateTo ⟨failingDb 3, listingFs threeVersions, false⟩ 3 ⟨[⟨1, "v1"⟩], []⟩).1
      = .returned (some (.adapterError "apply failed")) ∧
    (∃ init, newEvents ⟨[⟨1, "v1"⟩], []⟩
        (MigrateTo ⟨failingDb 3, listingFs threeVersions, false⟩ 3 ⟨[⟨1, "v1"⟩], []⟩).2
        = init ++ [⟨.ApplyMigration true true 3 "v3" "", some (.adapterError "apply failed")⟩] ∧
      ∀ x ∈ init, isStepCall x.call = true → x.err = none) ∧
    (∃ k : Nat, k ≤ ((3 : Int) - 1).natAbs ∧
      applyCalls (newEvents ⟨[⟨1, "v1"⟩], []⟩
        (MigrateTo ⟨failingDb 3, listingFs threeVersions, false⟩ 3 ⟨[⟨1, "v1"⟩], []⟩).2) =
        (List.range k).map (fun (i : Nat) =>
          if (1 : Int) < 3 then
            (true, (1 : Int) + 1 + (i : Int), versionName threeMigrations (1 + 1 + (i : Int)))
          else (false, (1 : Int) - (i : Int), versionName threeMigrations (1 - (i : Int))))) :=
  MigrateTo_step_failure ⟨failingDb 3, listingFs threeVersions, false⟩ ⟨[⟨1, "v1"⟩], []⟩
    ⟨[⟨1, "v1"⟩], preludeEvents.take 3⟩ ⟨[⟨1, "v1"⟩], preludeEvents⟩ threeMigrations 1 3
    (by decide) (by decide)
    ⟨.ApplyMigration true true 3 "v3" "", some (.adapterError "apply failed")⟩
    (by decide) (by decide) (by decide)

/-! ### Claims on `filenamesToMigrations` and `validateMigrations` -/

/-- C3: for a list of filenames, in any order and with unrecognized entries among them,
whose recognized entries are the canonical names (`Filename`) of versions in `1..N` with
one name per version (`nameOf`), every version `1..N` having its up-script, and for a
ledger whose entries all carry a version in `1..N` with that version's name,
`filenamesToMigrations` succeeds and returns exactly `N` descriptors, the one at index
`k` having version `k+1`, that version's name and its up flag set. `N < 2^63` is the
range of a Go `int`. -/
theorem filenamesToMigrations_canonical (m : migrator σ) (w : World σ)
    (names : List String) (N : Nat) (nameOf : Int → String) (hN : (N : Int) < 2 ^ 63)
    (hrec : ∀ s ∈ names, recognized s = true →
      ∃ (mg : migration) (isUp : Bool), 1 ≤ mg.Version ∧ mg.Version ≤ (N : Int) ∧
        mg.Name = nameOf mg.Version ∧ s = mg.Filename isUp)
    (hup : ∀ v : Int, 1 ≤ v → v ≤ (N : Int) →
      ∃ mg : migration, mg.Version = v ∧ mg.Name = nameOf v ∧ mg.Filename true ∈ names)
    (hledger : ∀ x ∈ ledgerOf m w,
      1 ≤ x.Version ∧ x.Version ≤ (N : Int) ∧ x.Name = nameOf x.Version) :
    ∃ result, (filenamesToMigrations m names w).1 = .ok result ∧ result.length = N ∧
      ∀ k : Nat, k < N → ∃ mg, result.get? k = some mg ∧ mg.Version = (k : Int) + 1 ∧
        mg.Name = nameOf ((k : Int) + 1) ∧ mg.HasUp = true := by
  obtain ⟨result, h1, h2, h3⟩ :=
    filenamesToMigrations_canon m w names N nameOf hN hrec hup hledger
  exact ⟨result, by rw [h1], h2, h3⟩

/-- C3, at the names of `TestFilenamesToMigrations` with a ledger that covers version 1
only. -/
theorem filenamesToMigrations_canonical_witness :
    ∃ result, (filenamesToMigrations (sampleMigrator mixedNames) mixedNames
        ⟨[⟨1, "first"⟩], []⟩).1 = .ok result ∧ result.length = 2 ∧
      ∀ k : Nat, k < 2 → ∃ mg, result.get? k = some mg ∧ mg.Version = (k : Int) + 1 ∧
        mg.Name = (fun v : Int => if v = 1 then "first" else "second") ((k : Int) + 1) ∧
        mg.HasUp = true :=
  filenamesToMigrations_canonical (sampleMigrator mixedNames) ⟨[⟨1, "first"⟩], []⟩
    mixedNames 2 (fun v : Int => if v = 1 then "first" else "second") (by decide)
    (by
      intro s hs hr
      simp only [mixedNames, List.mem_cons, List.mem_singleton, List.not_mem_nil,
        or_false] at hs
      rcases hs with rfl | rfl | rfl | rfl | rfl | rfl | rfl
      · exact ⟨⟨2, "second", false, false⟩, true, by decide, by decide, by decide, by decide⟩
      · exact absurd hr (by decide)
      · exact ⟨⟨1, "first", false, false⟩, false, by decide, by decide, by decide, by decide⟩
      · exact absurd hr (by decide)
      · exact ⟨⟨2, "second", false, false⟩, false, by decide, by decide, by decide, by decide⟩
      · exact absurd hr (by decide)
      · exact ⟨⟨1, "first", false, false⟩, true, by decide, by decide, by decide, by decide⟩)
    (by
      intro v h1 h2
      have hv : v = 1 ∨ v = 2 := by omega
      rcases hv with rfl | rfl
      · exact ⟨⟨1, "first", false, false⟩, rfl, by decide, by decide⟩
      · exact ⟨⟨2, "second", false, false⟩, rfl, by decide, by decide⟩)
    (by decide)

/-- C4: `validateMigrations` answers no error exactly when every version `1..n`
(`n` the size of the map) is present with its up-script; otherwise it answers
`missingMigrationError` with `isUp = true` for the smallest version in `1..n` that is
absent or has no up-script. -/
theorem validateMigrations_spec (isUp : Bool) (migrations : MigrationMap) :
    (validateMigrations isUp migrations = none ↔
        ∀ i : Int, 1 ≤ i → i ≤ migrations.length → hasUpAt migrations i) ∧
    (validateMigrations isUp migrations ≠ none →
        ∃ i : Int, 1 ≤ i ∧ i ≤ migrations.length ∧
          validateMigrations isUp migrations = some (.missingMigrationError i true) ∧
          ¬ hasUpAt migrations i ∧
          ∀ j : Int, 1 ≤ j → j < i → hasUpAt migrations j) := by
  refine ⟨validateMigrations_eq_none isUp migrations, ?_⟩
  unfold validateMigrations
  rw [List.range_eq_range']
  rcases validateFrom_range_from migrations migrations.length 0 with
    ⟨h1, -⟩ | ⟨i, h1, h2, h3, h4, h5⟩
  · exact fun h => absurd h1 h
  · refine fun _ => ⟨(i : Int) + 1, by omega, by omega, h3, h4, ?_⟩
    intro j hj1 hj2
    have := h5 (j - 1).toNat (Nat.zero_le _) (by omega)
    have e : (((j - 1).toNat : Nat) : Int) + 1 = j := by omega
    rwa [e] at this

/-- C5: when the filenames parse and validate, and the ledger holds an entry `x` whose
version is not in the filesystem set while every entry before it matches the set in
version and name, `filenamesToMigrations` fails with
`filesystemMissingDbMigrationError{version: x.Version}` and returns no migration list. -/
theorem filenamesToMigrations_missing_in_filesystem (m : migrator σ) (w : World σ)
    (names : List String) (byVersion : MigrationMap) (pre post : List dbMigration)
    (x : dbMigration) (hp : parseNames names [] = .ok byVersion)
    (hv : validateMigrations true byVersion = none)
    (hl : ledgerOf m w = pre ++ x :: post)
    (hpre : ∀ y ∈ pre, ∃ mg, byVersion.index y.Version = some mg ∧ mg.Name = y.Name)
    (hx : byVersion.index x.Version = none) :
    (filenamesToMigrations m names w).1
      = .err (.filesystemMissingDbMigrationError x.Version) :=
  (filenamesToMigrations_first_offender m w names byVersion pre post x hp hv hl hpre).1 hx

/-- C5, at the input of `TestDirectoriesToMigrationsTooManyInDb`. -/
theorem filenamesToMigrations_missing_in_filesystem_witness :
    (filenamesToMigrations (sampleMigrator []) ["0001_first.up.sql", "0001_first.down.sql"]
        ⟨[⟨1, "first"⟩, ⟨2, "second"⟩], []⟩).1
      = .err (.filesystemMissingDbMigrationError 2) :=
  filenamesToMigrations_missing_in_filesystem (sampleMigrator [])
    ⟨[⟨1, "first"⟩, ⟨2, "second"⟩], []⟩ ["0001_first.up.sql", "0001_first.down.sql"]
    [(1, ⟨1, "first", true, true⟩)] [⟨1, "first"⟩] [] ⟨2, "second"⟩
    (by decide) (by decide) (by decide)
    (by
      intro y hy
      rw [List.mem_singleton.1 hy]
      exact ⟨⟨1, "first", true, true⟩, by decide, rfl⟩)
    (by decide)

/-- C6: when the filenames parse and validate, and the first ledger entry `x` that does
not match the filesystem set has a version of the set under a different name,
`filenamesToMigrations` fails with `filesystemMigrationMismatchError` carrying
`x.Version`, the ledger's name as `dbName` and the filesystem's name as
`filesystemName`. -/
theorem filenamesToMigrations_ledger_name_mismatch (m : migrator σ) (w : World σ)
    (names : List String) (byVersion : MigrationMap) (pre post : List dbMigration)
    (x : dbMigration) (fsMigration : migration)
    (hp : parseNames names [] = .ok byVersion)
    (hv : validateMigrations true byVersion = none)
    (hl : ledgerOf m w = pre ++ x :: post)
    (hpre : ∀ y ∈ pre, ∃ mg, byVersion.index y.Version = some mg ∧ mg.Name = y.Name)
    (hx : byVersion.index x.Version = some fsMigration)
    (hne : fsMigration.Name ≠ x.Name) :
    (filenamesToMigrations m names w).1
      = .err (.filesystemMigrationMismatchError x.Version x.Name fsMigration.Name) :=
  (filenamesToMigrations_first_offender m w names byVersion pre post x hp hv hl hpre).2
    fsMigration hx hne

/-- C6, at the input of `TestDirectoriesToMigrationsDbDisagrees`. -/
theorem filenamesToMigrations_ledger_name_mismatch_witness :
    (filenamesToMigrations (sampleMigrator [])
        ["0001_first_newname.up.sql", "0001_first_newname.down.sql"]
        ⟨[⟨1, "first"⟩], []⟩).1
      = .err (.filesystemMigrationMismatchError 1 "first" "first_newname") :=
  filenamesToMigrations_ledger_name_mismatch (sampleMigrator []) ⟨[⟨1, "first"⟩], []⟩
    ["0001_first_newname.up.sql", "0001_first_newname.down.sql"]
    [(1, ⟨1, "first_newname", true, true⟩)] [] [] ⟨1, "first"⟩
    ⟨1, "first_newname", true, true⟩
    (by decide) (by decide) (by decide) (by simp) (by decide) (by decide)

/-! ### More on parsing: ignored entries, flags, absence of panics -/

theorem parseFilename_of_no_suffix (s : String) (hu : HasSuffix s ".up.sql" = false)
    (hd : HasSuffix s ".down.sql" = false) : parseFilename s = .ok none := by
  simp [parseFilename, hu, hd]

theorem parseNames_skip (pre post : List String) (x : String)
    (hx : parseFilename x = .ok none) : ∀ m : MigrationMap,
    parseNames (pre ++ x :: post) m = parseNames (pre ++ post) m := by
  induction pre with
  | nil =>
    intro m
    simp only [List.nil_append, parseNames, hx]
  | cons s rest ih =>
    intro m
    simp only [List.cons_append, parseNames]
    cases parseFilename s with
    | panic => rfl
    | err e => rfl
    | ok o =>
      cases o with
      | none => exact ih m
      | some p =>
        simp only []
        cases recordMigration m p with
        | panic => rfl
        | err e => rfl
        | ok m1 => exact ih m1

/-- The suffix tests cannot both succeed. -/
theorem not_both_suffixes (s : String) (hu : HasSuffix s ".up.sql" = true) :
    HasSuffix s ".down.sql" = false := by
  cases hd : HasSuffix s ".down.sql" with
  | false => rfl
  | true =>
    exfalso
    have h1 : ".up.sql".data <:+ s.data := by simpa [HasSuffix] using hu
    have h2 : ".down.sql".data <:+ s.data := by simpa [HasSuffix] using hd
    rcases List.suffix_or_suffix_of_suffix h1 h2 with h | h
    · revert h
      decide
    · revert h
      decide

/-- A parsed entry carries exactly one direction. -/
theorem parseFilename_direction (s : String) (p : parsedName)
    (h : parseFilename s = .ok (some p)) :
    p.down = !p.up ∧ p.up = HasSuffix s ".up.sql" ∧ p.down = HasSuffix s ".down.sql" := by
  unfold parseFilename at h
  cases hu : HasSuffix s ".up.sql" <;> cases hd : HasSuffix s ".down.sql" <;>
    simp only [hu, hd] at h
  · simp at h
  · simp only [Bool.not_false, Bool.not_true, Bool.and_false, Bool.or_false, Bool.false_eq_true,
      if_false] at h
    revert h
    cases SplitN s with
    | nil => simp
    | cons p0 rest =>
      simp only []
      cases Atoi p0 with
      | error c => simp
      | ok v =>
        simp only []
        cases rest with
        | nil => simp
        | cons p1 tl =>
          intro h
          simp at h
          subst h
          simp
  · simp only [Bool.not_false, Bool.not_true, Bool.and_false, Bool.false_and, Bool.or_false,
      Bool.false_eq_true, if_false] at h
    revert h
    cases SplitN s with
    | nil => simp
    | cons p0 rest =>
      simp only []
      cases Atoi p0 with
      | error c => simp
      | ok v =>
        simp only []
        cases rest with
        | nil => simp
        | cons p1 tl =>
          intro h
          simp at h
          subst h
          simp
  · simp at h

theorem parseUintLoop_ok_digits (l : List Char) : ∀ (a n : Nat),
    parseUintLoop l a = .ok n → ∀ c ∈ l, isDigit c = true := by
  induction l with
  | nil => intro a n _ c hc; simp at hc
  | cons d ds ih =>
    intro a n h c hc
    simp only [parseUintLoop] at h
    cases hd : isDigit d with
    | false => simp [hd] at h
    | true =>
      simp only [hd, Bool.not_true, Bool.false_eq_true, if_false] at h
      split at h
      · cases h
      · split at h
        · cases h
        · rcases List.mem_cons.1 hc with rfl | hc1
          · exact hd
          · exact ih _ n h c hc1

/-- What `Atoi` accepts is an optionally signed run of digits. -/
theorem Atoi_ok_signed (tok : String) (v : Int) (h : Atoi tok = .ok v) :
    isSignedDecimal tok = true := by
  unfold Atoi at h
  unfold isSignedDecimal
  cases hdata : tok.data with
  | nil => simp [hdata] at h
  | cons c cs =>
    simp only [hdata] at h ⊢
    by_cases hs : c = '+' ∨ c = '-'
    · simp only [hs, if_true] at h ⊢
      cases cs with
      | nil => simp at h
      | cons d ds =>
        simp only at h
        cases hp : parseUintLoop (d :: ds) 0 with
        | error e => simp [hp] at h
        | ok un =>
          have := parseUintLoop_ok_digits (d :: ds) 0 un hp
          simp only [List.isEmpty_cons, Bool.not_false, Bool.true_and, List.all_eq_true]
          exact this
    · simp only [hs, if_false] at h ⊢
      cases hp : parseUintLoop (c :: cs) 0 with
      | error e => simp [hp] at h
      | ok un =>
        have := parseUintLoop_ok_digits (c :: cs) 0 un hp
        simp only [List.all_eq_true]
        exact this

theorem isSignedDecimal_tail (tok : String) (h : isSignedDecimal tok = true) :
    ∀ c ∈ tok.data.tail, isDigit c = true := by
  unfold isSignedDecimal at h
  cases hdata : tok.data with
  | nil => simp
  | cons c cs =>
    simp only [hdata] at h
    simp only [List.tail_cons]
    intro d hd
    by_cases hs : c = '+' ∨ c = '-'
    · simp only [hs, if_true, Bool.and_eq_true, List.all_eq_true] at h
      exact h.2 d hd
    · simp only [hs, if_false, List.all_eq_true] at h
      exact h d (List.mem_cons_of_mem _ hd)

theorem splitUnderscore_cases (l : List Char) :
    splitUnderscore l = [l] ∨ ∃ a b, splitUnderscore l = [a, b] := by
  induction l with
  | nil => left; rfl
  | cons c cs ih =>
    by_cases hc : c = '_'
    · right
      exact ⟨[], cs, by simp [splitUnderscore, hc]⟩
    · rcases ih with h | ⟨a, b, h⟩
      · left
        simp [splitUnderscore, hc, h]
      · right
        exact ⟨c :: a, b, by simp [splitUnderscore, hc, h]⟩

/-- A name with one of the direction suffixes is never a number as a whole. -/
theorem Atoi_whole_name (s : String)
    (hs : HasSuffix s ".up.sql" = true ∨ HasSuffix s ".down.sql" = true) :
    ∃ cause, Atoi s = .error cause := by
  cases h : Atoi s with
  | error cause => exact ⟨cause, rfl⟩
  | ok v =>
    exfalso
    have hd := isSignedDecimal_tail s (Atoi_ok_signed s v h)
    have hl : 'l' ∈ s.data.tail := by
      rcases hs with hs | hs
      · have h1 : ".up.sql".data <:+ s.data := by simpa [HasSuffix] using hs
        obtain ⟨x, hx⟩ := h1
        rw [← hx]
        cases x with
        | nil => decide
        | cons y ys =>
          simp only [List.cons_append, List.tail_cons, List.mem_append]
          right
          decide
      · have h1 : ".down.sql".data <:+ s.data := by simpa [HasSuffix] using hs
        obtain ⟨x, hx⟩ := h1
        rw [← hx]
        cases x with
        | nil => decide
        | cons y ys =>
          simp only [List.cons_append, List.tail_cons, List.mem_append]
          right
          decide
    have := hd 'l' hl
    revert this
    decide

/-- Indexing `parts[0]` and `parts[1]` never goes out of range. -/
theorem parseFilename_ne_panic (s : String) : parseFilename s ≠ .panic := by
  unfold parseFilename
  cases hu : HasSuffix s ".up.sql" <;> cases hd : HasSuffix s ".down.sql"
  · simp
  · have hs : HasSuffix s ".up.sql" = true ∨ HasSuffix s ".down.sql" = true := Or.inr hd
    obtain ⟨cause, hc⟩ := Atoi_whole_name s hs
    rcases splitUnderscore_cases s.data with h | ⟨a, b, h⟩
    · have e : SplitN s = [s] := by simp [SplitN, h]
      simp [e, hc]
    · have e : SplitN s = [⟨a⟩, ⟨b⟩] := by simp [SplitN, h]
      simp only [e]
      cases Atoi ⟨a⟩ <;> simp
  · have hs : HasSuffix s ".up.sql" = true ∨ HasSuffix s ".down.sql" = true := Or.inl hu
    obtain ⟨cause, hc⟩ := Atoi_whole_name s hs
    rcases splitUnderscore_cases s.data with h | ⟨a, b, h⟩
    · have e : SplitN s = [s] := by simp [SplitN, h]
      simp [e, hc]
    · have e : SplitN s = [⟨a⟩, ⟨b⟩] := by simp [SplitN, h]
      simp only [e]
      cases Atoi ⟨a⟩ <;> simp
  · simp

theorem recordMigration_ne_panic (m : MigrationMap) (p : parsedName) :
    recordMigration m p ≠ .panic := by
  unfold recordMigration
  cases m.index p.version with
  | none => simp
  | some old =>
    simp only []
    split
    · split <;> simp
    · split <;> simp

theorem parseNames_ne_panic (names : List String) : ∀ m : MigrationMap,
    parseNames names m ≠ .panic := by
  induction names with
  | nil => intro m; simp [parseNames]
  | cons s rest ih =>
    intro m
    simp only [parseNames]
    cases hp : parseFilename s with
    | panic => exact absurd hp (parseFilename_ne_panic s)
    | err e => simp
    | ok o =>
      cases o with
      | none => exact ih m
      | some p =>
        simp only []
        cases hr : recordMigration m p with
        | panic => exact absurd hr (recordMigration_ne_panic m p)
        | err e => simp
        | ok m1 => exact ih m1

theorem recordMigration_flags (m m1 : MigrationMap) (p : parsedName)
    (hdir : p.down = !p.up) (h : recordMigration m p = .ok m1) (v : Int) :
    ((∃ mg, m1.index v = some mg) ↔ (∃ mg, m.index v = some mg) ∨ p.version = v) ∧
    (hasUpAt m1 v ↔ hasUpAt m v ∨ (p.version = v ∧ p.up = true)) ∧
    (hasDownAt m1 v ↔ hasDownAt m v ∨ (p.version = v ∧ p.down = true)) := by
  obtain ⟨mg, rfl, -, -, hup, hdown, -⟩ := recordMigration_ok m m1 p h
  by_cases e : p.version = v
  · subst e
    simp only [hasUpAt, hasDownAt, index_assign_self, Option.some.injEq, exists_eq_left',
      true_and, or_true, exists_eq', true_iff]
    cases hi : m.index p.version with
    | none =>
      rw [hi] at hup hdown
      simp only at hup hdown
      simp [hup, hdown]
    | some old =>
      rw [hi] at hup hdown
      simp only at hup hdown
      simp only [hup, hdown, hdir, Option.some.injEq, exists_eq_left', Bool.or_eq_true,
        Bool.not_eq_true', Bool.not_not]
      simp
  · simp only [hasUpAt, hasDownAt, index_assign_ne _ _ _ _ e, e, false_and, or_false]
    simp

/-- What a successful run of the loop over `names` leaves in the map: the versions met,
each with the up flag set when an up-script was met and the down flag set when a
down-script was met. -/
theorem parseNames_flags (names : List String) : ∀ (m0 m : MigrationMap),
    parseNames names m0 = .ok m → ∀ v : Int,
      ((∃ mg, m.index v = some mg) ↔ (∃ mg, m0.index v = some mg) ∨ versionSeen names v) ∧
      (hasUpAt m v ↔ hasUpAt m0 v ∨ upSeen names v) ∧
      (hasDownAt m v ↔ hasDownAt m0 v ∨ downSeen names v) := by
  induction names with
  | nil =>
    intro m0 m h v
    simp only [parseNames] at h
    cases h
    simp [versionSeen, upSeen, downSeen]
  | cons s rest ih =>
    intro m0 m h v
    simp only [parseNames] at h
    cases hp : parseFilename s with
    | panic => rw [hp] at h; cases h
    | err e => rw [hp] at h; cases h
    | ok o =>
      rw [hp] at h
      cases o with
      | none =>
        obtain ⟨h1, h2, h3⟩ := ih m0 m h v
        refine ⟨?_, ?_, ?_⟩
        · rw [h1]
          simp [versionSeen, hp]
        · rw [h2]
          simp [upSeen, hp]
        · rw [h3]
          simp [downSeen, hp]
      | some p =>
        simp only at h
        cases hr : recordMigration m0 p with
        | panic => rw [hr] at h; cases h
        | err e => rw [hr] at h; cases h
        | ok m1 =>
          rw [hr] at h
          obtain ⟨h1, h2, h3⟩ := ih m1 m h v
          obtain ⟨g1, g2, g3⟩ :=
            recordMigration_flags m0 m1 p (parseFilename_direction s p hp).1 hr v
          refine ⟨?_, ?_, ?_⟩
          · rw [h1, g1]
            simp [versionSeen, hp, or_assoc]
          · rw [h2, g2]
            simp [upSeen, hp, or_assoc]
          · rw [h3, g3]
            simp [downSeen, hp, or_assoc]

theorem parseNames_append (pre : List String) : ∀ (rest : List String) (m : MigrationMap),
    parseNames (pre ++ rest) m =
      match parseNames pre m with
      | .ok m1 => parseNames rest m1
      | .err e => .err e
      | .panic => .panic := by
  induction pre with
  | nil => intro rest m; simp [parseNames]
  | cons s tl ih =>
    intro rest m
    simp only [List.cons_append, parseNames]
    cases parseFilename s with
    | panic => rfl
    | err e => rfl
    | ok o =>
      cases o with
      | none => exact ih rest m
      | some p =>
        simp only []
        cases recordMigration m p with
        | panic => rfl
        | err e => rfl
        | ok m1 => exact ih rest m1

/-- A recognized entry whose version token `Atoi` rejects is a malformed filename. -/
theorem parseFilename_bad_token (s : String) (hrec : recognized s = true)
    (htok : isSignedDecimal (versionToken s) = false) :
    ∃ cause, parseFilename s = .err (.badMigrationFilenameError s "" (some cause)) := by
  unfold recognized at hrec
  unfold versionToken at htok
  unfold parseFilename
  have hc : ((!HasSuffix s ".up.sql" && !HasSuffix s ".down.sql") ||
      HasSuffix s ".up.sql" == HasSuffix s ".down.sql") = false := by
    cases hu : HasSuffix s ".up.sql" <;> cases hd : HasSuffix s ".down.sql" <;>
      simp [hu, hd] at hrec ⊢
  simp only [hc, Bool.false_eq_true, if_false]
  rcases splitUnderscore_cases s.data with h | ⟨a, b, h⟩
  · have e : SplitN s = [s] := by simp [SplitN, h]
    rw [e] at htok ⊢
    simp only at htok ⊢
    cases ha : Atoi s with
    | error cause => exact ⟨cause, rfl⟩
    | ok v =>
      rw [Atoi_ok_signed s v ha] at htok
      cases htok
  · have e : SplitN s = [⟨a⟩, ⟨b⟩] := by simp [SplitN, h]
    rw [e] at htok ⊢
    simp only at htok ⊢
    cases ha : Atoi ⟨a⟩ with
    | error cause => exact ⟨cause, rfl⟩
    | ok v =>
      rw [Atoi_ok_signed ⟨a⟩ v ha] at htok
      cases htok

/-! ### Claims on parsing -/

/-- C14 (the code at the input of `TestFilenameMatchesFormat`): a version token with
fewer than four digits is accepted. `filenamesToMigrations` returns the descriptor of
version 1 and no error, where the test expects `badMigrationFilenameError` with
`expected = "0001_notEnoughZeroes.up.sql"`. -/
theorem filenamesToMigrations_unpadded :
    (filenamesToMigrations (sampleMigrator []) ["01_notEnoughZeroes.up.sql"] ⟨[], []⟩).1
      = .ok [⟨1, "notEnoughZeroes", true, false⟩] ∧
    (migration.mk 1 "notEnoughZeroes" true false).Filename true
      = "0001_notEnoughZeroes.up.sql" := by
  decide

/-- C15 (amended): for a recognized filename whose version token, the text before the
first `'_'` (the whole name when there is none), is not an optionally signed run of
decimal digits (it is empty, a bare sign, or holds a letter, a space or any other
non-digit after the optional sign), `filenamesToMigrations` fails with
`badMigrationFilenameError` carrying that filename, provided the entries before it went
through the loop without a failure. -/
theorem filenamesToMigrations_bad_token (m : migrator σ) (w : World σ)
    (pre post : List String) (s : String) (byVersion : MigrationMap)
    (hpre : parseNames pre [] = .ok byVersion) (hrec : recognized s = true)
    (htok : isSignedDecimal (versionToken s) = false) :
    ∃ cause, (filenamesToMigrations m (pre ++ s :: post) w).1
      = .err (.badMigrationFilenameError s "" (some cause)) := by
  obtain ⟨cause, hc⟩ := parseFilename_bad_token s hrec htok
  refine ⟨cause, ?_⟩
  have hp : parseNames (pre ++ s :: post) []
      = .err (.badMigrationFilenameError s "" (some cause)) := by
    rw [parseNames_append, hpre]
    simp only [parseNames, hc]
  simp only [filenamesToMigrations, hp]

/-- C15, at a token with a letter after a well-formed entry, and at a name without
`'_'`. -/
theorem filenamesToMigrations_bad_token_witness :
    (∃ cause, (filenamesToMigrations (sampleMigrator [])
        (["0001_a.up.sql"] ++ "v2_b.up.sql" :: ["0003_c.up.sql"]) ⟨[], []⟩).1
      = .err (.badMigrationFilenameError "v2_b.up.sql" "" (some cause))) ∧
    (∃ cause, (filenamesToMigrations (sampleMigrator [])
        ([] ++ "nounderscore.down.sql" :: []) ⟨[], []⟩).1
      = .err (.badMigrationFilenameError "nounderscore.down.sql" "" (some cause))) :=
  ⟨filenamesToMigrations_bad_token (sampleMigrator []) ⟨[], []⟩ ["0001_a.up.sql"]
      ["0003_c.up.sql"] "v2_b.up.sql" [(1, ⟨1, "a", true, false⟩)]
      (by decide) (by decide) (by decide),
    filenamesToMigrations_bad_token (sampleMigrator []) ⟨[], []⟩ [] []
      "nounderscore.down.sql" [] (by decide) (by decide) (by decide)⟩

/-- C15 as stated fails for a version token that contains a sign: `"+1"` is read as
version 1 and the list is accepted; `"-1"` is read as version -1 and the failure is the
missing up-migration of version 1, not a malformed filename. -/
theorem filenamesToMigrations_bad_token_counterexample :
    recognized "+1_x.up.sql" = true ∧ versionToken "+1_x.up.sql" = "+1" ∧
    (filenamesToMigrations (sampleMigrator []) ["+1_x.up.sql"] ⟨[], []⟩).1
      = .ok [⟨1, "x", true, false⟩] ∧
    recognized "-1_x.up.sql" = true ∧ versionToken "-1_x.up.sql" = "-1" ∧
    (filenamesToMigrations (sampleMigrator []) ["-1_x.up.sql"] ⟨[], []⟩).1
      = .err (.missingMigrationError 1 true) := by
  decide

/-- C16: when some version has a recognized down-script and no recognized up-script,
`filenamesToMigrations` fails, whatever the other entries and wherever that version
lies; when the loop over the names met no malformed filename and no name mismatch, the
error is a `missingMigrationError` with `isUp = true`. -/
theorem filenamesToMigrations_down_only (m : migrator σ) (w : World σ)
    (names : List String) (v : Int) (hdown : downSeen names v)
    (hnoup : ¬ upSeen names v) :
    ∃ e, (filenamesToMigrations m names w).1 = .err e ∧
      ((∃ byVersion, parseNames names [] = .ok byVersion) →
        ∃ i : Int, e = .missingMigrationError i true) := by
  cases hp : parseNames names [] with
  | panic => exact absurd hp (parseNames_ne_panic names [])
  | err e =>
    refine ⟨e, by simp only [filenamesToMigrations, hp], ?_⟩
    rintro ⟨byVersion, h⟩
    cases h
  | ok byVersion =>
    obtain ⟨h1, h2, h3⟩ := parseNames_flags names [] byVersion hp v
    have hok := parseNames_MapOk names [] byVersion MapOk_nil hp
    have hd : hasDownAt byVersion v := h3.2 (Or.inr hdown)
    have hu : ¬ hasUpAt byVersion v := by
      intro h
      rcases h2.1 h with ⟨mg, h4, -⟩ | h4
      · simp [MigrationMap.index] at h4
      · exact hnoup h4
    have hv : validateMigrations true byVersion ≠ none := by
      intro hnone
      have hall := (validateMigrations_eq_none true byVersion).1 hnone
      obtain ⟨mg, hmg, -⟩ := hd
      have hk := keys_range_of_validate byVersion hok.1 hall v
        (mem_keys_of_index byVersion v mg hmg)
      exact hu (hall v hk.1 hk.2)
    have hex : ∃ i : Int,
        validateMigrations true byVersion = some (.missingMigrationError i true) := by
      unfold validateMigrations at hv ⊢
      rw [List.range_eq_range'] at hv ⊢
      rcases validateFrom_range_from byVersion byVersion.length 0 with
        ⟨h5, -⟩ | ⟨i, -, -, h5, -, -⟩
      · exact absurd h5 hv
      · exact ⟨_, h5⟩
    obtain ⟨i, hi⟩ := hex
    exact ⟨_, by simp only [filenamesToMigrations, hp, hi], fun _ => ⟨i, rfl⟩⟩

/-- C16, at the input of `TestMissingLastMigration`. -/
theorem filenamesToMigrations_down_only_witness :
    ∃ e, (filenamesToMigrations (sampleMigrator [])
        ["0001_one.up.sql", "0001_one.down.sql", "0002_two.down.sql"] ⟨[], []⟩).1 = .err e ∧
      ((∃ byVersion, parseNames
          ["0001_one.up.sql", "0001_one.down.sql", "0002_two.down.sql"] [] = .ok byVersion) →
        ∃ i : Int, e = .missingMigrationError i true) :=
  filenamesToMigrations_down_only (sampleMigrator []) ⟨[], []⟩
    ["0001_one.up.sql", "0001_one.down.sql", "0002_two.down.sql"] 2
    ⟨"0002_two.down.sql", by decide, ⟨2, "two", false, true⟩, by decide, rfl, rfl⟩
    (by
      rintro ⟨s, hs, p, hp, hv, hu⟩
      simp only [List.mem_cons, List.mem_singleton, List.not_mem_nil, or_false] at hs
      rcases hs with rfl | rfl | rfl
      · have e : parseFilename "0001_one.up.sql" = .ok (some ⟨1, "one", true, false⟩) := by
          decide
        rw [e] at hp
        cases hp
        cases hv
      · have e : parseFilename "0001_one.down.sql" = .ok (some ⟨1, "one", false, true⟩) := by
          decide
        rw [e] at hp
        cases hp
        cases hv
      · have e : parseFilename "0002_two.down.sql" = .ok (some ⟨2, "two", false, true⟩) := by
          decide
        rw [e] at hp
        cases hp
        cases hu)

/-- C17: when the filenames parse and validate and the ledger reconciles,
`filenamesToMigrations` succeeds whatever down-scripts are absent; in the result the
descriptor at index `k` has version `k+1` and `HasUp = true`, and has `HasDown = true`
exactly when the input holds a recognized down-script of that version. -/
theorem filenamesToMigrations_flags (m : migrator σ) (w : World σ) (names : List String)
    (byVersion : MigrationMap) (hp : parseNames names [] = .ok byVersion)
    (hv : validateMigrations true byVersion = none)
    (hc : checkDbMigrations byVersion (ledgerOf m w) = none) :
    ∃ result, (filenamesToMigrations m names w).1 = .ok result ∧
      result.length = byVersion.length ∧
      ∀ k : Nat, k < result.length →
        ∃ mg, result.get? k = some mg ∧ mg.Version = (k : Int) + 1 ∧ mg.HasUp = true ∧
          (mg.HasDown = true ↔ downSeen names ((k : Int) + 1)) := by
  have hok := parseNames_MapOk names [] byVersion MapOk_nil hp
  obtain ⟨result, hf, hlen, hall⟩ := fillResult_valid byVersion hok hv
  refine ⟨result, ?_, hlen, ?_⟩
  · rw [filenamesToMigrations_of_parse m names w byVersion hp hv, hc, hf]
  · intro k hk
    obtain ⟨mg, h1, h2, h3, h4⟩ := hall k (by omega)
    refine ⟨mg, h1, h3, h4, ?_⟩
    obtain ⟨-, -, h5⟩ := parseNames_flags names [] byVersion hp ((k : Int) + 1)
    constructor
    · intro hd
      rcases h5.1 ⟨mg, h2, hd⟩ with ⟨mg0, h6, -⟩ | h6
      · simp [MigrationMap.index] at h6
      · exact h6
    · intro hs
      obtain ⟨mg1, h6, h7⟩ := h5.2 (Or.inr hs)
      rw [h2] at h6
      cases h6
      exact h7

/-- C17, at the input of `TestFilenamesToMigrationsMissingDown`. -/
theorem filenamesToMigrations_flags_witness :
    ∃ result, (filenamesToMigrations (sampleMigrator [])
        ["0001_v1.up.sql", "0001_v1.down.sql", "0002_v2.up.sql"] ⟨[], []⟩).1 = .ok result ∧
      result.length = 2 ∧
      ∀ k : Nat, k < result.length →
        ∃ mg, result.get? k = some mg ∧ mg.Version = (k : Int) + 1 ∧ mg.HasUp = true ∧
          (mg.HasDown = true ↔
            downSeen ["0001_v1.up.sql", "0001_v1.down.sql", "0002_v2.up.sql"] ((k : Int) + 1)) :=
  filenamesToMigrations_flags (sampleMigrator []) ⟨[], []⟩
    ["0001_v1.up.sql", "0001_v1.down.sql", "0002_v2.up.sql"]
    [(1, ⟨1, "v1", true, true⟩), (2, ⟨2, "v2", true, false⟩)]
    (by decide) (by decide) (by decide)

/-- C18: an entry that ends in neither `.up.sql` nor `.down.sql`, inserted at any
position of the list, changes neither the migration list nor the error
`filenamesToMigrations` returns (nor the calls it makes). -/
theorem filenamesToMigrations_ignores (m : migrator σ) (w : World σ)
    (pre post : List String) (x : String) (hu : HasSuffix x ".up.sql" = false)
    (hd : HasSuffix x ".down.sql" = false) :
    filenamesToMigrations m (pre ++ x :: post) w = filenamesToMigrations m (pre ++ post) w := by
  simp only [filenamesToMigrations,
    parseNames_skip pre post x (parseFilename_of_no_suffix x hu hd)]

/-- C18, at entries of `TestFilenamesToMigrations`: `"9999_asfjkgsdhsl.up.txt"` put
between two scripts. -/
theorem filenamesToMigrations_ignores_witness :
    filenamesToMigrations (sampleMigrator [])
        (["0002_second.up.sql"] ++ "9999_asfjkgsdhsl.up.txt" :: ["0001_first.up.sql"])
        ⟨[], []⟩
      = filenamesToMigrations (sampleMigrator [])
        (["0002_second.up.sql"] ++ ["0001_first.up.sql"]) ⟨[], []⟩ :=
  filenamesToMigrations_ignores (sampleMigrator []) ⟨[], []⟩ ["0002_second.up.sql"]
    ["0001_first.up.sql"] "9999_asfjkgsdhsl.up.txt" (by decide) (by decide)

/-! ### The log does not influence a run -/

theorem callRequireSchema_frame (m : migrator σ) (l : List Event) (w : World σ) :
    callRequireSchema m (prefixLog l w) =
      ((callRequireSchema m w).1, prefixLog l (callRequireSchema m w).2) := by
  simp [callRequireSchema, prefixLog, List.append_assoc]

theorem callListMigrations_frame (m : migrator σ) (l : List Event) (w : World σ) :
    callListMigrations m (prefixLog l w) =
      ((callListMigrations m w).1, prefixLog l (callListMigrations m w).2) := by
  simp [callListMigrations, prefixLog, List.append_assoc]

theorem callGetVersion_frame (m : migrator σ) (l : List Event) (w : World σ) :
    callGetVersion m (prefixLog l w) =
      ((callGetVersion m w).1, prefixLog l (callGetVersion m w).2) := by
  simp [callGetVersion, prefixLog, List.append_assoc]

theorem callListMigrationDir_frame (m : migrator σ) (l : List Event) (w : World σ) :
    callListMigrationDir m (prefixLog l w) =
      ((callListMigrationDir m w).1, prefixLog l (callListMigrationDir m w).2) := by
  simp [callListMigrationDir, prefixLog, List.append_assoc]

theorem callReadMigration_frame (m : migrator σ) (f : String) (l : List Event)
    (w : World σ) :
    callReadMigration m f (prefixLog l w) =
      ((callReadMigration m f w).1, prefixLog l (callReadMigration m f w).2) := by
  simp [callReadMigration, prefixLog, List.append_assoc]

theorem callApplyMigration_frame (m : migrator σ) (useTx isUp : Bool) (version : Int)
    (name query : String) (l : List Event) (w : World σ) :
    callApplyMigration m useTx isUp version name query (prefixLog l w) =
      ((callApplyMigration m useTx isUp version name query w).1,
        prefixLog l (callApplyMigration m useTx isUp version name query w).2) := by
  simp [callApplyMigration, prefixLog, List.append_assoc]

theorem filenamesToMigrations_frame (m : migrator σ) (names : List String)
    (l : List Event) (w : World σ) :
    filenamesToMigrations m names (prefixLog l w) =
      ((filenamesToMigrations m names w).1,
        prefixLog l (filenamesToMigrations m names w).2) := by
  cases hp : parseNames names [] with
  | panic => simp [filenamesToMigrations, hp]
  | err e => simp [filenamesToMigrations, hp]
  | ok byVersion =>
    cases hv : validateMigrations true byVersion with
    | some e => simp [filenamesToMigrations, hp, hv]
    | none =>
      rw [filenamesToMigrations_of_parse m names w byVersion hp hv,
        filenamesToMigrations_of_parse m names (prefixLog l w) byVersion hp hv,
        callListMigrations_frame]
      rfl

theorem listMigrations_frame (m : migrator σ) (l : List Event) (w : World σ) :
    listMigrations m (prefixLog l w) =
      ((listMigrations m w).1, prefixLog l (listMigrations m w).2) := by
  unfold listMigrations
  rw [callRequireSchema_frame]
  cases callRequireSchema m w with
  | mk e w1 =>
    cases e with
    | some e => rfl
    | none =>
      simp only []
      rw [callListMigrationDir_frame, filenamesToMigrations_frame]

theorem GetVersion_frame (m : migrator σ) (l : List Event) (w : World σ) :
    GetVersion m (prefixLog l w) =
      ((GetVersion m w).1, prefixLog l (GetVersion m w).2) := by
  unfold GetVersion
  rw [callRequireSchema_frame]
  cases callRequireSchema m w with
  | mk e w1 =>
    cases e with
    | some e => rfl
    | none =>
      simp only []
      rw [callGetVersion_frame]

theorem internalMigrate_frame (m : migrator σ) (mg : migration) (isUp : Bool)
    (l : List Event) (w : World σ) :
    internalMigrate m mg isUp (prefixLog l w) =
      ((internalMigrate m mg isUp w).1, prefixLog l (internalMigrate m mg isUp w).2) := by
  unfold internalMigrate
  split
  · rfl
  · rw [callReadMigration_frame]
    cases callReadMigration m (mg.Filename isUp) w with
    | mk r w1 =>
      obtain ⟨body, e⟩ := r
      cases e with
      | some e => rfl
      | none =>
        simp only []
        rw [callApplyMigration_frame]

theorem migrateLoop_frame (m : migrator σ) (avail : List migration) (T : Int) (isUp : Bool)
    (step : Int) (l : List Event) : ∀ (fuel : Nat) (C : Int) (w : World σ),
    migrateLoop m avail T isUp step fuel C (prefixLog l w) =
      ((migrateLoop m avail T isUp step fuel C w).1,
        prefixLog l (migrateLoop m avail T isUp step fuel C w).2) := by
  intro fuel
  induction fuel with
  | zero =>
    intro C w
    by_cases hC : C = T
    · subst hC
      rw [migrateLoop_done, migrateLoop_done]
    · rw [migrateLoop_zero _ _ _ _ _ _ _ hC, migrateLoop_zero _ _ _ _ _ _ _ hC]
  | succ f ih =>
    intro C w
    by_cases hC : C = T
    · subst hC
      rw [migrateLoop_done, migrateLoop_done]
    · cases hs : sliceAt avail (if isUp then C else C - 1) with
      | none =>
        rw [migrateLoop_panic _ _ _ _ _ _ _ _ hC hs, migrateLoop_panic _ _ _ _ _ _ _ _ hC hs]
      | some mg =>
        rw [migrateLoop_step _ _ _ _ _ _ _ _ mg hC hs,
          migrateLoop_step _ _ _ _ _ _ _ _ mg hC hs, internalMigrate_frame]
        cases internalMigrate m mg isUp w with
        | mk r w1 =>
          cases r with
          | some e => rfl
          | none =>
            simp only []
            rw [ih]

/-- A run of `MigrateTo` does not depend on the log it starts with. -/
theorem MigrateTo_frame (m : migrator σ) (T : Int) (l : List Event) (w : World σ) :
    MigrateTo m T (prefixLog l w) =
      ((MigrateTo m T w).1, prefixLog l (MigrateTo m T w).2) := by
  unfold MigrateTo
  rw [listMigrations_frame]
  cases listMigrations m w with
  | mk r w1 =>
    cases r with
    | panic => rfl
    | err e => rfl
    | ok avail =>
      simp only []
      rw [GetVersion_frame]
      cases GetVersion m w1 with
      | mk c w2 =>
        obtain ⟨C, e⟩ := c
        cases e with
        | some e => rfl
        | none =>
          simp only []
          split
          · rfl
          · split
            · rfl
            · split
              · rfl
              · rw [migrateLoop_frame]

/-! ### Transactions -/

theorem txFaithful_of_no_step (m : migrator σ) (ev : Event)
    (h : isStepCall ev.call = false) : txFaithful m ev := by
  obtain ⟨c, e⟩ := ev
  cases c <;> simp [txFaithful, isStepCall] at h ⊢

theorem internalMigrate_txFaithful (m : migrator σ) (mg : migration) (isUp : Bool)
    (w : World σ) :
    ∃ evs, (internalMigrate m mg isUp w).2.log = w.log ++ evs ∧
      ∀ ev ∈ evs, txFaithful m ev := by
  unfold internalMigrate
  split
  · exact ⟨[], by simp, by simp⟩
  · cases hr : (m.filesystem.ReadMigration (mg.Filename isUp) w.state).1.2 with
    | some e =>
      rw [callReadMigration_eq m _ w _ hr]
      refine ⟨[⟨.ReadMigration (mg.Filename isUp), some e⟩], rfl, ?_⟩
      intro ev hev
      rw [List.mem_singleton.1 hev]
      trivial
    | none =>
      rw [callReadMigration_eq m _ w _ hr]
      refine ⟨[⟨.ReadMigration (mg.Filename isUp), none⟩,
        ⟨.ApplyMigration
          (m.useTx (m.filesystem.ReadMigration (mg.Filename isUp) w.state).1.1) isUp
          mg.Version mg.Name (m.filesystem.ReadMigration (mg.Filename isUp) w.state).1.1,
          (m.db.ApplyMigration
            (m.useTx (m.filesystem.ReadMigration (mg.Filename isUp) w.state).1.1) isUp
            mg.Version mg.Name (m.filesystem.ReadMigration (mg.Filename isUp) w.state).1.1
            (m.filesystem.ReadMigration (mg.Filename isUp) w.state).2).1⟩], ?_, ?_⟩
      · simp [callApplyMigration]
      · intro ev hev
        simp only [List.mem_cons, List.mem_singleton, List.not_mem_nil, or_false] at hev
        rcases hev with rfl | rfl
        · trivial
        · simp [txFaithful]

theorem migrateLoop_txFaithful (m : migrator σ) (avail : List migration) (T : Int)
    (isUp : Bool) (step : Int) : ∀ (fuel : Nat) (C : Int) (w : World σ),
    ∃ evs, (migrateLoop m avail T isUp step fuel C w).2.log = w.log ++ evs ∧
      ∀ ev ∈ evs, txFaithful m ev := by
  intro fuel
  induction fuel with
  | zero =>
    intro C w
    by_cases hC : C = T
    · subst hC
      rw [migrateLoop_done]
      exact ⟨[], by simp, by simp⟩
    · rw [migrateLoop_zero _ _ _ _ _ _ _ hC]
      exact ⟨[], by simp, by simp⟩
  | succ f ih =>
    intro C w
    by_cases hC : C = T
    · subst hC
      rw [migrateLoop_done]
      exact ⟨[], by simp, by simp⟩
    · cases hs : sliceAt avail (if isUp then C else C - 1) with
      | none =>
        rw [migrateLoop_panic _ _ _ _ _ _ _ _ hC hs]
        exact ⟨[], by simp, by simp⟩
      | some mg =>
        rw [migrateLoop_step _ _ _ _ _ _ _ _ mg hC hs]
        obtain ⟨e1, h1, h2⟩ := internalMigrate_txFaithful m mg isUp w
        cases hr : internalMigrate m mg isUp w with
        | mk r w1 =>
          rw [hr] at h1
          cases r with
          | some e => exact ⟨e1, h1, h2⟩
          | none =>
            simp only [] at h1 ⊢
            obtain ⟨e2, h3, h4⟩ := ih (C + step) w1
            refine ⟨e1 ++ e2, by rw [h3, h1, List.append_assoc], ?_⟩
            intro ev hev
            rcases List.mem_append.1 hev with h | h
            · exact h2 ev h
            · exact h4 ev h

/-- Every apply call of a run of `MigrateTo` carries the flag `useTx` computes from the
script body it carries. -/
theorem MigrateTo_txFaithful (m : migrator σ) (T : Int) (w : World σ) :
    ∀ ev ∈ newEvents w (MigrateTo m T w).2, txFaithful m ev := by
  cases hl : listMigrations m w with
  | mk r w1 =>
    cases hg : GetVersion m w1 with
    | mk c w2 =>
      obtain ⟨pre, hpre, hns⟩ := prelude_log m w w1 w2 r c hl hg
      obtain ⟨e1, h1, h2⟩ := listMigrations_log m w
      rw [hl] at h1
      simp only at h1
      have hstop1 : ∀ o : Outcome, MigrateTo m T w = (o, w1) →
          ∀ ev ∈ newEvents w (MigrateTo m T w).2, txFaithful m ev := by
        intro o ho ev hev
        rw [ho, newEvents_of_log w w1 e1 h1] at hev
        exact txFaithful_of_no_step m ev (h2 ev hev)
      have hstop2 : ∀ o : Outcome, MigrateTo m T w = (o, w2) →
          ∀ ev ∈ newEvents w (MigrateTo m T w).2, txFaithful m ev := by
        intro o ho ev hev
        rw [ho, newEvents_of_log w w2 pre hpre] at hev
        exact txFaithful_of_no_step m ev (hns ev hev)
      cases r with
      | panic => exact hstop1 .panicked (by simp only [MigrateTo, hl])
      | err e => exact hstop1 (.returned (some e)) (by simp only [MigrateTo, hl])
      | ok avail =>
        obtain ⟨C, e⟩ := c
        cases e with
        | some e => exact hstop2 (.returned (some e)) (by simp only [MigrateTo, hl, hg])
        | none =>
          have heq := MigrateTo_eq m w w1 w2 avail C T hl hg
          by_cases c1 : T = C
          · rw [if_pos c1] at heq
            exact hstop2 _ heq
          · rw [if_neg c1] at heq
            by_cases c2 : T < 0
            · rw [if_pos c2] at heq
              exact hstop2 _ heq
            · rw [if_neg c2] at heq
              by_cases c3 : T > (avail.length : Int)
              · rw [if_pos c3] at heq
                exact hstop2 _ heq
              · rw [if_neg c3] at heq
                obtain ⟨evs, h3, h4⟩ := migrateLoop_txFaithful m avail T (decide (C < T))
                  (if !decide (C < T) then -1 else 1) (T - C).natAbs C w2
                rw [← heq] at h3
                have hnew : newEvents w (MigrateTo m T w).2 = pre ++ evs := by
                  apply newEvents_of_log
                  rw [h3, hpre, List.append_assoc]
                rw [hnew]
                intro ev hev
                rcases List.mem_append.1 hev with h | h
                · exact txFaithful_of_no_step m ev (hns ev h)
                · exact h4 ev h

theorem useTx_eq_false_iff (m : migrator σ) (hd : m.disableTransactions = false)
    (sql : String) :
    m.useTx sql = false ↔ "-- migrate: no-transaction\n".data <+: sql.data := by
  unfold migrator.useTx
  simp only [hd, Bool.false_eq_true, if_false]
  cases hp : HasPrefix sql NoTransactionPrefix with
  | true =>
    simp only [if_true, true_iff]
    simpa [HasPrefix, NoTransactionPrefix] using hp
  | false =>
    simp only [Bool.false_eq_true, if_false, Bool.true_eq_false, false_iff]
    intro h
    have : HasPrefix sql NoTransactionPrefix = true := by
      simpa [HasPrefix, NoTransactionPrefix] using h
    rw [hp] at this
    cases this

/-- C20: for a migrator whose transactions are not globally disabled, `useTx` is false
exactly when the body begins with the line `-- migrate: no-transaction` and its newline,
and in every run of `MigrateTo` each apply call carries `useTx = false` exactly when the
script body it carries begins so; every other body is applied with `useTx = true`. -/
theorem useTx_spec (m : migrator σ) (hd : m.disableTransactions = false) :
    (∀ sql : String,
      m.useTx sql = false ↔ "-- migrate: no-transaction\n".data <+: sql.data) ∧
    (∀ (T : Int) (w : World σ) (useTx isUp : Bool) (v : Int) (name query : String)
        (e : Option Error),
      (⟨.ApplyMigration useTx isUp v name query, e⟩ : Event)
          ∈ newEvents w (MigrateTo m T w).2 →
        (useTx = false ↔ "-- migrate: no-transaction\n".data <+: query.data)) := by
  refine ⟨useTx_eq_false_iff m hd, ?_⟩
  intro T w useTx isUp v name query e hev
  have h := MigrateTo_txFaithful m T w _ hev
  simp only [txFaithful] at h
  rw [h]
  exact useTx_eq_false_iff m hd query

/-- C20, at four bodies: the sentinel line, the sentinel without its newline, the
sentinel after a blank, and the sentinel on the second line. -/
theorem useTx_spec_witness :
    (sampleMigrator []).useTx "-- migrate: no-transaction\nCREATE INDEX CONCURRENTLY i ON t (c);"
      = false ∧
    (sampleMigrator []).useTx "-- migrate: no-transaction" = true ∧
    (sampleMigrator []).useTx " -- migrate: no-transaction\n" = true ∧
    (sampleMigrator []).useTx "SELECT 1;\n-- migrate: no-transaction\n" = true :=
  ⟨((useTx_spec (sampleMigrator []) rfl).1 _).2 (by decide), by decide, by decide, by decide⟩

/-! ### Claims on `MigrateTo`, `MigrateLatest` and `HasPending` -/

theorem listMigrations_of_filenames (m : migrator σ) (w w1 w2 : World σ)
    (names : List String) (derr : Option Error)
    (hreq : callRequireSchema m w = (none, w1))
    (hdir : callListMigrationDir m w1 = ((names, derr), w2)) :
    listMigrations m w = filenamesToMigrations m names w2 := by
  simp only [listMigrations, hreq, hdir]

theorem MigrateTo_of_listing_error (m : migrator σ) (w : World σ) (e : Error) (T : Int)
    (h : (listMigrations m w).1 = .err e) :
    MigrateTo m T w = (.returned (some e), (listMigrations m w).2) ∧
    MigrateLatest m w = (.returned (some e), (listMigrations m w).2) ∧
    applyCalls (newEvents w (listMigrations m w).2) = [] := by
  obtain ⟨evs, h1, h2⟩ := listMigrations_log m w
  cases hl : listMigrations m w with
  | mk r w1 =>
    rw [hl] at h h1
    simp only at h h1
    subst h
    refine ⟨by simp only [MigrateTo, hl], by simp only [MigrateLatest, hl], ?_⟩
    rw [newEvents_of_log w w1 evs h1]
    exact applyCalls_of_no_step evs h2

/-- C11: when `filenamesToMigrations` fails on the listed names and the ledger (malformed
filename, name mismatch, missing up-migration, ledger version absent from the
filesystem, ledger name mismatch), `MigrateTo` and `MigrateLatest` return that error and
make no `ApplyMigration` call. -/
theorem MigrateTo_reconcile_error (m : migrator σ) (w w1 w2 : World σ)
    (names : List String) (derr : Option Error) (e : Error) (T : Int)
    (hreq : callRequireSchema m w = (none, w1))
    (hdir : callListMigrationDir m w1 = ((names, derr), w2))
    (herr : (filenamesToMigrations m names w2).1 = .err e) :
    (MigrateTo m T w).1 = .returned (some e) ∧
    applyCalls (newEvents w (MigrateTo m T w).2) = [] ∧
    (MigrateLatest m w).1 = .returned (some e) ∧
    applyCalls (newEvents w (MigrateLatest m w).2) = [] := by
  have hl : (listMigrations m w).1 = .err e := by
    rw [listMigrations_of_filenames m w w1 w2 names derr hreq hdir, herr]
  obtain ⟨h1, h2, h3⟩ := MigrateTo_of_listing_error m w e T hl
  rw [h1, h2]
  exact ⟨rfl, h3, rfl, h3⟩

/-- C11, at a name mismatch on disk with version 1 already applied. -/
theorem MigrateTo_reconcile_error_witness :
    (MigrateTo (sampleMigrator ["0001_a.up.sql", "0001_b.down.sql"]) 1
        ⟨[⟨1, "a"⟩], []⟩).1
      = .returned (some (.migrationNameMismatchError 1 "a" "b")) ∧
    applyCalls (newEvents ⟨[⟨1, "a"⟩], []⟩
      (MigrateTo (sampleMigrator ["0001_a.up.sql", "0001_b.down.sql"]) 1
        ⟨[⟨1, "a"⟩], []⟩).2) = [] ∧
    (MigrateLatest (sampleMigrator ["0001_a.up.sql", "0001_b.down.sql"])
        ⟨[⟨1, "a"⟩], []⟩).1
      = .returned (some (.migrationNameMismatchError 1 "a" "b")) ∧
    applyCalls (newEvents ⟨[⟨1, "a"⟩], []⟩
      (MigrateLatest (sampleMigrator ["0001_a.up.sql", "0001_b.down.sql"])
        ⟨[⟨1, "a"⟩], []⟩).2) = [] :=
  MigrateTo_reconcile_error (sampleMigrator ["0001_a.up.sql", "0001_b.down.sql"])
    ⟨[⟨1, "a"⟩], []⟩ ⟨[⟨1, "a"⟩], [⟨.RequireSchema, none⟩]⟩
    ⟨[⟨1, "a"⟩], [⟨.RequireSchema, none⟩, ⟨.ListMigrationDir, none⟩]⟩
    ["0001_a.up.sql", "0001_b.down.sql"] none (.migrationNameMismatchError 1 "a" "b") 1
    (by decide) (by decide) (by decide)

theorem getLast_of_valid (avail : List migration) (hv : ValidSet avail) :
    (match avail.getLast? with
      | none => (0 : Int)
      | some last => last.Version) = ((avail.length : Nat) : Int) := by
  cases h : avail.getLast? with
  | none =>
    rw [List.getLast?_eq_none_iff] at h
    subst h
    rfl
  | some last =>
    have hne : avail ≠ [] := by
      intro e
      subst e
      simp at h
    have hpos : 0 < avail.length := List.length_pos.2 hne
    obtain ⟨mg, h1, h2, -⟩ := hv (avail.length - 1) (by omega)
    rw [List.getLast?_eq_getElem?] at h
    rw [List.get?_eq_getElem?, h] at h1
    cases h1
    simp only [h2]
    omega

/-- `MigrateLatest` is one listing followed by `MigrateTo` at the size of the list. -/
theorem MigrateLatest_eq (m : migrator σ) (w w1 : World σ) (avail : List migration)
    (hl : listMigrations m w = (.ok avail, w1)) :
    MigrateLatest m w = MigrateTo m avail.length w1 := by
  have hv : ValidSet avail := listMigrations_valid m w avail (by rw [hl])
  simp only [MigrateLatest, hl]
  rw [getLast_of_valid avail hv]

/-- C12: let `N` be the number of migrations of the validated set (any target when the
listing fails, `MigrateLatest` and `MigrateTo` then both returning the listing error).
`MigrateLatest` is its listing followed by `MigrateTo(N)`; and when that listing leaves
the state of the collaborators as it found it, `MigrateLatest` and `MigrateTo(N)` started
in the same world return the same error, make the same apply calls in the same order
and leave the same state. -/
theorem MigrateLatest_spec (m : migrator σ) (w : World σ) (N : Int)
    (hN : ∀ avail, (listMigrations m w).1 = .ok avail → N = avail.length) :
    (∀ avail, (listMigrations m w).1 = .ok avail →
      MigrateLatest m w = MigrateTo m N (listMigrations m w).2) ∧
    ((listMigrations m w).2.state = w.state →
      (MigrateLatest m w).1 = (MigrateTo m N w).1 ∧
      applyCalls (newEvents w (MigrateLatest m w).2)
        = applyCalls (newEvents w (MigrateTo m N w).2) ∧
      (MigrateLatest m w).2.state = (MigrateTo m N w).2.state) := by
  obtain ⟨pre, hpre, hns⟩ := listMigrations_log m w
  cases hl : listMigrations m w with
  | mk r w1 =>
    rw [hl] at hN hpre
    simp only at hN hpre
    cases r with
    | panic =>
      refine ⟨fun avail h => (by cases h), fun _ => ?_⟩
      exact ⟨by simp only [MigrateLatest, MigrateTo, hl],
        by simp only [MigrateLatest, MigrateTo, hl],
        by simp only [MigrateLatest, MigrateTo, hl]⟩
    | err e =>
      refine ⟨fun avail h => (by cases h), fun _ => ?_⟩
      exact ⟨by simp only [MigrateLatest, MigrateTo, hl],
        by simp only [MigrateLatest, MigrateTo, hl],
        by simp only [MigrateLatest, MigrateTo, hl]⟩
    | ok avail =>
      have hN1 : N = avail.length := hN avail rfl
      subst hN1
      have heq := MigrateLatest_eq m w w1 avail hl
      refine ⟨fun avail1 h => heq, fun hro => ?_⟩
      simp only at hro
      have hw1 : w1 = prefixLog (w.log ++ pre) ⟨w.state, []⟩ := by
        cases w1 with
        | mk s l =>
          simp only at hro hpre
          subst hro hpre
          simp [prefixLog]
      have hw : w = prefixLog w.log ⟨w.state, []⟩ := by
        cases w with
        | mk s l => simp [prefixLog]
      have e1 : MigrateTo m avail.length w1
          = ((MigrateTo m avail.length ⟨w.state, []⟩).1,
              prefixLog (w.log ++ pre) (MigrateTo m avail.length ⟨w.state, []⟩).2) := by
        rw [hw1, MigrateTo_frame]
      have e2 : MigrateTo m avail.length w
          = ((MigrateTo m avail.length ⟨w.state, []⟩).1,
              prefixLog w.log (MigrateTo m avail.length ⟨w.state, []⟩).2) := by
        conv => lhs; rw [hw]
        rw [MigrateTo_frame]
      refine ⟨by rw [heq, e1, e2], ?_, by rw [heq, e1, e2]; rfl⟩
      rw [heq, e1, e2]
      simp only [newEvents, prefixLog, List.append_assoc, List.drop_left, applyCalls_append,
        applyCalls_of_no_step pre hns, List.nil_append]

/-- C12, at the three-version fixture with version 1 applied: both runs apply versions
2 and 3. -/
theorem MigrateLatest_spec_witness :
    (∀ avail, (listMigrations (sampleMigrator threeVersions) ⟨[⟨1, "v1"⟩], []⟩).1
        = .ok avail →
      MigrateLatest (sampleMigrator threeVersions) ⟨[⟨1, "v1"⟩], []⟩
        = MigrateTo (sampleMigrator threeVersions) 3
            (listMigrations (sampleMigrator threeVersions) ⟨[⟨1, "v1"⟩], []⟩).2) ∧
    ((listMigrations (sampleMigrator threeVersions) ⟨[⟨1, "v1"⟩], []⟩).2.state
        = [⟨1, "v1"⟩] →
      (MigrateLatest (sampleMigrator threeVersions) ⟨[⟨1, "v1"⟩], []⟩).1
        = (MigrateTo (sampleMigrator threeVersions) 3 ⟨[⟨1, "v1"⟩], []⟩).1 ∧
      applyCalls (newEvents ⟨[⟨1, "v1"⟩], []⟩
          (MigrateLatest (sampleMigrator threeVersions) ⟨[⟨1, "v1"⟩], []⟩).2)
        = applyCalls (newEvents ⟨[⟨1, "v1"⟩], []⟩
          (MigrateTo (sampleMigrator threeVersions) 3 ⟨[⟨1, "v1"⟩], []⟩).2) ∧
      (MigrateLatest (sampleMigrator threeVersions) ⟨[⟨1, "v1"⟩], []⟩).2.state
        = (MigrateTo (sampleMigrator threeVersions) 3 ⟨[⟨1, "v1"⟩], []⟩).2.state) :=
  MigrateLatest_spec (sampleMigrator threeVersions) ⟨[⟨1, "v1"⟩], []⟩ 3
    (by
      intro avail h
      have e : (listMigrations (sampleMigrator threeVersions) ⟨[⟨1, "v1"⟩], []⟩).1
          = .ok threeMigrations := by decide
      rw [e] at h
      cases h
      rfl)

/-- C13 (amended): whenever `HasPending` returns without error, the ledger reported a
current version `C`, the filesystem set validated with `N` migrations, and the answer is
true exactly when `C ≠ N`, which for `C ≤ N` is `C < N`; no `ApplyMigration` call is
made. -/
theorem HasPending_spec (m : migrator σ) (w : World σ) (b : Bool)
    (h : (HasPending m w).1 = .ok b) :
    ∃ (C : Int) (avail : List migration),
      (GetVersion m w).1 = (C, none) ∧
      (listMigrations m (GetVersion m w).2).1 = .ok avail ∧
      (b = true ↔ C ≠ (avail.length : Int)) ∧
      (C ≤ (avail.length : Int) → (b = true ↔ C < (avail.length : Int))) ∧
      applyCalls (newEvents w (HasPending m w).2) = [] := by
  unfold HasPending at h ⊢
  obtain ⟨e1, h1, h2⟩ := GetVersion_log m w
  cases hg : GetVersion m w with
  | mk c w1 =>
    obtain ⟨C, e⟩ := c
    rw [hg] at h h1
    cases e with
    | some e => simp at h
    | none =>
      simp only at h h1 ⊢
      obtain ⟨e2, h3, h4⟩ := listMigrations_log m w1
      cases hl : listMigrations m w1 with
      | mk r w2 =>
        rw [hl] at h h3
        cases r with
        | panic => simp at h
        | err e => simp at h
        | ok avail =>
          simp only [Res.ok.injEq] at h h3
          refine ⟨C, avail, rfl, rfl, ?_, ?_, ?_⟩
          · rw [← h]
            simp
          · intro hle
            rw [← h]
            simp only [decide_eq_true_eq]
            omega
          · simp only []
            rw [newEvents_of_log w w2 (e1 ++ e2) (by rw [h3, h1, List.append_assoc]),
              applyCalls_append, applyCalls_of_no_step e1 h2, applyCalls_of_no_step e2 h4]
            rfl

/-- C13, at the three-version fixture with version 1 applied. -/
theorem HasPending_spec_witness :
    ∃ (C : Int) (avail : List migration),
      (GetVersion (sampleMigrator threeVersions) ⟨[⟨1, "v1"⟩], []⟩).1 = (C, none) ∧
      (listMigrations (sampleMigrator threeVersions)
        (GetVersion (sampleMigrator threeVersions) ⟨[⟨1, "v1"⟩], []⟩).2).1 = .ok avail ∧
      (true = true ↔ C ≠ (avail.length : Int)) ∧
      (C ≤ (avail.length : Int) → (true = true ↔ C < (avail.length : Int))) ∧
      applyCalls (newEvents ⟨[⟨1, "v1"⟩], []⟩
        (HasPending (sampleMigrator threeVersions) ⟨[⟨1, "v1"⟩], []⟩).2) = [] :=
  HasPending_spec (sampleMigrator threeVersions) ⟨[⟨1, "v1"⟩], []⟩ true (by decide)

/-- C13 as stated fails when the ledger reports a version above the highest known one:
with three versions on disk and a reported version of 5, `HasPending` returns true
without error although 5 is not less than 3. -/
theorem HasPending_counterexample :
    (GetVersion ⟨staleDb 5, listingFs threeVersions, false⟩ ⟨[], []⟩).1 = (5, none) ∧
    (listMigrations ⟨staleDb 5, listingFs threeVersions, false⟩ ⟨[], []⟩).1
      = .ok threeMigrations ∧
    (HasPending ⟨staleDb 5, listingFs threeVersions, false⟩ ⟨[], []⟩).1 = .ok true ∧
    ¬ ((5 : Int) < (threeMigrations.length : Int)) := by
  decide

/-- C19 (the code where a listing fails): the error `ListMigrationDir` answers is dropped
and the run goes on with no file names, so `listMigrations` returns the empty list and
no error, `MigrateTo(0)` and `MigrateLatest` return no error and `HasPending` answers
false; the error `ListMigrations` answers is dropped too, so a ledger row that
contradicts the filesystem goes unnoticed. -/
theorem listMigrations_swallows_errors :
    listMigrations ⟨ledgerDb, unlistableFs, false⟩ ⟨[], []⟩
      = (.ok [], ⟨[], [⟨.RequireSchema, none⟩,
          ⟨.ListMigrationDir, some (.adapterError "listing failed")⟩,
          ⟨.ListMigrations, none⟩]⟩) ∧
    (MigrateTo ⟨ledgerDb, unlistableFs, false⟩ 0 ⟨[], []⟩).1 = .returned none ∧
    (MigrateLatest ⟨ledgerDb, unlistableFs, false⟩ ⟨[], []⟩).1 = .returned none ∧
    (HasPending ⟨ledgerDb, unlistableFs, false⟩ ⟨[], []⟩).1 = .ok false ∧
    listMigrations ⟨unlistableDb, listingFs ["0001_v1.up.sql"], false⟩ ⟨[⟨1, "other"⟩], []⟩
      = (.ok [⟨1, "v1", true, false⟩], ⟨[⟨1, "other"⟩], [⟨.RequireSchema, none⟩,
          ⟨.ListMigrationDir, none⟩,
          ⟨.ListMigrations, some (.adapterError "query failed")⟩]⟩) := by
  decide

/-! ## Index safety of `filenamesToMigrations` -/

theorem filenamesToMigrations_ne_panic (m : migrator σ) (names : List String) (w : World σ) :
    (filenamesToMigrations m names w).1 ≠ .panic := by
  cases hp : parseNames names [] with
  | panic => exact absurd hp (parseNames_ne_panic names [])
  | err e => simp [filenamesToMigrations, hp]
  | ok byVersion =>
    cases hv : validateMigrations true byVersion with
    | some e => simp [filenamesToMigrations, hp, hv]
    | none =>
      rw [filenamesToMigrations_of_parse m names w byVersion hp hv]
      obtain ⟨result, hr, _⟩ :=
        fillResult_valid byVersion (parseNames_MapOk names [] byVersion MapOk_nil hp) hv
      cases checkDbMigrations byVersion (ledgerOf m w) with
      | some e => simp
      | none => simp [hr]

theorem listMigrations_ne_panic (m : migrator σ) (w : World σ) :
    (listMigrations m w).1 ≠ .panic := by
  unfold listMigrations
  cases h : callRequireSchema m w with
  | mk e w1 =>
    cases e with
    | some e => simp
    | none => exact filenamesToMigrations_ne_panic m _ _

/-- After validation the keys of the version map are exactly `1..len(map)`. -/
theorem keys_iff_of_validate (byVersion : MigrationMap) (hok : MapOk byVersion)
    (hv : validateMigrations true byVersion = none) (k : Int) :
    k ∈ byVersion.map Prod.fst ↔ 1 ≤ k ∧ k ≤ (byVersion.length : Int) := by
  have hall := (validateMigrations_eq_none true byVersion).1 hv
  constructor
  · intro hk
    exact keys_range_of_validate byVersion hok.1 hall k hk
  · rintro ⟨h1, h2⟩
    obtain ⟨mg, hmg, _⟩ := hall k h1 h2
    exact mem_keys_of_index byVersion k mg hmg

/-- A recognized entry whose version token parses has both parts of the split. -/
theorem SplitN_two_of_Atoi (s : String) (hrec : recognized s = true) (v : Int)
    (hv : Atoi (versionToken s) = .ok v) : ∃ tok rest, SplitN s = [tok, rest] := by
  have hs : HasSuffix s ".up.sql" = true ∨ HasSuffix s ".down.sql" = true := by
    unfold recognized at hrec
    cases hu : HasSuffix s ".up.sql" <;> cases hd : HasSuffix s ".down.sql" <;>
      simp [hu, hd] at hrec ⊢
  rcases splitUnderscore_cases s.data with h | ⟨a, b, h⟩
  · have e : SplitN s = [s] := by simp [SplitN, h]
    obtain ⟨cause, hc⟩ := Atoi_whole_name s hs
    simp [versionToken, e, hc] at hv
  · exact ⟨⟨a⟩, ⟨b⟩, by simp [SplitN, h]⟩

/-- C23: `filenamesToMigrations` never indexes out of range, for every list of filenames
and every ledger (any adapter, any world): the result is never the index-out-of-range
panic. Whenever the version token of a recognized entry parses as an integer, the split
on `_` has a second part, and an entry with no `_` (the split is the entry alone) fails
the integer parse. Whenever parsing and validation pass, the keys of the version map are
exactly `1..len(map)`, every slot index `i < len(map)` is the target `version - 1` of
exactly one key, and the fill loop completes with a result of `len(map)` slots. -/
theorem filenamesToMigrations_in_bounds (m : migrator σ) (names : List String)
    (w : World σ) :
    (filenamesToMigrations m names w).1 ≠ .panic ∧
    (∀ s, recognized s = true → ∀ v, Atoi (versionToken s) = .ok v →
      ∃ tok rest, SplitN s = [tok, rest]) ∧
    (∀ s, recognized s = true → SplitN s = [s] →
      ∃ cause, Atoi (versionToken s) = .error cause) ∧
    (∀ byVersion, parseNames names [] = .ok byVersion →
      validateMigrations true byVersion = none →
      (∀ k, k ∈ byVersion.map Prod.fst ↔ 1 ≤ k ∧ k ≤ (byVersion.length : Int)) ∧
      (∀ i : Nat, i < byVersion.length →
        (byVersion.map Prod.fst).count ((i : Int) + 1) = 1) ∧
      ∃ result, fillResult byVersion (List.replicate byVersion.length migration.zero)
        = some result ∧ result.length = byVersion.length) := by
  refine ⟨filenamesToMigrations_ne_panic m names w, SplitN_two_of_Atoi, ?_, ?_⟩
  · intro s hrec hsplit
    cases hA : Atoi (versionToken s) with
    | error cause => exact ⟨cause, rfl⟩
    | ok v =>
      obtain ⟨tok, rest, h⟩ := SplitN_two_of_Atoi s hrec v hA
      rw [hsplit] at h
      simp at h
  · intro byVersion hp hv
    have hok := parseNames_MapOk names [] byVersion MapOk_nil hp
    refine ⟨keys_iff_of_validate byVersion hok hv, ?_, ?_⟩
    · intro i hi
      apply List.count_eq_one_of_mem hok.1
      exact (keys_iff_of_validate byVersion hok hv _).2 ⟨by omega, by omega⟩
    · obtain ⟨result, hr, hlen, _⟩ := fillResult_valid byVersion hok hv
      exact ⟨result, hr, hlen⟩

/-! ## `Filename` and its inverse -/

/-- C25: parsing undoes `Filename`. For every version `v ≥ 0` (a Go `int`, hence below
`2^63`), every name and each direction, the per-entry parsing of
`migration{Version: v, Name: name}.Filename(isUp)` recognizes the entry and recovers
version `v`, exactly the name `name` and the direction `isUp`; recording it in an empty
map gives the descriptor of version `v` and name `name` with `HasUp` set when `isUp`
is true and `HasDown` set otherwise. `Filename` renders the version with `%04d`: the
three cases of `TestFilename` evaluate to the expected names. -/
theorem parseFilename_inverts_Filename (v : Int) (name : String) (isUp : Bool)
    (h0 : 0 ≤ v) (h1 : v < 2 ^ 63) :
    recognized ((⟨v, name, false, false⟩ : migration).Filename isUp) = true ∧
    parseFilename ((⟨v, name, false, false⟩ : migration).Filename isUp)
      = .ok (some ⟨v, name, isUp, !isUp⟩) ∧
    parseNames [(⟨v, name, false, false⟩ : migration).Filename isUp] []
      = .ok [(v, ⟨v, name, isUp, !isUp⟩)] ∧
    (⟨1, "asdf", false, false⟩ : migration).Filename true = "0001_asdf.up.sql" ∧
    (⟨1, "asdf", false, false⟩ : migration).Filename false = "0001_asdf.down.sql" ∧
    (⟨3210, "zz", false, false⟩ : migration).Filename true = "3210_zz.up.sql" := by
  have hp := parseFilename_Filename ⟨v, name, false, false⟩ isUp h0 h1
  simp only at hp
  refine ⟨?_, hp, ?_, by decide, by decide, by decide⟩
  · cases hr : recognized ((⟨v, name, false, false⟩ : migration).Filename isUp) with
    | true => rfl
    | false =>
      rw [parseFilename_not_recognized _ hr] at hp
      cases hp
  · simp [parseNames, hp, recordMigration, MigrationMap.index, MigrationMap.assign]

/-- C25, at version 12 and the name `add_users.v2` (with `_` and `.`) in the down
direction. -/
theorem parseFilename_inverts_Filename_witness :
    recognized ((⟨12, "add_users.v2", false, false⟩ : migration).Filename false) = true ∧
    parseFilename ((⟨12, "add_users.v2", false, false⟩ : migration).Filename false)
      = .ok (some ⟨12, "add_users.v2", false, !false⟩) ∧
    parseNames [(⟨12, "add_users.v2", false, false⟩ : migration).Filename false] []
      = .ok [(12, ⟨12, "add_users.v2", false, !false⟩)] ∧
    (⟨1, "asdf", false, false⟩ : migration).Filename true = "0001_asdf.up.sql" ∧
    (⟨1, "asdf", false, false⟩ : migration).Filename false = "0001_asdf.down.sql" ∧
    (⟨3210, "zz", false, false⟩ : migration).Filename true = "3210_zz.up.sql" :=
  parseFilename_inverts_Filename 12 "add_users.v2" false (by decide) (by decide)

/-! ## Repeated entries -/

theorem assign_same (m : MigrationMap) (k : Int) (v : migration)
    (h : m.index k = some v) : m.assign k v = m := by
  induction m with
  | nil => simp [MigrationMap.index] at h
  | cons a rest ih =>
    obtain ⟨k1, v1⟩ := a
    by_cases h1 : k1 = k
    · simp only [MigrationMap.index, h1, if_true, Option.some.injEq] at h
      simp [MigrationMap.assign, h1, h]
    · simp only [MigrationMap.index, h1, if_false] at h
      simp [MigrationMap.assign, h1, ih h]

/-- Recording an entry keeps every version already in the map, with its name. -/
theorem recordMigration_keeps_name (m m1 : MigrationMap) (p : parsedName)
    (h : recordMigration m p = .ok m1) (k : Int) (mg : migration)
    (hk : m.index k = some mg) : ∃ mg1, m1.index k = some mg1 ∧ mg1.Name = mg.Name := by
  obtain ⟨new, hm1, _, hname, _, _, hold⟩ := recordMigration_ok m m1 p h
  subst hm1
  by_cases e : p.version = k
  · subst e
    exact ⟨new, index_assign_self m _ new, by rw [hname, hold mg hk]⟩
  · exact ⟨mg, by rw [index_assign_ne m _ k new e]; exact hk, rfl⟩

theorem parseNames_keeps_name (names : List String) : ∀ (m m1 : MigrationMap),
    parseNames names m = .ok m1 → ∀ (k : Int) (mg : migration), m.index k = some mg →
      ∃ mg1, m1.index k = some mg1 ∧ mg1.Name = mg.Name := by
  induction names with
  | nil =>
    intro m m1 h k mg hk
    simp only [parseNames, Res.ok.injEq] at h
    subst h
    exact ⟨mg, hk, rfl⟩
  | cons s rest ih =>
    intro m m1 h k mg hk
    simp only [parseNames] at h
    cases hp : parseFilename s with
    | panic => simp [hp] at h
    | err e => simp [hp] at h
    | ok o =>
      cases o with
      | none =>
        simp only [hp] at h
        exact ih m m1 h k mg hk
      | some p =>
        simp only [hp] at h
        cases hr : recordMigration m p with
        | panic => simp [hr] at h
        | err e => simp [hr] at h
        | ok m2 =>
          simp only [hr] at h
          obtain ⟨mg2, h2, hn2⟩ := recordMigration_keeps_name m m2 p hr k mg hk
          obtain ⟨mg1, h1, hn1⟩ := ih m2 m1 h k mg2 h2
          exact ⟨mg1, h1, by rw [hn1, hn2]⟩

/-- After a successful pass, the version of every parsed entry is in the map under the
name of that entry. -/
theorem parseNames_seen_name (names : List String) : ∀ (m m1 : MigrationMap),
    parseNames names m = .ok m1 → ∀ (s : String) (p : parsedName), s ∈ names →
      parseFilename s = .ok (some p) →
      ∃ mg, m1.index p.version = some mg ∧ mg.Name = p.name := by
  induction names with
  | nil =>
    intro m m1 _ s p hs
    simp at hs
  | cons s0 rest ih =>
    intro m m1 h s p hs hp
    simp only [parseNames] at h
    cases hp0 : parseFilename s0 with
    | panic => simp [hp0] at h
    | err e => simp [hp0] at h
    | ok o =>
      cases o with
      | none =>
        simp only [hp0] at h
        rcases List.mem_cons.1 hs with e | hin
        · subst e
          rw [hp0] at hp
          cases hp
        · exact ih m m1 h s p hin hp
      | some p0 =>
        simp only [hp0] at h
        cases hr : recordMigration m p0 with
        | panic => simp [hr] at h
        | err e => simp [hr] at h
        | ok m2 =>
          simp only [hr] at h
          rcases List.mem_cons.1 hs with e | hin
          · subst e
            rw [hp0] at hp
            simp only [Res.ok.injEq, Option.some.injEq] at hp
            subst hp
            obtain ⟨new, hm2, _, hname, _⟩ := recordMigration_ok m m2 p0 hr
            subst hm2
            obtain ⟨mg1, h1, hn1⟩ :=
              parseNames_keeps_name rest _ m1 h p0.version new (index_assign_self m _ new)
            exact ⟨mg1, h1, by rw [hn1, hname]⟩
          · exact ih m2 m1 h s p hin hp

/-- Recording an entry whose version, name and direction flag are already in the map
leaves the map as it is. -/
theorem recordMigration_again (m : MigrationMap) (p : parsedName) (mg : migration)
    (hi : m.index p.version = some mg) (hn : mg.Name = p.name)
    (hu : p.up = true → mg.HasUp = true) (hd : p.up = false → mg.HasDown = true) :
    recordMigration m p = .ok m := by
  unfold recordMigration
  rw [hi]
  simp only []
  rw [if_neg (not_not.2 hn)]
  cases hup : p.up with
  | true =>
    have e : ({ mg with HasUp := true } : migration) = mg := by
      have := hu hup
      cases mg
      simp only at this
      subst this
      rfl
    simp only [if_true, e]
    rw [assign_same m _ mg hi]
  | false =>
    have e : ({ mg with HasDown := true } : migration) = mg := by
      have := hd hup
      cases mg
      simp only at this
      subst this
      rfl
    simp only [Bool.false_eq_true, if_false, e]
    rw [assign_same m _ mg hi]

/-- An entry that parses like an entry already seen is recorded without changing the
map. -/
theorem recordMigration_seen (seen : List String) (byVersion : MigrationMap)
    (h : parseNames seen [] = .ok byVersion) (s : String) (p : parsedName)
    (hs : s ∈ seen) (hp : parseFilename s = .ok (some p)) :
    recordMigration byVersion p = .ok byVersion := by
  obtain ⟨mg, hi, hn⟩ := parseNames_seen_name seen [] byVersion h s p hs hp
  obtain ⟨_, hup, hdown⟩ := parseNames_flags seen [] byVersion h p.version
  obtain ⟨hdir, _, _⟩ := parseFilename_direction s p hp
  refine recordMigration_again byVersion p mg hi hn ?_ ?_
  · intro hu
    obtain ⟨mg1, h1, h2⟩ := hup.2 (Or.inr ⟨s, hs, p, hp, rfl, hu⟩)
    rw [hi] at h1
    cases h1
    exact h2
  · intro hu
    have hdn : p.down = true := by rw [hdir, hu]; rfl
    obtain ⟨mg1, h1, h2⟩ := hdown.2 (Or.inr ⟨s, hs, p, hp, rfl, hdn⟩)
    rw [hi] at h1
    cases h1
    exact h2

theorem parseNames_duplicate (seen post : List String) (s dup : String) (p : parsedName)
    (hs : s ∈ seen) (hp : parseFilename s = .ok (some p))
    (hdup : parseFilename dup = .ok (some p)) :
    parseNames (seen ++ dup :: post) [] = parseNames (seen ++ post) [] := by
  rw [parseNames_append, parseNames_append]
  cases h : parseNames seen [] with
  | panic => rfl
  | err e => rfl
  | ok byVersion =>
    simp only [parseNames, hdup, recordMigration_seen seen byVersion h s p hs hp]

/-- C22: repeating an entry that is already in the list changes nothing. For every list
of filenames `seen ++ post`, every entry `s` of `seen` that parses to a version, a name
and a direction, and every entry `dup` that parses to the same version, name and
direction (`s` itself, for one), putting `dup` after `seen` changes neither the
migration list nor the error `filenamesToMigrations` returns (nor the world it leaves):
recording the repeated entry re-sets a flag that is already set and leaves the version
map as it is, and is not an error. -/
theorem filenamesToMigrations_duplicate (m : migrator σ) (w : World σ)
    (seen post : List String) (s dup : String) (p : parsedName)
    (hs : s ∈ seen) (hp : parseFilename s = .ok (some p))
    (hdup : parseFilename dup = .ok (some p)) :
    filenamesToMigrations m (seen ++ dup :: post) w
      = filenamesToMigrations m (seen ++ post) w ∧
    filenamesToMigrations m (seen ++ s :: post) w
      = filenamesToMigrations m (seen ++ post) w ∧
    ∀ byVersion, parseNames seen [] = .ok byVersion →
      recordMigration byVersion p = .ok byVersion := by
  refine ⟨?_, ?_, fun byVersion h => recordMigration_seen seen byVersion h s p hs hp⟩
  · simp only [filenamesToMigrations, parseNames_duplicate seen post s dup p hs hp hdup]
  · simp only [filenamesToMigrations, parseNames_duplicate seen post s s p hs hp hp]

/-- C22, at a list where the up-script of version 1 comes a second time (once under an
unpadded spelling) after both scripts of version 1 and before those of version 2. -/
theorem filenamesToMigrations_duplicate_witness :
    filenamesToMigrations (sampleMigrator [])
        (["0001_first.up.sql", "0001_first.down.sql"] ++
          "1_first.up.sql" :: ["0002_second.up.sql"]) ⟨[⟨1, "first"⟩], []⟩
      = filenamesToMigrations (sampleMigrator [])
        (["0001_first.up.sql", "0001_first.down.sql"] ++ ["0002_second.up.sql"])
        ⟨[⟨1, "first"⟩], []⟩ ∧
    filenamesToMigrations (sampleMigrator [])
        (["0001_first.up.sql", "0001_first.down.sql"] ++
          "0001_first.up.sql" :: ["0002_second.up.sql"]) ⟨[⟨1, "first"⟩], []⟩
      = filenamesToMigrations (sampleMigrator [])
        (["0001_first.up.sql", "0001_first.down.sql"] ++ ["0002_second.up.sql"])
        ⟨[⟨1, "first"⟩], []⟩ ∧
    ∀ byVersion, parseNames ["0001_first.up.sql", "0001_first.down.sql"] []
        = .ok byVersion →
      recordMigration byVersion ⟨1, "first", true, false⟩ = .ok byVersion :=
  filenamesToMigrations_duplicate (sampleMigrator []) ⟨[⟨1, "first"⟩], []⟩
    ["0001_first.up.sql", "0001_first.down.sql"] ["0002_second.up.sql"]
    "0001_first.up.sql" "1_first.up.sql" ⟨1, "first", true, false⟩
    (by simp) (by decide) (by decide)

/-! ## Index safety of the stepping loop -/

theorem foldl_max_ge (rest : List dbMigration) : ∀ a : Int,
    a ≤ rest.foldl (fun a r => max a r.Version) a ∧
      ∀ r ∈ rest, r.Version ≤ rest.foldl (fun a r => max a r.Version) a := by
  induction rest with
  | nil => intro a; simp
  | cons x rest ih =>
    intro a
    obtain ⟨h1, h2⟩ := ih (max a x.Version)
    simp only [List.foldl_cons, List.mem_cons, forall_eq_or_imp]
    exact ⟨le_trans (le_max_left _ _) h1, le_trans (le_max_right _ _) h1, h2⟩

theorem foldl_max_mem (rest : List dbMigration) : ∀ a : Int,
    rest.foldl (fun a r => max a r.Version) a = a ∨
      ∃ r ∈ rest, r.Version = rest.foldl (fun a r => max a r.Version) a := by
  induction rest with
  | nil => intro a; simp
  | cons x rest ih =>
    intro a
    simp only [List.foldl_cons, List.mem_cons, exists_eq_or_imp]
    rcases ih (max a x.Version) with h | ⟨r, hr, h⟩
    · rw [h]
      rcases max_cases a x.Version with ⟨e, _⟩ | ⟨e, _⟩
      · exact Or.inl e
      · exact Or.inr (Or.inl e.symm)
    · exact Or.inr (Or.inr ⟨r, hr, h⟩)

theorem maxVersion_ge (rows : List dbMigration) (x : dbMigration) (h : x ∈ rows) :
    x.Version ≤ maxVersion rows := by
  cases rows with
  | nil => simp at h
  | cons y rest =>
    obtain ⟨h1, h2⟩ := foldl_max_ge rest y.Version
    rcases List.mem_cons.1 h with e | e
    · subst e; exact h1
    · exact h2 x e

theorem maxVersion_mem (rows : List dbMigration) (h : rows ≠ []) :
    ∃ x ∈ rows, x.Version = maxVersion rows := by
  cases rows with
  | nil => exact absurd rfl h
  | cons y rest =>
    rcases foldl_max_mem rest y.Version with e | ⟨r, hr, e⟩
    · exact ⟨y, List.mem_cons_self _ _, e.symm⟩
    · exact ⟨r, List.mem_cons_of_mem _ hr, e⟩

/-- A ledger that passes reconciliation has every row in the version map, under the name
of the row. -/
theorem checkDbMigrations_none_mem (byVersion : MigrationMap) :
    ∀ ledger : List dbMigration, checkDbMigrations byVersion ledger = none →
      ∀ x ∈ ledger, ∃ mg, byVersion.index x.Version = some mg ∧ mg.Name = x.Name := by
  intro ledger
  induction ledger with
  | nil => intro _ x hx; simp at hx
  | cons y rest ih =>
    intro h x hx
    simp only [checkDbMigrations] at h
    cases hi : byVersion.index y.Version with
    | none => simp [hi] at h
    | some mg =>
      simp only [hi] at h
      by_cases hn : mg.Name = y.Name
      · simp only [hn, ne_eq, not_true_eq_false, if_false] at h
        rcases List.mem_cons.1 hx with e | e
        · subst e; exact ⟨mg, hi, hn⟩
        · exact ih h x e
      · simp [hn] at h

/-- After a successful `filenamesToMigrations` every ledger row has a version in
`1..N`, `N` the length of the list returned. -/
theorem filenamesToMigrations_ledger_range (m : migrator σ) (names : List String)
    (w : World σ) (avail : List migration)
    (h : (filenamesToMigrations m names w).1 = .ok avail) :
    ∀ x ∈ ledgerOf m w, 1 ≤ x.Version ∧ x.Version ≤ (avail.length : Int) := by
  obtain ⟨byVersion, hp, hv, hc, hf⟩ := filenamesToMigrations_ok m names w avail h
  have hok := parseNames_MapOk names [] byVersion MapOk_nil hp
  obtain ⟨result, hr, hlen, _⟩ := fillResult_valid byVersion hok hv
  rw [hf] at hr
  cases hr
  intro x hx
  obtain ⟨mg, hi, _⟩ := checkDbMigrations_none_mem byVersion _ hc x hx
  have := (keys_iff_of_validate byVersion hok hv x.Version).1
    (mem_keys_of_index byVersion _ mg hi)
  rw [hlen]
  exact this

/-- With the current version and the target both in `0..N`, the loop never indexes the
list out of range. -/
theorem migrateLoop_ne_panicked (m : migrator σ) (avail : List migration) (T : Int)
    (isUp : Bool) (hv : ValidSet avail) (hT0 : 0 ≤ T) (hTN : T ≤ avail.length) :
    ∀ (fuel : Nat) (C : Int) (w : World σ), 0 ≤ C → C ≤ avail.length →
      (isUp = true → C ≤ T) → (isUp = false → T ≤ C) →
      (migrateLoop m avail T isUp (if !isUp then -1 else 1) fuel C w).1 ≠ .panicked := by
  intro fuel
  induction fuel with
  | zero =>
    intro C w _ _ _ _
    by_cases e : C = T
    · subst e; rw [migrateLoop_done]; simp
    · rw [migrateLoop_zero _ _ _ _ _ _ _ e]; simp
  | succ fuel ih =>
    intro C w h0 hN hup hdown
    by_cases e : C = T
    · subst e; rw [migrateLoop_done]; simp
    · cases isUp with
      | true =>
        have hle := hup rfl
        obtain ⟨mg, hs, _, _⟩ := sliceAt_valid avail hv C h0 (by omega)
        rw [migrateLoop_step m avail T true _ fuel C w mg e (by simpa using hs)]
        cases hi : internalMigrate m mg true w with
        | mk r w1 =>
          cases r with
          | some err => simp
          | none =>
            simp only []
            have := ih (C + 1) w1 (by omega) (by omega) (fun _ => by omega)
              (fun hh => (by cases hh))
            simpa using this
      | false =>
        have hle := hdown rfl
        obtain ⟨mg, hs, _, _⟩ := sliceAt_valid avail hv (C - 1) (by omega) (by omega)
        rw [migrateLoop_step m avail T false _ fuel C w mg e (by simpa using hs)]
        cases hi : internalMigrate m mg false w with
        | mk r w1 =>
          cases r with
          | some err => simp
          | none =>
            simp only []
            have := ih (C + -1) w1 (by omega) (by omega) (fun hh => (by cases hh))
              (fun _ => by omega)
            simpa using this

/-- The apply calls of a run of `MigrateTo` are those of `k` steps from the current
version, `k` at most `|T - C|`; steps are made only towards a target in `0..N`. -/
theorem MigrateTo_steps (m : migrator σ) (w w1 w2 : World σ) (avail : List migration)
    (C T : Int) (hl : listMigrations m w = (.ok avail, w1))
    (hg : GetVersion m w1 = ((C, none), w2)) :
    ∃ k : Nat, k ≤ (T - C).natAbs ∧
      applyCalls (newEvents w (MigrateTo m T w).2) = stepCalls avail (decide (C < T)) C k ∧
      (k = 0 ∨ (0 ≤ T ∧ T ≤ (avail.length : Int))) := by
  obtain ⟨pre, hpre, hns⟩ := prelude_log m w w1 w2 _ _ hl hg
  have hv : ValidSet avail := listMigrations_valid m w avail (by rw [hl])
  have hnil : applyCalls [] = stepCalls avail (decide (C < T)) C 0 := by
    cases decide (C < T) <;> rfl
  have hstay : ∀ o : Outcome, MigrateTo m T w = (o, w2) →
      ∃ k : Nat, k ≤ (T - C).natAbs ∧
        applyCalls (newEvents w (MigrateTo m T w).2)
          = stepCalls avail (decide (C < T)) C k ∧
        (k = 0 ∨ (0 ≤ T ∧ T ≤ (avail.length : Int))) := by
    intro o ho
    refine ⟨0, Nat.zero_le _, ?_, Or.inl rfl⟩
    rw [ho, ← hnil]
    simp only
    rw [newEvents_of_log w w2 pre hpre]
    exact applyCalls_of_no_step pre hns
  have heq := MigrateTo_eq m w w1 w2 avail C T hl hg
  by_cases h1 : T = C
  · rw [if_pos h1] at heq
    exact hstay _ heq
  · rw [if_neg h1] at heq
    by_cases h2 : T < 0
    · rw [if_pos h2] at heq
      exact hstay _ heq
    · rw [if_neg h2] at heq
      by_cases h3 : T > (avail.length : Int)
      · rw [if_pos h3] at heq
        exact hstay _ heq
      · rw [if_neg h3] at heq
        obtain ⟨evs, k, h4, h5, h6, h7, _⟩ :=
          migrateLoop_trace m avail T (decide (C < T)) hv (T - C).natAbs C w2
        rw [← heq] at h4
        refine ⟨k, h6, ?_, Or.inr ⟨by omega, by omega⟩⟩
        have hlog : (MigrateTo m T w).2.log = w.log ++ (pre ++ evs) := by
          rw [h4, hpre, List.append_assoc]
        rw [newEvents_of_log w _ (pre ++ evs) hlog, applyCalls_append,
          applyCalls_of_no_step pre hns, List.nil_append, h7]

/-- The versions of `k` steps from `C` towards `T`, `k ≤ |T - C|`. -/
theorem stepCalls_range (avail : List migration) (C T : Int) (k : Nat)
    (hk : k ≤ (T - C).natAbs) (isUp : Bool) (v : Int) (name : String)
    (h : (isUp, v, name) ∈ stepCalls avail (decide (C < T)) C k) :
    name = versionName avail v ∧
    (isUp = true → C < v ∧ v ≤ T) ∧ (isUp = false → T < v ∧ v ≤ C) := by
  by_cases hlt : C < T
  · have hd : decide (C < T) = true := by simpa using hlt
    rw [hd] at h
    simp only [stepCalls, if_true, upSteps_eq_map, List.mem_map, List.mem_range,
      Prod.mk.injEq] at h
    obtain ⟨i, hi, h1, h2, h3⟩ := h
    subst h1
    refine ⟨by rw [← h3, h2], fun _ => by omega, fun hh => by cases hh⟩
  · have hd : decide (C < T) = false := by simpa using hlt
    rw [hd] at h
    simp only [stepCalls, Bool.false_eq_true, if_false, downSteps_eq_map, List.mem_map,
      List.mem_range, Prod.mk.injEq] at h
    obtain ⟨i, hi, h1, h2, h3⟩ := h
    subst h1
    refine ⟨by rw [← h3, h2], fun hh => (by cases hh), fun _ => by omega⟩

theorem stepCalls_length (avail : List migration) (isUp : Bool) (C : Int) (k : Nat) :
    (stepCalls avail isUp C k).length = k := by
  cases isUp
  · simp [stepCalls, downSteps_eq_map]
  · simp [stepCalls, upSteps_eq_map]

/-- C24: under the precondition that the current version `C` the ledger accessor
returns is the greatest version of the ledger it listed (0 when that ledger is empty),
for every target `T` the stepping loop of `MigrateTo` terminates within the `|T - C|`
iterations it is given, makes at most `|T - C|` apply calls and never indexes the
migration list out of range: reconciliation gives `0 ≤ C ≤ N`, `MigrateTo` does not
panic, and every apply call is for a version `u` whose index `u - 1` holds the
descriptor of that version and name, with `C ≤ u - 1 < T ≤ N` on the way up and
`0 ≤ T < u ≤ C` on the way down. -/
theorem MigrateTo_in_bounds (m : migrator σ) (w wa wb w1 w2 : World σ)
    (names : List String) (derr : Option Error) (avail : List migration) (C T : Int)
    (hreq : callRequireSchema m w = (none, wa))
    (hdir : callListMigrationDir m wa = ((names, derr), wb))
    (hfm : filenamesToMigrations m names wb = (.ok avail, w1))
    (hg : GetVersion m w1 = ((C, none), w2))
    (hmax : C = maxVersion (ledgerOf m wb)) :
    0 ≤ C ∧ C ≤ (avail.length : Int) ∧
    (MigrateTo m T w).1 ≠ .panicked ∧ (MigrateTo m T w).1 ≠ .outOfFuel ∧
    (applyCalls (newEvents w (MigrateTo m T w).2)).length ≤ (T - C).natAbs ∧
    ∀ (isUp : Bool) (u : Int) (name : String),
      (isUp, u, name) ∈ applyCalls (newEvents w (MigrateTo m T w).2) →
      (∃ mg, sliceAt avail (u - 1) = some mg ∧ mg.Version = u ∧ mg.Name = name) ∧
      (isUp = true → C ≤ u - 1 ∧ u - 1 < T ∧ T ≤ (avail.length : Int)) ∧
      (isUp = false → 0 ≤ T ∧ T < u ∧ u ≤ C) := by
  have hl : listMigrations m w = (.ok avail, w1) := by
    rw [listMigrations_of_filenames m w wa wb names derr hreq hdir, hfm]
  have hv : ValidSet avail := listMigrations_valid m w avail (by rw [hl])
  have hrange := filenamesToMigrations_ledger_range m names wb avail (by rw [hfm])
  have hC : 0 ≤ C ∧ C ≤ (avail.length : Int) := by
    by_cases he : ledgerOf m wb = []
    · rw [hmax, he]
      simp [maxVersion]
    · obtain ⟨x, hx, hxv⟩ := maxVersion_mem _ he
      have := hrange x hx
      rw [hmax, ← hxv]
      omega
  obtain ⟨h0, hN⟩ := hC
  obtain ⟨k, hk, hcalls, hkT⟩ := MigrateTo_steps m w w1 w2 avail C T hl hg
  refine ⟨h0, hN, ?_, MigrateTo_terminates m T w, ?_, ?_⟩
  · rw [MigrateTo_eq m w w1 w2 avail C T hl hg]
    by_cases h1 : T = C
    · rw [if_pos h1]; simp
    · rw [if_neg h1]
      by_cases h2 : T < 0
      · rw [if_pos h2]; simp
      · rw [if_neg h2]
        by_cases h3 : T > (avail.length : Int)
        · rw [if_pos h3]; simp
        · rw [if_neg h3]
          exact migrateLoop_ne_panicked m avail T (decide (C < T)) hv (by omega)
            (by omega) _ C w2 h0 hN (fun hh => by simp at hh; omega)
            (fun hh => by simp at hh; omega)
  · rw [hcalls, stepCalls_length]
    exact hk
  · intro isUp u name hmem
    rw [hcalls] at hmem
    have hk0 : k ≠ 0 := by
      intro e
      subst e
      cases hd : decide (C < T) <;> simp [hd, stepCalls, upSteps, downSteps] at hmem
    have hT : 0 ≤ T ∧ T ≤ (avail.length : Int) := by
      rcases hkT with e | e
      · exact absurd e hk0
      · exact e
    obtain ⟨hname, hup, hdown⟩ := stepCalls_range avail C T k hk isUp u name hmem
    have hu : 0 ≤ u - 1 ∧ u - 1 < (avail.length : Int) := by
      cases isUp with
      | true => have := hup rfl; omega
      | false => have := hdown rfl; omega
    obtain ⟨mg, hs, hmv, _⟩ := sliceAt_valid avail hv (u - 1) hu.1 hu.2
    refine ⟨⟨mg, hs, by omega, ?_⟩, ?_, ?_⟩
    · rw [hname, versionName, hs]
    · intro hh
      have := hup hh
      omega
    · intro hh
      have := hdown hh
      omega

/-! ## The ledger after a run -/

theorem okApplies_append (a b : List Event) :
    okApplies (a ++ b) = okApplies a + okApplies b := by
  induction a with
  | nil => simp [okApplies]
  | cons ev rest ih =>
    obtain ⟨c, e⟩ := ev
    cases c <;> cases e <;> simp [okApplies, ih, Nat.add_right_comm]

theorem okApplies_of_no_step (a : List Event) (h : ∀ ev ∈ a, isStepCall ev.call = false) :
    okApplies a = 0 := by
  induction a with
  | nil => rfl
  | cons ev rest ih =>
    have h1 := h ev (List.mem_cons_self _ _)
    have h2 := ih (fun x hx => h x (List.mem_cons_of_mem _ hx))
    obtain ⟨c, e⟩ := ev
    cases c <;> cases e <;> simp [okApplies, isStepCall, h2] at h1 ⊢

theorem ledgerUpTo_succ (avail : List migration) (c : Int) (h0 : 0 ≤ c) :
    ledgerUpTo avail (c + 1) = ledgerUpTo avail c ++ [⟨c + 1, versionName avail (c + 1)⟩] := by
  have e : (c + 1).toNat = c.toNat + 1 := by omega
  have e1 : ((c.toNat : Nat) : Int) = c := Int.toNat_of_nonneg h0
  simp only [ledgerUpTo, e, List.range_succ, List.map_append, List.map_cons, List.map_nil, e1]

theorem ledgerUpTo_mem (avail : List migration) (c : Int) (x : dbMigration)
    (h : x ∈ ledgerUpTo avail c) : 1 ≤ x.Version ∧ x.Version ≤ c := by
  simp only [ledgerUpTo, List.mem_map, List.mem_range] at h
  obtain ⟨i, hi, rfl⟩ := h
  simp only
  omega

theorem LedgerIs_up (avail : List migration) (c : Int) (rows : List dbMigration)
    (h0 : 0 ≤ c) (h : LedgerIs avail c rows) :
    LedgerIs avail (c + 1) (stepRows true (c + 1) (versionName avail (c + 1)) rows) := by
  unfold LedgerIs at h ⊢
  rw [ledgerUpTo_succ avail c h0]
  simp only [stepRows, if_true]
  exact List.Perm.append_right _ h

theorem LedgerIs_down (avail : List migration) (c : Int) (rows : List dbMigration)
    (h1 : 1 ≤ c) (h : LedgerIs avail c rows) :
    LedgerIs avail (c - 1) (stepRows false c (versionName avail c) rows) := by
  unfold LedgerIs at h ⊢
  have e := ledgerUpTo_succ avail (c - 1) (by omega)
  rw [sub_add_cancel] at e
  have hf : (ledgerUpTo avail c).filter
      (fun r => !(r.Version = c && r.Name = versionName avail c)) = ledgerUpTo avail (c - 1) := by
    rw [e, List.filter_append]
    have h2 : (ledgerUpTo avail (c - 1)).filter
        (fun r => !(r.Version = c && r.Name = versionName avail c))
          = ledgerUpTo avail (c - 1) := by
      apply List.filter_eq_self.2
      intro x hx
      have := ledgerUpTo_mem avail (c - 1) x hx
      have hne : x.Version ≠ c := by omega
      simp [hne]
    rw [h2]
    simp
  simp only [stepRows, Bool.false_eq_true, if_false]
  rw [← hf]
  exact List.Perm.filter _ h

theorem maxVersion_of_LedgerIs (avail : List migration) (c : Int) (rows : List dbMigration)
    (h0 : 0 ≤ c) (h : LedgerIs avail c rows) : maxVersion rows = c := by
  unfold LedgerIs at h
  by_cases hc : c = 0
  · subst hc
    have : rows = [] := List.Perm.eq_nil h
    subst this
    rfl
  · have e := ledgerUpTo_succ avail (c - 1) (by omega)
    rw [sub_add_cancel] at e
    have hin : (⟨c, versionName avail c⟩ : dbMigration) ∈ rows := by
      apply (List.Perm.mem_iff h).2
      rw [e]
      simp
    have hne : rows ≠ [] := by
      intro hh
      rw [hh] at hin
      simp at hin
    obtain ⟨x, hx, hxv⟩ := maxVersion_mem rows hne
    have hle := ledgerUpTo_mem avail c x ((List.Perm.mem_iff h).1 hx)
    have hge := maxVersion_ge rows _ hin
    simp only at hge
    omega

theorem filenamesToMigrations_state (m : migrator σ) (names : List String) (w : World σ)
    (hL : ∀ st, (m.db.ListMigrations st).2 = st) :
    (filenamesToMigrations m names w).2.state = w.state := by
  cases hp : parseNames names [] with
  | panic => simp [filenamesToMigrations, hp]
  | err e => simp [filenamesToMigrations, hp]
  | ok byVersion =>
    cases hv : validateMigrations true byVersion with
    | some e => simp [filenamesToMigrations, hp, hv]
    | none =>
      rw [filenamesToMigrations_of_parse m names w byVersion hp hv]
      simp [callListMigrations, hL]

/-- Listing leaves the state of collaborators whose read calls do. -/
theorem listMigrations_state (m : migrator σ) (w : World σ)
    (hR : ∀ st, (m.db.RequireSchema st).2 = st)
    (hL : ∀ st, (m.db.ListMigrations st).2 = st)
    (hD : ∀ st, (m.filesystem.ListMigrationDir st).2 = st) :
    (listMigrations m w).2.state = w.state := by
  unfold listMigrations
  cases hr : (m.db.RequireSchema w.state).1 with
  | some e => simp [callRequireSchema, hr, hR]
  | none =>
    simp only [callRequireSchema, hr]
    rw [filenamesToMigrations_state m _ _ hL]
    simp [callListMigrationDir, hD, hR]

/-- One step against the spec ledger: a step that fails leaves the rows as they were, a
step that succeeds mutates them as `stepRows` says and logs one successful apply call. -/
theorem internalMigrate_specLedger (m : migrator (List dbMigration))
    (fails : Bool → Bool → Int → String → String → List dbMigration → Option Error)
    (hdb : m.db = specLedger fails)
    (hRd : ∀ f st, (m.filesystem.ReadMigration f st).2 = st)
    (mg : migration) (isUp : Bool) (w : World (List dbMigration)) :
    ∃ evs, (internalMigrate m mg isUp w).2.log = w.log ++ evs ∧
      (((internalMigrate m mg isUp w).1 ≠ none ∧
          (internalMigrate m mg isUp w).2.state = w.state ∧ okApplies evs = 0) ∨
        ((internalMigrate m mg isUp w).1 = none ∧
          (internalMigrate m mg isUp w).2.state = stepRows isUp mg.Version mg.Name w.state ∧
          okApplies evs = 1)) := by
  cases hs : scriptMissing mg isUp with
  | true =>
    unfold scriptMissing at hs
    have e1 : internalMigrate m mg isUp w
        = (some (.missingMigrationError mg.Version isUp), w) := by
      simp only [internalMigrate, hs, if_true]
    rw [e1]
    exact ⟨[], by simp, Or.inl ⟨by simp, rfl, rfl⟩⟩
  | false =>
    unfold scriptMissing at hs
    cases hr : (m.filesystem.ReadMigration (mg.Filename isUp) w.state).1.2 with
    | some e =>
      have e1 : internalMigrate m mg isUp w
          = (some e, ⟨w.state, w.log ++ [⟨.ReadMigration (mg.Filename isUp), some e⟩]⟩) := by
        simp only [internalMigrate, hs, callReadMigration_eq m _ w _ hr, hRd]
        simp only [Bool.false_eq_true, if_false]
      rw [e1]
      exact ⟨[⟨.ReadMigration (mg.Filename isUp), some e⟩], rfl,
        Or.inl ⟨by simp, rfl, rfl⟩⟩
    | none =>
      have e1 : internalMigrate m mg isUp w
          = callApplyMigration m
              (m.useTx (m.filesystem.ReadMigration (mg.Filename isUp) w.state).1.1) isUp
              mg.Version mg.Name (m.filesystem.ReadMigration (mg.Filename isUp) w.state).1.1
              ⟨w.state, w.log ++ [⟨.ReadMigration (mg.Filename isUp), none⟩]⟩ := by
        simp only [internalMigrate, hs, callReadMigration_eq m _ w _ hr, hRd]
        simp only [Bool.false_eq_true, if_false]
      rw [e1]
      simp only [callApplyMigration, hdb, specLedger]
      cases hf : fails (m.useTx (m.filesystem.ReadMigration (mg.Filename isUp) w.state).1.1)
          isUp mg.Version mg.Name
          (m.filesystem.ReadMigration (mg.Filename isUp) w.state).1.1 w.state with
      | some e =>
        refine ⟨[⟨.ReadMigration (mg.Filename isUp), none⟩,
          ⟨.ApplyMigration
            (m.useTx (m.filesystem.ReadMigration (mg.Filename isUp) w.state).1.1) isUp
            mg.Version mg.Name (m.filesystem.ReadMigration (mg.Filename isUp) w.state).1.1,
            some e⟩], by simp, Or.inl ⟨by simp, rfl, rfl⟩⟩
      | none =>
        refine ⟨[⟨.ReadMigration (mg.Filename isUp), none⟩,
          ⟨.ApplyMigration
            (m.useTx (m.filesystem.ReadMigration (mg.Filename isUp) w.state).1.1) isUp
            mg.Version mg.Name (m.filesystem.ReadMigration (mg.Filename isUp) w.state).1.1,
            none⟩], by simp, Or.inr ⟨rfl, rfl, rfl⟩⟩

/-- Stepping up against the spec ledger: after `k` successful apply calls from version
`c` the ledger holds exactly `1..c+k`. -/
theorem migrateLoop_ledger_up (m : migrator (List dbMigration))
    (fails : Bool → Bool → Int → String → String → List dbMigration → Option Error)
    (hdb : m.db = specLedger fails)
    (hRd : ∀ f st, (m.filesystem.ReadMigration f st).2 = st)
    (avail : List migration) (T : Int) (hv : ValidSet avail) (hT : T ≤ avail.length) :
    ∀ (fuel : Nat) (c : Int) (w : World (List dbMigration)), 0 ≤ c → c ≤ T →
      LedgerIs avail c w.state →
      ∃ evs, (migrateLoop m avail T true 1 fuel c w).2.log = w.log ++ evs ∧
        LedgerIs avail (c + okApplies evs) (migrateLoop m avail T true 1 fuel c w).2.state ∧
        c + okApplies evs ≤ T ∧
        ((migrateLoop m avail T true 1 fuel c w).1 = .returned none →
          c + okApplies evs = T) ∧
        (∀ e, (migrateLoop m avail T true 1 fuel c w).1 = .returned (some e) →
          c + okApplies evs ≠ T) := by
  intro fuel
  induction fuel with
  | zero =>
    intro c w h0 h1 hrows
    by_cases hc : c = T
    · subst hc
      rw [migrateLoop_done]
      exact ⟨[], by simp, by simpa [okApplies] using hrows, by simp [okApplies],
        fun _ => (by simp [okApplies]), fun e he => (by cases he)⟩
    · rw [migrateLoop_zero _ _ _ _ _ _ _ hc]
      exact ⟨[], by simp, by simpa [okApplies] using hrows, by simpa [okApplies] using h1,
        fun he => (by cases he), fun e he => (by cases he)⟩
  | succ f ih =>
    intro c w h0 h1 hrows
    by_cases hc : c = T
    · subst hc
      rw [migrateLoop_done]
      exact ⟨[], by simp, by simpa [okApplies] using hrows, by simp [okApplies],
        fun _ => (by simp [okApplies]), fun e he => (by cases he)⟩
    · obtain ⟨mg, hs, hver, -⟩ := sliceAt_valid avail hv c h0 (by omega)
      have hs1 : sliceAt avail (if true = true then c else c - 1) = some mg := by
        simpa using hs
      rw [migrateLoop_step _ _ _ _ _ _ _ _ mg hc hs1]
      have hname : versionName avail (c + 1) = mg.Name :=
        versionName_of_sliceAt avail (c + 1) c mg (by omega) hs
      obtain ⟨evs0, hlog0, hcase⟩ := internalMigrate_specLedger m fails hdb hRd mg true w
      cases hi : internalMigrate m mg true w with
      | mk r wn =>
        rw [hi] at hlog0 hcase
        simp only at hlog0 hcase
        rcases hcase with ⟨hne, hst, hk⟩ | ⟨hnone, hst, hk⟩
        · cases r with
          | none => exact absurd rfl hne
          | some err =>
            simp only []
            refine ⟨evs0, hlog0, ?_, ?_, fun he => (by cases he), fun _ _ => ?_⟩
            · rw [hk, hst]
              simpa using hrows
            · rw [hk]
              simpa using h1
            · rw [hk]
              simpa using hc
        · subst hnone
          simp only []
          have hrows1 : LedgerIs avail (c + 1) wn.state := by
            rw [hst, hver, ← hname]
            exact LedgerIs_up avail c w.state h0 hrows
          obtain ⟨evs1, hlog1, h2, h3, h4, h5⟩ := ih (c + 1) wn (by omega) (by omega) hrows1
          have ek : c + ((okApplies (evs0 ++ evs1) : Nat) : Int)
              = c + 1 + ((okApplies evs1 : Nat) : Int) := by
            rw [okApplies_append, hk]
            push_cast
            omega
          refine ⟨evs0 ++ evs1, ?_, ?_, ?_, ?_, ?_⟩
          · rw [hlog1, hlog0, List.append_assoc]
          · rw [ek]; exact h2
          · rw [ek]; exact h3
          · rw [ek]; exact h4
          · rw [ek]; exact h5

/-- Stepping down against the spec ledger: after `k` successful apply calls from version
`c` the ledger holds exactly `1..c-k`. -/
theorem migrateLoop_ledger_down (m : migrator (List dbMigration))
    (fails : Bool → Bool → Int → String → String → List dbMigration → Option Error)
    (hdb : m.db = specLedger fails)
    (hRd : ∀ f st, (m.filesystem.ReadMigration f st).2 = st)
    (avail : List migration) (T : Int) (hv : ValidSet avail) (hT : 0 ≤ T) :
    ∀ (fuel : Nat) (c : Int) (w : World (List dbMigration)), T ≤ c → c ≤ avail.length →
      LedgerIs avail c w.state →
      ∃ evs, (migrateLoop m avail T false (-1) fuel c w).2.log = w.log ++ evs ∧
        LedgerIs avail (c - okApplies evs)
          (migrateLoop m avail T false (-1) fuel c w).2.state ∧
        T ≤ c - okApplies evs ∧
        ((migrateLoop m avail T false (-1) fuel c w).1 = .returned none →
          c - okApplies evs = T) ∧
        (∀ e, (migrateLoop m avail T false (-1) fuel c w).1 = .returned (some e) →
          c - okApplies evs ≠ T) := by
  intro fuel
  induction fuel with
  | zero =>
    intro c w h0 h1 hrows
    by_cases hc : c = T
    · subst hc
      rw [migrateLoop_done]
      exact ⟨[], by simp, by simpa [okApplies] using hrows, by simp [okApplies],
        fun _ => (by simp [okApplies]), fun e he => (by cases he)⟩
    · rw [migrateLoop_zero _ _ _ _ _ _ _ hc]
      exact ⟨[], by simp, by simpa [okApplies] using hrows, by simpa [okApplies] using h0,
        fun he => (by cases he), fun e he => (by cases he)⟩
  | succ f ih =>
    intro c w h0 h1 hrows
    by_cases hc : c = T
    · subst hc
      rw [migrateLoop_done]
      exact ⟨[], by simp, by simpa [okApplies] using hrows, by simp [okApplies],
        fun _ => (by simp [okApplies]), fun e he => (by cases he)⟩
    · obtain ⟨mg, hs, hver, -⟩ := sliceAt_valid avail hv (c - 1) (by omega) (by omega)
      have hs1 : sliceAt avail (if false = true then c else c - 1) = some mg := by
        simpa using hs
      rw [migrateLoop_step _ _ _ _ _ _ _ _ mg hc hs1]
      have hname : versionName avail c = mg.Name :=
        versionName_of_sliceAt avail c (c - 1) mg rfl hs
      have hver1 : mg.Version = c := by omega
      obtain ⟨evs0, hlog0, hcase⟩ := internalMigrate_specLedger m fails hdb hRd mg false w
      cases hi : internalMigrate m mg false w with
      | mk r wn =>
        rw [hi] at hlog0 hcase
        simp only at hlog0 hcase
        rcases hcase with ⟨hne, hst, hk⟩ | ⟨hnone, hst, hk⟩
        · cases r with
          | none => exact absurd rfl hne
          | some err =>
            simp only []
            refine ⟨evs0, hlog0, ?_, ?_, fun he => (by cases he), fun _ _ => ?_⟩
            · rw [hk, hst]
              simpa using hrows
            · rw [hk]
              simpa using h0
            · rw [hk]
              simpa using hc
        · subst hnone
          simp only []
          have hrows1 : LedgerIs avail (c + -1) wn.state := by
            rw [hst, hver1, ← hname]
            exact LedgerIs_down avail c w.state (by omega) hrows
          obtain ⟨evs1, hlog1, h2, h3, h4, h5⟩ := ih (c + -1) wn (by omega) (by omega) hrows1
          have ek : c - ((okApplies (evs0 ++ evs1) : Nat) : Int)
              = c + -1 - ((okApplies evs1 : Nat) : Int) := by
            rw [okApplies_append, hk]
            push_cast
            omega
          refine ⟨evs0 ++ evs1, ?_, ?_, ?_, ?_, ?_⟩
          · rw [hlog1, hlog0, List.append_assoc]
          · rw [ek]; exact h2
          · rw [ek]; exact h3
          · rw [ek]; exact h4
          · rw [ek]; exact h5

theorem stoppedAt_zero (C T : Int) : stoppedAt C T 0 = C := by
  unfold stoppedAt
  split <;> simp

/-- A run of `MigrateTo` against the spec ledger, from a ledger that holds exactly
`1..C`: it leaves exactly `1..v`, `v` the version `k` successful steps away from `C`. -/
theorem MigrateTo_ledger_run (m : migrator (List dbMigration))
    (fails : Bool → Bool → Int → String → String → List dbMigration → Option Error)
    (hdb : m.db = specLedger fails)
    (hD : ∀ st, (m.filesystem.ListMigrationDir st).2 = st)
    (hRd : ∀ f st, (m.filesystem.ReadMigration f st).2 = st)
    (w w1 : World (List dbMigration)) (avail : List migration) (C T : Int)
    (hl : listMigrations m w = (.ok avail, w1)) (h0 : 0 ≤ C)
    (hCN : C ≤ (avail.length : Int)) (hrows : LedgerIs avail C w.state) :
    ∃ evs, (MigrateTo m T w).2.log = w.log ++ evs ∧
      LedgerIs avail (stoppedAt C T (okApplies evs)) (MigrateTo m T w).2.state ∧
      0 ≤ stoppedAt C T (okApplies evs) ∧
      ((MigrateTo m T w).1 = .returned none → stoppedAt C T (okApplies evs) = T) ∧
      (∀ e, (MigrateTo m T w).1 = .returned (some e) →
        stoppedAt C T (okApplies evs) ≠ T) ∧
      (MigrateTo m T w).1 ≠ .panicked := by
  have hR : ∀ st, (m.db.RequireSchema st).2 = st := by
    intro st; rw [hdb]; rfl
  have hL : ∀ st, (m.db.ListMigrations st).2 = st := by
    intro st; rw [hdb]; rfl
  have hst1 : w1.state = w.state := by
    have := listMigrations_state m w hR hL hD
    rw [hl] at this
    exact this
  have hmax : maxVersion w1.state = C := by
    rw [hst1]
    exact maxVersion_of_LedgerIs avail C w.state h0 hrows
  have hg : GetVersion m w1 = ((C, none),
      ⟨w1.state, w1.log ++ [⟨.RequireSchema, none⟩, ⟨.GetVersion, none⟩]⟩) := by
    simp [GetVersion, callRequireSchema, callGetVersion, hdb, specLedger, hmax]
  obtain ⟨pre, hpre, hns⟩ := prelude_log m w w1 _ _ _ hl hg
  have hv : ValidSet avail := listMigrations_valid m w avail (by rw [hl])
  have hk0 : okApplies pre = 0 := okApplies_of_no_step pre hns
  have hrows2 : LedgerIs avail C w1.state := by rw [hst1]; exact hrows
  have heq := MigrateTo_eq m w w1 _ avail C T hl hg
  have hstay : ∀ o : Outcome, o ≠ .panicked → (o = .returned none → C = T) →
      (∀ e, o = .returned (some e) → C ≠ T) →
      MigrateTo m T w
        = (o, ⟨w1.state, w1.log ++ [⟨.RequireSchema, none⟩, ⟨.GetVersion, none⟩]⟩) →
      ∃ evs, (MigrateTo m T w).2.log = w.log ++ evs ∧
        LedgerIs avail (stoppedAt C T (okApplies evs)) (MigrateTo m T w).2.state ∧
        0 ≤ stoppedAt C T (okApplies evs) ∧
        ((MigrateTo m T w).1 = .returned none → stoppedAt C T (okApplies evs) = T) ∧
        (∀ e, (MigrateTo m T w).1 = .returned (some e) →
          stoppedAt C T (okApplies evs) ≠ T) ∧
        (MigrateTo m T w).1 ≠ .panicked := by
    intro o ho hs hf hm
    rw [hm]
    refine ⟨pre, hpre, ?_, ?_, ?_, ?_, ho⟩
    · rw [hk0, stoppedAt_zero]; exact hrows2
    · rw [hk0, stoppedAt_zero]; exact h0
    · rw [hk0, stoppedAt_zero]; exact hs
    · rw [hk0, stoppedAt_zero]; exact hf
  by_cases h1 : T = C
  · rw [if_pos h1] at heq
    exact hstay _ (by simp) (fun _ => h1.symm) (fun e he => by cases he) heq
  · rw [if_neg h1] at heq
    by_cases h2 : T < 0
    · rw [if_pos h2] at heq
      exact hstay _ (by simp) (fun he => by cases he) (fun _ _ hh => h1 hh.symm) heq
    · rw [if_neg h2] at heq
      by_cases h3 : T > (avail.length : Int)
      · rw [if_pos h3] at heq
        exact hstay _ (by simp) (fun he => by cases he) (fun _ _ hh => h1 hh.symm) heq
      · rw [if_neg h3] at heq
        have hnp := migrateLoop_ne_panicked m avail T (decide (C < T)) hv (by omega)
          (by omega) (T - C).natAbs C
          ⟨w1.state, w1.log ++ [⟨.RequireSchema, none⟩, ⟨.GetVersion, none⟩]⟩ h0 hCN
          (fun hh => by simp at hh; omega) (fun hh => by simp at hh; omega)
        rw [← heq] at hnp
        by_cases hlt : C < T
        · have hd : decide (C < T) = true := by simpa using hlt
          rw [hd] at heq
          have hloop : ∀ ww : World (List dbMigration),
              migrateLoop m avail T true (if !true then -1 else 1) (T - C).natAbs C ww
                = migrateLoop m avail T true 1 (T - C).natAbs C ww := fun _ => rfl
          rw [hloop] at heq
          obtain ⟨evs, e1, e2, e3, e4, e5⟩ :=
            migrateLoop_ledger_up m fails hdb hRd avail T hv (by omega) (T - C).natAbs C
              ⟨w1.state, w1.log ++ [⟨.RequireSchema, none⟩, ⟨.GetVersion, none⟩]⟩ h0
              (le_of_lt hlt) hrows2
          rw [← heq] at e1 e2 e4 e5
          have hk : stoppedAt C T (okApplies (pre ++ evs)) = C + okApplies evs := by
            rw [okApplies_append, hk0, Nat.zero_add]
            unfold stoppedAt
            rw [if_pos hlt]
          refine ⟨pre ++ evs, ?_, ?_, ?_, ?_, ?_, hnp⟩
          · rw [e1, ← List.append_assoc, ← hpre]
          · rw [hk]; exact e2
          · rw [hk]; omega
          · rw [hk]; exact e4
          · rw [hk]; exact e5
        · have hd : decide (C < T) = false := by simpa using hlt
          rw [hd] at heq
          have hloop : ∀ ww : World (List dbMigration),
              migrateLoop m avail T false (if !false then -1 else 1) (T - C).natAbs C ww
                = migrateLoop m avail T false (-1) (T - C).natAbs C ww := fun _ => rfl
          rw [hloop] at heq
          obtain ⟨evs, e1, e2, e3, e4, e5⟩ :=
            migrateLoop_ledger_down m fails hdb hRd avail T hv (by omega) (T - C).natAbs C
              ⟨w1.state, w1.log ++ [⟨.RequireSchema, none⟩, ⟨.GetVersion, none⟩]⟩
              (by omega) hCN hrows2
          rw [← heq] at e1 e2 e4 e5
          have hk : stoppedAt C T (okApplies (pre ++ evs)) = C - okApplies evs := by
            rw [okApplies_append, hk0, Nat.zero_add]
            unfold stoppedAt
            rw [if_neg hlt]
          refine ⟨pre ++ evs, ?_, ?_, ?_, ?_, ?_, hnp⟩
          · rw [e1, ← List.append_assoc, ← hpre]
          · rw [hk]; exact e2
          · rw [hk]; omega
          · rw [hk]; exact e4
          · rw [hk]; exact e5

/-- C21: with the ledger accessor modelled as the spec prescribes (`specLedger`: a
successful up step inserts the row of that version and name, a successful down step
deletes it, a failed step changes no row, the current version is the greatest ledger
version or 0; which steps fail is arbitrary) and a filesystem that does not touch the
ledger, for every validated set `avail` of size `N`, every `0 ≤ C ≤ N`, every ledger that
holds exactly the versions `1..C` with the filesystem names and every target `T`:
`MigrateTo(T)` does not panic and leaves a ledger that holds exactly the versions `1..v`
with the filesystem names, `v` being the version at which stepping stopped (`C` moved
towards `T` by the number of apply calls that succeeded), so the current version is
then `v`; when `MigrateTo` succeeds `v = T`, and when it fails `v ≠ T`. -/
theorem MigrateTo_ledger (m : migrator (List dbMigration))
    (fails : Bool → Bool → Int → String → String → List dbMigration → Option Error)
    (hdb : m.db = specLedger fails)
    (hD : ∀ st, (m.filesystem.ListMigrationDir st).2 = st)
    (hRd : ∀ f st, (m.filesystem.ReadMigration f st).2 = st)
    (w w1 : World (List dbMigration)) (avail : List migration) (C T : Int)
    (hl : listMigrations m w = (.ok avail, w1)) (h0 : 0 ≤ C)
    (hCN : C ≤ (avail.length : Int)) (hrows : LedgerIs avail C w.state) :
    (MigrateTo m T w).1 ≠ .panicked ∧ (MigrateTo m T w).1 ≠ .outOfFuel ∧
    LedgerIs avail (stoppedAt C T (okApplies (newEvents w (MigrateTo m T w).2)))
      (MigrateTo m T w).2.state ∧
    (m.db.GetVersion (MigrateTo m T w).2.state).1
      = (stoppedAt C T (okApplies (newEvents w (MigrateTo m T w).2)), none) ∧
    ((MigrateTo m T w).1 = .returned none →
      stoppedAt C T (okApplies (newEvents w (MigrateTo m T w).2)) = T ∧
      LedgerIs avail T (MigrateTo m T w).2.state ∧
      (m.db.GetVersion (MigrateTo m T w).2.state).1 = (T, none)) ∧
    (∀ e, (MigrateTo m T w).1 = .returned (some e) →
      stoppedAt C T (okApplies (newEvents w (MigrateTo m T w).2)) ≠ T) := by
  obtain ⟨evs, h1, h2, h3, h4, h5, h6⟩ :=
    MigrateTo_ledger_run m fails hdb hD hRd w w1 avail C T hl h0 hCN hrows
  rw [newEvents_of_log w _ evs h1]
  have hgv : (m.db.GetVersion (MigrateTo m T w).2.state).1
      = (stoppedAt C T (okApplies evs), none) := by
    rw [hdb]
    simp only [specLedger]
    rw [maxVersion_of_LedgerIs avail _ _ h3 h2]
  refine ⟨h6, MigrateTo_terminates m T w, h2, hgv, ?_, h5⟩
  intro hs
  have e := h4 hs
  rw [e] at h2 hgv
  exact ⟨e, h2, hgv⟩

/-- C21, at the three-version fixture with version 1 applied, a target of 3 and a ledger
whose apply call fails at version 3: version 2 is applied, the run fails, and the ledger
holds exactly versions 1 and 2. -/
theorem MigrateTo_ledger_witness :
    ((MigrateTo ⟨specLedger (fun _ _ version _ _ _ =>
          if version = 3 then some (.adapterError "apply failed") else none),
        listingFs threeVersions, false⟩ 3 ⟨[⟨1, "v1"⟩], []⟩).1 ≠ .panicked ∧
      (MigrateTo ⟨specLedger (fun _ _ version _ _ _ =>
          if version = 3 then some (.adapterError "apply failed") else none),
        listingFs threeVersions, false⟩ 3 ⟨[⟨1, "v1"⟩], []⟩).1 ≠ .outOfFuel ∧
      LedgerIs threeMigrations (stoppedAt 1 3 (okApplies (newEvents ⟨[⟨1, "v1"⟩], []⟩
          (MigrateTo ⟨specLedger (fun _ _ version _ _ _ =>
              if version = 3 then some (.adapterError "apply failed") else none),
            listingFs threeVersions, false⟩ 3 ⟨[⟨1, "v1"⟩], []⟩).2)))
        (MigrateTo ⟨specLedger (fun _ _ version _ _ _ =>
            if version = 3 then some (.adapterError "apply failed") else none),
          listingFs threeVersions, false⟩ 3 ⟨[⟨1, "v1"⟩], []⟩).2.state ∧
      ((specLedger (fun _ _ version _ _ _ =>
            if version = 3 then some (.adapterError "apply failed") else none)).GetVersion
          (MigrateTo ⟨specLedger (fun _ _ version _ _ _ =>
              if version = 3 then some (.adapterError "apply failed") else none),
            listingFs threeVersions, false⟩ 3 ⟨[⟨1, "v1"⟩], []⟩).2.state).1
        = (stoppedAt 1 3 (okApplies (newEvents ⟨[⟨1, "v1"⟩], []⟩
            (MigrateTo ⟨specLedger (fun _ _ version _ _ _ =>
                if version = 3 then some (.adapterError "apply failed") else none),
              listingFs threeVersions, false⟩ 3 ⟨[⟨1, "v1"⟩], []⟩).2)), none) ∧
      ((MigrateTo ⟨specLedger (fun _ _ version _ _ _ =>
            if version = 3 then some (.adapterError "apply failed") else none),
          listingFs threeVersions, false⟩ 3 ⟨[⟨1, "v1"⟩], []⟩).1 = .returned none →
        stoppedAt 1 3 (okApplies (newEvents ⟨[⟨1, "v1"⟩], []⟩
            (MigrateTo ⟨specLedger (fun _ _ version _ _ _ =>
                if version = 3 then some (.adapterError "apply failed") else none),
              listingFs threeVersions, false⟩ 3 ⟨[⟨1, "v1"⟩], []⟩).2)) = 3 ∧
        LedgerIs threeMigrations 3
          (MigrateTo ⟨specLedger (fun _ _ version _ _ _ =>
              if version = 3 then some (.adapterError "apply failed") else none),
            listingFs threeVersions, false⟩ 3 ⟨[⟨1, "v1"⟩], []⟩).2.state ∧
        ((specLedger (fun _ _ version _ _ _ =>
              if version = 3 then some (.adapterError "apply failed") else none)).GetVersion
            (MigrateTo ⟨specLedger (fun _ _ version _ _ _ =>
                if version = 3 then some (.adapterError "apply failed") else none),
              listingFs threeVersions, false⟩ 3 ⟨[⟨1, "v1"⟩], []⟩).2.state).1
          = (3, none)) ∧
      (∀ e, (MigrateTo ⟨specLedger (fun _ _ version _ _ _ =>
            if version = 3 then some (.adapterError "apply failed") else none),
          listingFs threeVersions, false⟩ 3 ⟨[⟨1, "v1"⟩], []⟩).1 = .returned (some e) →
        stoppedAt 1 3 (okApplies (newEvents ⟨[⟨1, "v1"⟩], []⟩
            (MigrateTo ⟨specLedger (fun _ _ version _ _ _ =>
                if version = 3 then some (.adapterError "apply failed") else none),
              listingFs threeVersions, false⟩ 3 ⟨[⟨1, "v1"⟩], []⟩).2)) ≠ 3)) ∧
    (MigrateTo ⟨specLedger (fun _ _ version _ _ _ =>
          if version = 3 then some (.adapterError "apply failed") else none),
        listingFs threeVersions, false⟩ 3 ⟨[⟨1, "v1"⟩], []⟩).1
      = .returned (some (.adapterError "apply failed")) ∧
    (MigrateTo ⟨specLedger (fun _ _ version _ _ _ =>
          if version = 3 then some (.adapterError "apply failed") else none),
        listingFs threeVersions, false⟩ 3 ⟨[⟨1, "v1"⟩], []⟩).2.state
      = [⟨1, "v1"⟩, ⟨2, "v2"⟩] ∧
    stoppedAt 1 3 (okApplies (newEvents ⟨[⟨1, "v1"⟩], []⟩
        (MigrateTo ⟨specLedger (fun _ _ version _ _ _ =>
            if version = 3 then some (.adapterError "apply failed") else none),
          listingFs threeVersions, false⟩ 3 ⟨[⟨1, "v1"⟩], []⟩).2)) = 2 :=
  ⟨MigrateTo_ledger ⟨specLedger (fun _ _ version _ _ _ =>
        if version = 3 then some (.adapterError "apply failed") else none),
      listingFs threeVersions, false⟩ (fun _ _ version _ _ _ =>
        if version = 3 then some (.adapterError "apply failed") else none) rfl
      (fun _ => rfl) (fun _ _ => rfl) ⟨[⟨1, "v1"⟩], []⟩
      ⟨[⟨1, "v1"⟩], preludeEvents.take 3⟩ threeMigrations 1 3 (by decide) (by decide)
      (by decide) (List.Perm.refl _),
    by decide, by decide, by decide⟩

/-- C24, at the three-version fixture with version 1 applied and a target of 3. -/
theorem MigrateTo_in_bounds_witness :
    (0 : Int) ≤ 1 ∧ (1 : Int) ≤ (threeMigrations.length : Int) ∧
    (MigrateTo (sampleMigrator threeVersions) 3 ⟨[⟨1, "v1"⟩], []⟩).1 ≠ .panicked ∧
    (MigrateTo (sampleMigrator threeVersions) 3 ⟨[⟨1, "v1"⟩], []⟩).1 ≠ .outOfFuel ∧
    (applyCalls (newEvents ⟨[⟨1, "v1"⟩], []⟩
      (MigrateTo (sampleMigrator threeVersions) 3 ⟨[⟨1, "v1"⟩], []⟩).2)).length
        ≤ ((3 : Int) - 1).natAbs ∧
    ∀ (isUp : Bool) (u : Int) (name : String),
      (isUp, u, name) ∈ applyCalls (newEvents ⟨[⟨1, "v1"⟩], []⟩
        (MigrateTo (sampleMigrator threeVersions) 3 ⟨[⟨1, "v1"⟩], []⟩).2) →
      (∃ mg, sliceAt threeMigrations (u - 1) = some mg ∧ mg.Version = u ∧ mg.Name = name) ∧
      (isUp = true → 1 ≤ u - 1 ∧ u - 1 < 3 ∧ (3 : Int) ≤ (threeMigrations.length : Int)) ∧
      (isUp = false → (0 : Int) ≤ 3 ∧ 3 < u ∧ u ≤ 1) :=
  MigrateTo_in_bounds (sampleMigrator threeVersions) ⟨[⟨1, "v1"⟩], []⟩
    ⟨[⟨1, "v1"⟩], [⟨.RequireSchema, none⟩]⟩
    ⟨[⟨1, "v1"⟩], [⟨.RequireSchema, none⟩, ⟨.ListMigrationDir, none⟩]⟩
    ⟨[⟨1, "v1"⟩], preludeEvents.take 3⟩ ⟨[⟨1, "v1"⟩], preludeEvents⟩
    threeVersions none threeMigrations 1 3
    (by decide) (by decide) (by decide) (by decide) (by decide)

/-! ## Name mismatch between the two scripts of a version -/

/-- The second file of a pair, met after a list that parsed and holds the first file:
the loop fails there with the name mismatch of the version, the slots filled from the
direction of the second file. -/
theorem parseNames_second_of_pair (seen post : List String) (byVersion : MigrationMap)
    (hseen : parseNames seen [] = .ok byVersion) (first second : String)
    (p1 p2 : parsedName) (hmem : first ∈ seen)
    (h1 : parseFilename first = .ok (some p1)) (h2 : parseFilename second = .ok (some p2))
    (hv : p2.version = p1.version) (hne : p1.name ≠ p2.name) :
    parseNames (seen ++ second :: post) [] =
      if p2.up then .err (.migrationNameMismatchError p2.version p2.name p1.name)
      else .err (.migrationNameMismatchError p2.version p1.name p2.name) := by
  obtain ⟨mg, hi, hn⟩ := parseNames_seen_name seen [] byVersion hseen first p1 hmem h1
  rw [parseNames_append, hseen]
  simp only [parseNames, h2, recordMigration, hv, hi, hn, ne_eq, hne, not_false_eq_true,
    if_true]
  cases p2.up <;> simp

/-- A list that holds two recognized files of one version with different names does not
get through the loop. -/
theorem parseNames_pair_fails (names : List String) (first second : String)
    (p1 p2 : parsedName) (hm1 : first ∈ names) (hm2 : second ∈ names)
    (h1 : parseFilename first = .ok (some p1)) (h2 : parseFilename second = .ok (some p2))
    (hv : p2.version = p1.version) (hne : p1.name ≠ p2.name) :
    ∃ e, parseNames names [] = .err e := by
  cases hp : parseNames names [] with
  | panic => exact absurd hp (parseNames_ne_panic names [])
  | err e => exact ⟨e, rfl⟩
  | ok byVersion =>
    obtain ⟨mg1, hi1, hn1⟩ := parseNames_seen_name names [] byVersion hp first p1 hm1 h1
    obtain ⟨mg2, hi2, hn2⟩ := parseNames_seen_name names [] byVersion hp second p2 hm2 h2
    rw [hv, hi1] at hi2
    cases hi2
    exact absurd (hn1.symm.trans hn2) hne

/-- C7 (amended): for an up-script and a down-script that share a version and carry
different name tokens, anywhere in a listing and in either order: every listing that
holds both makes `filenamesToMigrations` fail; and when the entries before the second
file of the pair went through the loop without a failure (`seen`, which holds the first
file of the pair, whatever else stands between and around them), `filenamesToMigrations`
fails with `migrationNameMismatchError` for that version, `upName` being the name of the
up-script and `downName` the name of the down-script, the same error whichever of the
two files came first. -/
theorem filenamesToMigrations_name_mismatch (m : migrator σ) (w : World σ)
    (seen post : List String) (byVersion : MigrationMap)
    (upFile downFile : String) (v : Int) (upName downName : String)
    (hseen : parseNames seen [] = .ok byVersion)
    (hu : parseFilename upFile = .ok (some ⟨v, upName, true, false⟩))
    (hd : parseFilename downFile = .ok (some ⟨v, downName, false, true⟩))
    (hne : upName ≠ downName) :
    (upFile ∈ seen →
      (filenamesToMigrations m (seen ++ downFile :: post) w).1
        = .err (.migrationNameMismatchError v upName downName)) ∧
    (downFile ∈ seen →
      (filenamesToMigrations m (seen ++ upFile :: post) w).1
        = .err (.migrationNameMismatchError v upName downName)) ∧
    (∀ names : List String, upFile ∈ names → downFile ∈ names →
      ∃ e, (filenamesToMigrations m names w).1 = .err e) := by
  refine ⟨?_, ?_, ?_⟩
  · intro hmem
    have h := parseNames_second_of_pair seen post byVersion hseen upFile downFile _ _ hmem
      hu hd rfl hne
    simp only [Bool.false_eq_true, if_false] at h
    simp only [filenamesToMigrations, h]
  · intro hmem
    have h := parseNames_second_of_pair seen post byVersion hseen downFile upFile _ _ hmem
      hd hu rfl (fun e => hne e.symm)
    simp only [if_true] at h
    simp only [filenamesToMigrations, h]
  · intro names hm1 hm2
    obtain ⟨e, he⟩ := parseNames_pair_fails names upFile downFile _ _ hm1 hm2 hu hd rfl hne
    exact ⟨e, by simp only [filenamesToMigrations, he]⟩

/-- C7, at the input of `TestFilenamesToMigrationsMismatchedNames` (the down-script
first), at the same pair in the other order, and at a listing where the scripts of
version 2 stand between the two files of the pair and a further script follows. -/
theorem filenamesToMigrations_name_mismatch_witness :
    (filenamesToMigrations (sampleMigrator [])
        (["0001_name_b.down.sql"] ++ "0001_name_a.up.sql" :: []) ⟨[], []⟩).1
      = .err (.migrationNameMismatchError 1 "name_a" "name_b") ∧
    (filenamesToMigrations (sampleMigrator [])
        (["0001_name_a.up.sql"] ++ "0001_name_b.down.sql" :: []) ⟨[], []⟩).1
      = .err (.migrationNameMismatchError 1 "name_a" "name_b") ∧
    (filenamesToMigrations (sampleMigrator [])
        (["0001_a.up.sql", "0002_x.up.sql", "0002_x.down.sql"] ++
          "0001_b.down.sql" :: ["0003_y.up.sql"]) ⟨[], []⟩).1
      = .err (.migrationNameMismatchError 1 "a" "b") ∧
    (filenamesToMigrations (sampleMigrator [])
        (["0002_x.up.sql", "0001_b.down.sql", "ignored"] ++
          "0001_a.up.sql" :: ["0003_y.up.sql"]) ⟨[], []⟩).1
      = .err (.migrationNameMismatchError 1 "a" "b") :=
  ⟨(filenamesToMigrations_name_mismatch (sampleMigrator []) ⟨[], []⟩
      ["0001_name_b.down.sql"] [] [(1, ⟨1, "name_b", false, true⟩)]
      "0001_name_a.up.sql" "0001_name_b.down.sql" 1 "name_a" "name_b"
      (by decide) (by decide) (by decide) (by decide)).2.1 (by simp),
    (filenamesToMigrations_name_mismatch (sampleMigrator []) ⟨[], []⟩
      ["0001_name_a.up.sql"] [] [(1, ⟨1, "name_a", true, false⟩)]
      "0001_name_a.up.sql" "0001_name_b.down.sql" 1 "name_a" "name_b"
      (by decide) (by decide) (by decide) (by decide)).1 (by simp),
    (filenamesToMigrations_name_mismatch (sampleMigrator []) ⟨[], []⟩
      ["0001_a.up.sql", "0002_x.up.sql", "0002_x.down.sql"] ["0003_y.up.sql"]
      [(1, ⟨1, "a", true, false⟩), (2, ⟨2, "x", true, true⟩)]
      "0001_a.up.sql" "0001_b.down.sql" 1 "a" "b"
      (by decide) (by decide) (by decide) (by decide)).1 (by simp),
    (filenamesToMigrations_name_mismatch (sampleMigrator []) ⟨[], []⟩
      ["0002_x.up.sql", "0001_b.down.sql", "ignored"] ["0003_y.up.sql"]
      [(2, ⟨2, "x", true, false⟩), (1, ⟨1, "b", false, true⟩)]
      "0001_a.up.sql" "0001_b.down.sql" 1 "a" "b"
      (by decide) (by decide) (by decide) (by decide)).2.1 (by simp)⟩

/-- C7 as stated fails in two ways. For two recognized filenames of one direction: two
up-scripts of version 1 named `a` and `b` give `upName = "b"`, `downName = "a"` in one
order and `upName = "a"`, `downName = "b"` in the other, so the fields depend on which
file came first and `downName` holds a name no down-script supplied. And in a listing
where an entry before the pair already fails, that failure is returned instead of the
name mismatch. -/
theorem filenamesToMigrations_name_mismatch_counterexample :
    parseFilename "0001_a.up.sql" = .ok (some ⟨1, "a", true, false⟩) ∧
    parseFilename "0001_b.up.sql" = .ok (some ⟨1, "b", true, false⟩) ∧
    (filenamesToMigrations (sampleMigrator []) ["0001_a.up.sql", "0001_b.up.sql"]
        ⟨[], []⟩).1 = .err (.migrationNameMismatchError 1 "b" "a") ∧
    (filenamesToMigrations (sampleMigrator []) ["0001_b.up.sql", "0001_a.up.sql"]
        ⟨[], []⟩).1 = .err (.migrationNameMismatchError 1 "a" "b") ∧
    parseFilename "0001_b.down.sql" = .ok (some ⟨1, "b", false, true⟩) ∧
    (filenamesToMigrations (sampleMigrator [])
        ["x_c.up.sql", "0001_a.up.sql", "0001_b.down.sql"] ⟨[], []⟩).1
      = .err (.badMigrationFilenameError "x_c.up.sql" "" (some .ErrSyntax)) := by
  decide

end Libmigrate
